import Mathlib

/-!
Verification development for the term representation and semantic operations
of a small dependently-typed C-like language: the AST data model, structural
equality, deep copy, free-variable analysis, and capture-avoiding
substitution, translated from the C sources (`expr_equal`, `expr_copy`,
`expr_free_vars`, `expr_subst`, `statement_*`, `block_*`).

Modelling conventions:
* Interned symbols are modelled as natural numbers (`Sym := Nat`); symbol
  equality in the C is handle identity, which becomes `Nat` equality.
* The symbol registry's gensym counter is the `Context`: `symbol_gensym`
  returns the counter as the fresh symbol and increments it.  (The interner
  itself is external to the sources; per its contract a gensym result is
  distinct from every previously interned symbol, which holds here whenever
  every symbol in scope is below the counter.)
* Symbol sets (`SymbolSet`) are modelled as `Finset Nat`; `symbol_set_add`
  is `insert`, `symbol_set_delete` is `Finset.erase`, `symbol_set_union`
  is `∪`, `symbol_set_contains` is `∈`.
* The C mutates terms in place and returns a success boolean; substitution
  is modelled functionally as returning `Bool × term × Context`, where the
  returned term is the (possibly partially) mutated one, also on failure.
* The C recursion of `expr_subst` re-enters freshly mutated subtrees, so the
  Lean model carries a `fuel` argument that is decremented exactly at those
  re-entrant call sites; on exhaustion it returns failure with the term
  unchanged.  With sufficient fuel the model computes exactly what the C
  computes.
-/

set_option linter.unusedVariables false

namespace DepC

/-- Interned symbol handle. -/
abbrev Sym := Nat

/-- Gensym state: the next fresh symbol. -/
abbrev Context := Nat

/-- `symbol_gensym` returns a fresh symbol and the advanced context.
Modelled from the spec: the symbol registry is external to the sources;
§4.A requires `gensym(base)` to return a symbol never previously returned,
modelled as handing out the counter. -/
def symbol_gensym (ctx : Context) : Sym × Context := (ctx, ctx + 1)

/-- Literal tags, from `LiteralTag`/`Literal`. -/
inductive Literal where
  | type | void | u8 | s8 | u16 | s16 | u32 | s32 | u64 | s64 | bool
  | integral (n : Nat)
  | boolean (b : Bool)

/-- Binary operators, from `BinaryOp`. -/
inductive BinaryOp where
  | eq | ne | lt | lte | gt | gte | add | sub | andThen
deriving DecidableEq

mutual

/-- Expressions, from `struct Expr` (source locations are not modelled:
no specified operation observes them). -/
inductive Expr where
  | literal (l : Literal)
  | ident (s : Sym)
  | binOp (op : BinaryOp) (e1 e2 : Expr)
  | ifThenElse (pred then_ else_ : Expr)
  | funcType (retType : Expr) (params : ParamList)
  | lambda (params : NParamList) (body : Expr)
  | call (func : Expr) (args : ExprList)
  | struct (fields : NParamList)
  | union (fields : NParamList)
  | pack (type : Expr) (assigns : AssignList)
  | member (record : Expr) (field : Sym)
  | pointer (e : Expr)
  | reference (e : Expr)
  | dereference (e : Expr)
  | statement (s : Statement)

/-- Parallel arrays `param_types`/`param_names` of `func_type`
(names may be absent). -/
inductive ParamList where
  | nil
  | cons (ty : Expr) (name : Option Sym) (rest : ParamList)

/-- Parallel arrays of types and (mandatory) names: `lambda` params,
`struct_`/`union_` fields. -/
inductive NParamList where
  | nil
  | cons (ty : Expr) (name : Sym) (rest : NParamList)

/-- Expression array, for `call.args`. -/
inductive ExprList where
  | nil
  | cons (e : Expr) (rest : ExprList)

/-- Parallel arrays `field_names`/`assigns` of `pack`. -/
inductive AssignList where
  | nil
  | cons (name : Sym) (e : Expr) (rest : AssignList)

/-- Statements, from `struct Statement`. -/
inductive Statement where
  | empty
  | expr (e : Expr)
  | ret (e : Expr)
  | block (b : Block)
  | decl (type : Expr) (name : Sym) (init : Option Expr)
  | ifThenElse (ifs : IfList) (else_ : Block)

/-- Parallel arrays `ifs`/`thens` of a statement-level `ifthenelse`. -/
inductive IfList where
  | nil
  | cons (cond : Expr) (then_ : Block) (rest : IfList)

/-- Blocks, from `struct Block`. -/
inductive Block where
  | mk (stmts : StmtList)

/-- Statement array of a block. -/
inductive StmtList where
  | nil
  | cons (s : Statement) (rest : StmtList)

end

mutual

/-- Payload-independent size of an expression (number of AST nodes);
used to measure fuel needs of substitution. -/
def Expr.esize : Expr → Nat
  | .literal _ => 1
  | .ident _ => 1
  | .binOp _ e1 e2 => e1.esize + e2.esize + 1
  | .ifThenElse p t e => p.esize + t.esize + e.esize + 1
  | .funcType ret ps => ret.esize + ps.esize + 1
  | .lambda ps b => ps.esize + b.esize + 1
  | .call f args => f.esize + args.esize + 1
  | .struct fs => fs.esize + 1
  | .union fs => fs.esize + 1
  | .pack ty asg => ty.esize + asg.esize + 1
  | .member r _ => r.esize + 1
  | .pointer e => e.esize + 1
  | .reference e => e.esize + 1
  | .dereference e => e.esize + 1
  | .statement s => s.esize + 1
termination_by structural t => t

/-- Size of a `ParamList`. -/
def ParamList.esize : ParamList → Nat
  | .nil => 1
  | .cons ty _ rest => ty.esize + rest.esize + 1
termination_by structural t => t

/-- Size of an `NParamList`. -/
def NParamList.esize : NParamList → Nat
  | .nil => 1
  | .cons ty _ rest => ty.esize + rest.esize + 1
termination_by structural t => t

/-- Size of an `ExprList`. -/
def ExprList.esize : ExprList → Nat
  | .nil => 1
  | .cons e rest => e.esize + rest.esize + 1
termination_by structural t => t

/-- Size of an `AssignList`. -/
def AssignList.esize : AssignList → Nat
  | .nil => 1
  | .cons _ e rest => e.esize + rest.esize + 1
termination_by structural t => t

/-- Size of a `Statement`. -/
def Statement.esize : Statement → Nat
  | .empty => 1
  | .expr e => e.esize + 1
  | .ret e => e.esize + 1
  | .block b => b.esize + 1
  | .decl ty _ none => ty.esize + 1
  | .decl ty _ (some v) => ty.esize + v.esize + 1
  | .ifThenElse ifs els => ifs.esize + els.esize + 1
termination_by structural t => t

/-- Size of an `IfList`. -/
def IfList.esize : IfList → Nat
  | .nil => 1
  | .cons c t rest => c.esize + t.esize + rest.esize + 1
termination_by structural t => t

/-- Size of a `Block`. -/
def Block.esize : Block → Nat
  | .mk stmts => stmts.esize + 1
termination_by structural t => t

/-- Size of a `StmtList`. -/
def StmtList.esize : StmtList → Nat
  | .nil => 1
  | .cons s rest => s.esize + rest.esize + 1
termination_by structural t => t
end

/-- Number of parameters in a `ParamList` (`num_params`). -/
def ParamList.length : ParamList → Nat
  | .nil => 0
  | .cons _ _ rest => rest.length + 1

/-- Number of entries in an `NParamList` (`num_params`/`num_fields`). -/
def NParamList.length : NParamList → Nat
  | .nil => 0
  | .cons _ _ rest => rest.length + 1

/-- Number of assignments in an `AssignList` (`num_assigns`). -/
def AssignList.length : AssignList → Nat
  | .nil => 0
  | .cons _ _ rest => rest.length + 1

/-- The field names of an `NParamList`, in order. -/
def NParamList.names : NParamList → List Sym
  | .nil => []
  | .cons _ n rest => n :: rest.names

/-- The field names of an `AssignList`, in order. -/
def AssignList.names : AssignList → List Sym
  | .nil => []
  | .cons n _ rest => n :: rest.names

/-- The statements of a block's array, as a `List`. -/
def StmtList.toList : StmtList → List Statement
  | .nil => []
  | .cons s rest => s :: rest.toList

/-- `literal_equal`: same tag, and equal payload for `Integral`/`Boolean`. -/
def literal_equal (x y : Literal) : Bool :=
  match x, y with
  | .type, .type => true
  | .void, .void => true
  | .u8, .u8 => true
  | .s8, .s8 => true
  | .u16, .u16 => true
  | .s16, .s16 => true
  | .u32, .u32 => true
  | .s32, .s32 => true
  | .u64, .u64 => true
  | .s64, .s64 => true
  | .bool, .bool => true
  | .integral m, .integral n => m == n
  | .boolean a, .boolean b => a == b
  | _, _ => false

/-- The body of the `EXPR_LAMBDA` loop of `expr_equal`: for each index the C
compares `x->lambda.param_types` with `y->lambda.param_types` — the *first*
parameter types, not the i-th ones — together with the i-th names.  The
(index-independent) comparison of the first types is evaluated once and
passed in as `headTypesEqual`; conjoining it once per index is the same
boolean. -/
def lambda_params_equal (headTypesEqual : Bool) : NParamList → NParamList → Bool
  | .nil, .nil => true
  | .cons _ nx xrest, .cons _ ny yrest =>
      headTypesEqual && nx == ny && lambda_params_equal headTypesEqual xrest yrest
  | _, _ => false

mutual

/-- `expr_equal`: structural equality over expressions, translated case by
case from the source (including its `bin_op.op != y->bin_op.op` comparison,
its first-element comparison in the `EXPR_LAMBDA` loop, and its `EXPR_STATEMENT`
case returning false). -/
def expr_equal (x y : Expr) : Bool :=
  match x, y with
  | .literal lx, .literal ly => literal_equal lx ly
  | .ident sx, .ident sy => sx == sy
  | .binOp opx x1 x2, .binOp opy y1 y2 =>
      opx != opy && expr_equal x1 y1 && expr_equal x2 y2
  | .ifThenElse px tx ex, .ifThenElse py ty ey =>
      expr_equal px py && expr_equal tx ty && expr_equal ex ey
  | .funcType rx psx, .funcType ry psy =>
      expr_equal rx ry && func_type_params_equal psx psy
  | .lambda psx bx, .lambda psy by_ =>
      (match psx, psy with
       | .nil, .nil => true
       | .cons tx _ _, .cons ty_ _ _ => lambda_params_equal (expr_equal tx ty_) psx psy
       | _, _ => false)
      && expr_equal bx by_
  | .call fx ax, .call fy ay => expr_equal fx fy && args_equal ax ay
  | .struct fsx, .struct fsy => fields_equal fsx fsy
  | .union fsx, .union fsy => fields_equal fsx fsy
  | .pack tx ax, .pack ty_ ay => expr_equal tx ty_ && assigns_equal ax ay
  | .member rx fx, .member ry fy => expr_equal rx ry && fx == fy
  | .pointer ex, .pointer ey => expr_equal ex ey
  | .reference ex, .reference ey => expr_equal ex ey
  | .dereference ex, .dereference ey => expr_equal ex ey
  | .statement _, .statement _ => false
  | _, _ => false
termination_by structural x

/-- The `EXPR_FUNC_TYPE` loop of `expr_equal`: pairwise types and names
(`NULL` names equal only `NULL`), with the length check folded into the
shape match. -/
def func_type_params_equal : ParamList → ParamList → Bool
  | .nil, .nil => true
  | .cons tx nx xrest, .cons ty_ ny yrest =>
      expr_equal tx ty_ && nx == ny && func_type_params_equal xrest yrest
  | _, _ => false
termination_by structural a b => a

/-- The `EXPR_CALL` argument loop of `expr_equal`. -/
def args_equal : ExprList → ExprList → Bool
  | .nil, .nil => true
  | .cons ex xrest, .cons ey yrest =>
      expr_equal ex ey && args_equal xrest yrest
  | _, _ => false
termination_by structural a b => a

/-- The `EXPR_STRUCT`/`EXPR_UNION` field loop of `expr_equal`. -/
def fields_equal : NParamList → NParamList → Bool
  | .nil, .nil => true
  | .cons tx nx xrest, .cons ty_ ny yrest =>
      expr_equal tx ty_ && nx == ny && fields_equal xrest yrest
  | _, _ => false
termination_by structural a b => a

/-- The `EXPR_PACK` assignment loop of `expr_equal`. -/
def assigns_equal : AssignList → AssignList → Bool
  | .nil, .nil => true
  | .cons nx ex xrest, .cons ny ey yrest =>
      nx == ny && expr_equal ex ey && assigns_equal xrest yrest
  | _, _ => false
termination_by structural a b => a
end

/-- `literal_copy`: literals are returned unchanged (`return *x`). -/
def literal_copy (x : Literal) : Literal := x

mutual

/-- `expr_copy`: recursively clone an expression; symbol handles are shared. -/
def expr_copy : Expr → Expr
  | .literal l => .literal (literal_copy l)
  | .ident s => .ident s
  | .binOp op e1 e2 => .binOp op (expr_copy e1) (expr_copy e2)
  | .ifThenElse p t e => .ifThenElse (expr_copy p) (expr_copy t) (expr_copy e)
  | .funcType ret ps => .funcType (expr_copy ret) (params_copy ps)
  | .lambda ps b => .lambda (nparams_copy ps) (expr_copy b)
  | .call f args => .call (expr_copy f) (args_copy args)
  | .struct fs => .struct (nparams_copy fs)
  | .union fs => .union (nparams_copy fs)
  | .pack ty asg => .pack (expr_copy ty) (assigns_copy asg)
  | .member r f => .member (expr_copy r) f
  | .pointer e => .pointer (expr_copy e)
  | .reference e => .reference (expr_copy e)
  | .dereference e => .dereference (expr_copy e)
  | .statement s => .statement (statement_copy s)
termination_by structural t => t

/-- The `EXPR_FUNC_TYPE` copy loop. -/
def params_copy : ParamList → ParamList
  | .nil => .nil
  | .cons ty n rest => .cons (expr_copy ty) n (params_copy rest)
termination_by structural t => t

/-- The copy loop for named type/name arrays (`lambda`, `struct_`, `union_`). -/
def nparams_copy : NParamList → NParamList
  | .nil => .nil
  | .cons ty n rest => .cons (expr_copy ty) n (nparams_copy rest)
termination_by structural t => t

/-- The `EXPR_CALL` argument copy loop. -/
def args_copy : ExprList → ExprList
  | .nil => .nil
  | .cons e rest => .cons (expr_copy e) (args_copy rest)
termination_by structural t => t

/-- The `EXPR_PACK` assignment copy loop. -/
def assigns_copy : AssignList → AssignList
  | .nil => .nil
  | .cons n e rest => .cons n (expr_copy e) (assigns_copy rest)
termination_by structural t => t

/-- `statement_copy`. -/
def statement_copy : Statement → Statement
  | .empty => .empty
  | .expr e => .expr (expr_copy e)
  | .ret e => .ret (expr_copy e)
  | .block b => .block (block_copy b)
  | .decl ty n none => .decl (expr_copy ty) n none
  | .decl ty n (some v) => .decl (expr_copy ty) n (some (expr_copy v))
  | .ifThenElse ifs els => .ifThenElse (ifs_copy ifs) (block_copy els)
termination_by structural t => t

/-- The `STATEMENT_IFTHENELSE` copy loops. -/
def ifs_copy : IfList → IfList
  | .nil => .nil
  | .cons c t rest => .cons (expr_copy c) (block_copy t) (ifs_copy rest)
termination_by structural t => t

/-- `block_copy`. -/
def block_copy : Block → Block
  | .mk stmts => .mk (stmts_copy stmts)
termination_by structural t => t

/-- The statement copy loop of `block_copy`. -/
def stmts_copy : StmtList → StmtList
  | .nil => .nil
  | .cons s rest => .cons (statement_copy s) (stmts_copy rest)
termination_by structural t => t
end

/-! Free-variable analysis, from `expr_free_vars` / `statement_free_vars` /
`block_free_vars`.  The `SymbolSet` out-parameter becomes a return value. -/

/-- Delete, from a set, every parameter name present in a `ParamList`
(first loop of the `EXPR_FUNC_TYPE` case of `expr_free_vars`). -/
def params_delete_names (ps : ParamList) (s : Finset Sym) : Finset Sym :=
  match ps with
  | .nil => s
  | .cons _ none rest => params_delete_names rest s
  | .cons _ (some n) rest => params_delete_names rest (s.erase n)

/-- Delete, from a set, every name present in an `NParamList`
(first loop of the `EXPR_LAMBDA` case of `expr_free_vars`). -/
def nparams_delete_names (ps : NParamList) (s : Finset Sym) : Finset Sym :=
  match ps with
  | .nil => s
  | .cons _ n rest => nparams_delete_names rest (s.erase n)

/-- Delete from `s` each symbol of `seen`, one by one (the inner `j < i`
loops of `expr_free_vars`). -/
def delete_seen (seen : List Sym) (s : Finset Sym) : Finset Sym :=
  seen.foldl Finset.erase s

mutual

/-- `expr_free_vars`. -/
def expr_free_vars : Expr → Finset Sym
  | .literal _ => ∅
  | .ident s => insert s ∅
  | .binOp _ e1 e2 => expr_free_vars e1 ∪ expr_free_vars e2
  | .ifThenElse p t e =>
      expr_free_vars p ∪ expr_free_vars t ∪ expr_free_vars e
  | .funcType ret ps =>
      params_delete_names ps (expr_free_vars ret) ∪ func_type_params_fv ps []
  | .lambda ps b =>
      nparams_delete_names ps (expr_free_vars b) ∪ nparams_fv ps []
  | .call f args => call_args_fv args (expr_free_vars f)
  | .struct fs => nparams_fv fs []
  | .union fs => union_fields_fv fs
  | .pack ty asg => pack_assigns_fv asg (expr_free_vars ty)
  | .member r _ => expr_free_vars r
  | .pointer e => expr_free_vars e
  | .reference e => expr_free_vars e
  | .dereference e => expr_free_vars e
  | .statement s => statement_free_vars s
termination_by structural t => t

/-- Second loop of the `EXPR_FUNC_TYPE` case: each parameter type's free
vars minus the names of the parameters before it, all unioned.  `seen`
accumulates the earlier parameter names (present ones only). -/
def func_type_params_fv : ParamList → List Sym → Finset Sym
  | .nil, _ => ∅
  | .cons ty n rest, seen =>
      delete_seen seen (expr_free_vars ty) ∪
        func_type_params_fv rest (match n with | some nm => seen ++ [nm] | none => seen)
termination_by structural a seen => a

/-- Second loop of the `EXPR_LAMBDA` case and the `EXPR_STRUCT` loop:
each type's free vars minus the earlier names, unioned. -/
def nparams_fv : NParamList → List Sym → Finset Sym
  | .nil, _ => ∅
  | .cons ty n rest, seen =>
      delete_seen seen (expr_free_vars ty) ∪ nparams_fv rest (seen ++ [n])
termination_by structural a seen => a

/-- The `EXPR_UNION` loop: field names do not bind. -/
def union_fields_fv : NParamList → Finset Sym
  | .nil => ∅
  | .cons ty _ rest => expr_free_vars ty ∪ union_fields_fv rest
termination_by structural t => t

/-- The `EXPR_CALL` argument loop, unioning into the accumulated set. -/
def call_args_fv : ExprList → Finset Sym → Finset Sym
  | .nil, fv => fv
  | .cons e rest, fv => call_args_fv rest (fv ∪ expr_free_vars e)
termination_by structural a fv => a

/-- The `EXPR_PACK` assignment loop, unioning into the accumulated set. -/
def pack_assigns_fv : AssignList → Finset Sym → Finset Sym
  | .nil, fv => fv
  | .cons _ e rest, fv => pack_assigns_fv rest (fv ∪ expr_free_vars e)
termination_by structural a fv => a

/-- `statement_free_vars`.  The `STATEMENT_IFTHENELSE` case mirrors the
source exactly: each iteration unions the condition's vars into the
accumulator, then *overwrites* the accumulator with the then-block's vars
(the out-parameter call `block_free_vars(&thens[i], free_vars)`), then
unions the condition's vars again. -/
def statement_free_vars : Statement → Finset Sym
  | .empty => ∅
  | .expr e => expr_free_vars e
  | .ret e => expr_free_vars e
  | .block b => block_free_vars b
  | .decl ty _ none => expr_free_vars ty
  | .decl ty _ (some v) => expr_free_vars ty ∪ expr_free_vars v
  | .ifThenElse ifs els => stmt_ifs_fv ifs (block_free_vars els)
termination_by structural t => t

/-- The `STATEMENT_IFTHENELSE` loop of `statement_free_vars` (see above). -/
def stmt_ifs_fv : IfList → Finset Sym → Finset Sym
  | .nil, fv => fv
  | .cons c t rest, fv =>
      let temp := expr_free_vars c
      let _fv := fv ∪ temp
      let fv2 := block_free_vars t
      stmt_ifs_fv rest (fv2 ∪ temp)
termination_by structural a fv => a

/-- `block_free_vars`: statements are visited from last to first
(`block->statements[num_statements - i - 1]`); for a `Decl` the declared
name is deleted from the accumulated set before that statement's own free
vars are unioned in. -/
def block_free_vars : Block → Finset Sym
  | .mk stmts => block_fv_loop stmts
termination_by structural t => t

/-- The loop of `block_free_vars`: the recursion first accumulates the free
vars of the *later* statements, then handles the current one, matching the
last-to-first iteration order of the source. -/
def block_fv_loop : StmtList → Finset Sym
  | .nil => ∅
  | .cons st rest =>
      let fv := block_fv_loop rest
      let fv :=
        match st with
        | .decl _ d _ => fv.erase d
        | _ => fv
      fv ∪ statement_free_vars st
termination_by structural t => t
end

/-- `ps.length < sizeOf ps`, needed for the termination measure of the
substitution functions. -/
theorem params_length_lt_sizeOf : (ps : ParamList) → ps.length < sizeOf ps
  | .nil => by simp [ParamList.length]
  | .cons ty n rest => by
      have h := params_length_lt_sizeOf rest
      simp only [ParamList.length, ParamList.cons.sizeOf_spec]
      omega

/-- `ps.length < sizeOf ps` for `NParamList`. -/
theorem nparams_length_lt_sizeOf : (ps : NParamList) → ps.length < sizeOf ps
  | .nil => by simp [NParamList.length]
  | .cons ty n rest => by
      have h := nparams_length_lt_sizeOf rest
      simp only [NParamList.length, NParamList.cons.sizeOf_spec]
      omega

/-! Capture-avoiding substitution, from `expr_subst` and its helpers.
The C mutates `expr` in place and returns a success boolean; here each
function returns the boolean together with the mutated term and the
updated gensym context.  On failure the partially mutated term is
returned, matching the in-place semantics.  `fuel` is decremented only
where the C re-enters a subtree it has just mutated (the rename loop over
`param_types[i]` and the substitutions into the already-renamed return
type / body); on exhaustion the result is failure with the term
unchanged.  All other recursion is structural, so with enough fuel the
model computes exactly what the C computes. -/

mutual

/-- `expr_subst`.  Recursion is structural on `fuel`, which bounds the
recursion depth of the C execution (every recursive call runs at
`fuel - 1`); with `fuel` at least the actual recursion depth — e.g. the
bound of `expr_subst_ok_of_no_struct_pack` — the model computes exactly
what the C computes.  Note the `EXPR_IDENT` case of the source: it frees
the node and overwrites it with a copy of the replacement *without
comparing the identifier against `name`*. -/
def expr_subst (fuel : Nat) (ctx : Context) (e : Expr) (name : Sym) (r : Expr) :
    Bool × Expr × Context :=
  match fuel with
  | 0 => (false, e, ctx)
  | fuel + 1 =>
    match e with
    | .literal _ => (true, e, ctx)
    | .ident _ => (true, expr_copy r, ctx)
    | .binOp op e1 e2 =>
        let (b1, e1', c1) := expr_subst fuel ctx e1 name r
        if b1 then
          let (b2, e2', c2) := expr_subst fuel c1 e2 name r
          (b2, .binOp op e1' e2', c2)
        else (false, .binOp op e1' e2, c1)
    | .ifThenElse p t el =>
        let (b1, p', c1) := expr_subst fuel ctx p name r
        if b1 then
          let (b2, t', c2) := expr_subst fuel c1 t name r
          if b2 then
            let (b3, el', c3) := expr_subst fuel c2 el name r
            (b3, .ifThenElse p' t' el', c3)
          else (false, .ifThenElse p' t' el, c2)
        else (false, .ifThenElse p' t el, c1)
    | .funcType ret ps =>
        let fv := expr_free_vars r
        let (b, ps', ret', c) := func_type_subst_params fuel ctx ps ret name r fv
        (b, .funcType ret' ps', c)
    | .lambda ps body =>
        let fv := expr_free_vars r
        let (b, ps', body', c) := lambda_subst_params fuel ctx ps body name r fv
        (b, .lambda ps' body', c)
    | .call f args =>
        let (b1, f', c1) := expr_subst fuel ctx f name r
        if b1 then
          let (b2, args', c2) := call_subst_args fuel c1 args name r
          (b2, .call f' args', c2)
        else (false, .call f' args, c1)
    | .struct fs =>
        let fv := expr_free_vars r
        let (b, fs', c) := struct_subst_fields fuel ctx fs name r fv
        (b, .struct fs', c)
    | .union fs =>
        let (b, fs', c) := union_subst_fields fuel ctx fs name r
        (b, .union fs', c)
    | .pack ty asg =>
        let fv := expr_free_vars r
        let (b, asg', c) := pack_subst_assigns fuel ctx asg name r fv
        (b, .pack ty asg', c)
    | .member rc f =>
        let (b, rc', c) := expr_subst fuel ctx rc name r
        (b, .member rc' f, c)
    | .pointer e1 =>
        let (b, e1', c) := expr_subst fuel ctx e1 name r
        (b, .pointer e1', c)
    | .reference e1 =>
        let (b, e1', c) := expr_subst fuel ctx e1 name r
        (b, .reference e1', c)
    | .dereference e1 =>
        let (b, e1', c) := expr_subst fuel ctx e1 name r
        (b, .dereference e1', c)
    | .statement st =>
        let (b, st', c) := statement_subst fuel ctx st name r
        (b, .statement st', c)
termination_by structural fuel

/-- Apply `expr_subst · name r` to the same term `k` times in sequence,
fail-fast: the inner `for (j = i + 1; ...)` loops of
`expr_func_type_subst`/`expr_lambda_subst`, which substitute into
`param_types[i]` at every iteration. -/
def subst_iterate (fuel : Nat) (ctx : Context) (e : Expr) (name : Sym) (r : Expr)
    (k : Nat) : Bool × Expr × Context :=
  match k with
  | 0 => (true, e, ctx)
  | k + 1 =>
    match fuel with
    | 0 => (false, e, ctx)
    | fuel + 1 =>
        let (b, e', c) := expr_subst fuel ctx e name r
        if b then subst_iterate fuel c e' name r k else (false, e', c)
termination_by structural fuel

/-- The parameter loop of `expr_func_type_subst`, with the return type
threaded through as it is mutated in place.  For each parameter: substitute
into its type; a present name equal to `name` shadows (early success); a
present name in `fv` is α-renamed via gensym, after which the source
substitutes the old name by the fresh identifier into `param_types[i]`
once per remaining parameter (lines 432–438: the loop index `j` is never
used, so the *current*, already processed type is substituted into, not
the later parameter types) and into the return type. -/
def func_type_subst_params (fuel : Nat) (ctx : Context) (ps : ParamList) (ret : Expr)
    (name : Sym) (r : Expr) (fv : Finset Sym) : Bool × ParamList × Expr × Context :=
  match fuel with
  | 0 => (false, ps, ret, ctx)
  | fuel + 1 =>
    match ps with
    | .nil =>
        let (b, ret', c) := expr_subst fuel ctx ret name r
        (b, ParamList.nil, ret', c)
    | .cons ty pname rest =>
        let (b1, ty1, c1) := expr_subst fuel ctx ty name r
        if b1 then
          match pname with
          | none =>
              let (b, rest', ret', c) := func_type_subst_params fuel c1 rest ret name r fv
              (b, .cons ty1 none rest', ret', c)
          | some p =>
              if p = name then (true, .cons ty1 (some p) rest, ret, c1)
              else if p ∈ fv then
                let (fresh, c2) := symbol_gensym c1
                let (b2, ty2, c3) := subst_iterate fuel c2 ty1 p (.ident fresh) rest.length
                if b2 then
                  let (b3, ret1, c4) := expr_subst fuel c3 ret p (.ident fresh)
                  if b3 then
                    let (b, rest', ret', c) :=
                      func_type_subst_params fuel c4 rest ret1 name r fv
                    (b, .cons ty2 (some fresh) rest', ret', c)
                  else (false, .cons ty2 (some fresh) rest, ret1, c4)
                else (false, .cons ty2 (some fresh) rest, ret, c3)
              else
                let (b, rest', ret', c) := func_type_subst_params fuel c1 rest ret name r fv
                (b, .cons ty1 (some p) rest', ret', c)
        else (false, .cons ty1 pname rest, ret, c1)
termination_by structural fuel

/-- The parameter loop of `expr_lambda_subst`, with the body threaded
through.  Same shape as the `FuncType` loop with mandatory names.  The
source's inner rename loop reads its bound through the inactive union
member `func_type.num_params`; the header fixing the union layout is not
among the sources, so the bound is modelled from the spec (§4.G) as the
lambda's own remaining-parameter count. -/
def lambda_subst_params (fuel : Nat) (ctx : Context) (ps : NParamList) (body : Expr)
    (name : Sym) (r : Expr) (fv : Finset Sym) : Bool × NParamList × Expr × Context :=
  match fuel with
  | 0 => (false, ps, body, ctx)
  | fuel + 1 =>
    match ps with
    | .nil =>
        let (b, body', c) := expr_subst fuel ctx body name r
        (b, NParamList.nil, body', c)
    | .cons ty p rest =>
        let (b1, ty1, c1) := expr_subst fuel ctx ty name r
        if b1 then
          if p = name then (true, .cons ty1 p rest, body, c1)
          else if p ∈ fv then
            let (fresh, c2) := symbol_gensym c1
            let (b2, ty2, c3) := subst_iterate fuel c2 ty1 p (.ident fresh) rest.length
            if b2 then
              let (b3, body1, c4) := expr_subst fuel c3 body p (.ident fresh)
              if b3 then
                let (b, rest', body', c) := lambda_subst_params fuel c4 rest body1 name r fv
                (b, .cons ty2 fresh rest', body', c)
              else (false, .cons ty2 fresh rest, body1, c4)
            else (false, .cons ty2 fresh rest, body, c3)
          else
            let (b, rest', body', c) := lambda_subst_params fuel c1 rest body name r fv
            (b, .cons ty1 p rest', body', c)
        else (false, .cons ty1 p rest, body, c1)
termination_by structural fuel

/-- The field loop of `expr_struct_subst`: substitute into each field type;
a field name equal to `name` shadows (early success); a field name in `fv`
makes the whole substitution fail — no α-renaming of field names is ever
performed. -/
def struct_subst_fields (fuel : Nat) (ctx : Context) (fs : NParamList)
    (name : Sym) (r : Expr) (fv : Finset Sym) : Bool × NParamList × Context :=
  match fuel with
  | 0 => (false, fs, ctx)
  | fuel + 1 =>
    match fs with
    | .nil => (true, .nil, ctx)
    | .cons ty fn rest =>
        let (b1, ty1, c1) := expr_subst fuel ctx ty name r
        if b1 then
          if fn = name then (true, .cons ty1 fn rest, c1)
          else if fn ∈ fv then (false, .cons ty1 fn rest, c1)
          else
            let (b, rest', c) := struct_subst_fields fuel c1 rest name r fv
            (b, .cons ty1 fn rest', c)
        else (false, .cons ty1 fn rest, c1)
termination_by structural fuel

/-- The `EXPR_UNION` loop of `expr_subst`: substitute into every field
type; field names do not bind. -/
def union_subst_fields (fuel : Nat) (ctx : Context) (fs : NParamList)
    (name : Sym) (r : Expr) : Bool × NParamList × Context :=
  match fuel with
  | 0 => (false, fs, ctx)
  | fuel + 1 =>
    match fs with
    | .nil => (true, .nil, ctx)
    | .cons ty fn rest =>
        let (b1, ty1, c1) := expr_subst fuel ctx ty name r
        if b1 then
          let (b, rest', c) := union_subst_fields fuel c1 rest name r
          (b, .cons ty1 fn rest', c)
        else (false, .cons ty1 fn rest, c1)
termination_by structural fuel

/-- The assignment loop of `expr_pack_subst`: substitute into each
assignment; shadow and capture checks on the field names exactly as for
`Struct`; the pack's type component is never touched. -/
def pack_subst_assigns (fuel : Nat) (ctx : Context) (asg : AssignList)
    (name : Sym) (r : Expr) (fv : Finset Sym) : Bool × AssignList × Context :=
  match fuel with
  | 0 => (false, asg, ctx)
  | fuel + 1 =>
    match asg with
    | .nil => (true, .nil, ctx)
    | .cons fn e rest =>
        let (b1, e1, c1) := expr_subst fuel ctx e name r
        if b1 then
          if fn = name then (true, .cons fn e1 rest, c1)
          else if fn ∈ fv then (false, .cons fn e1 rest, c1)
          else
            let (b, rest', c) := pack_subst_assigns fuel c1 rest name r fv
            (b, .cons fn e1 rest', c)
        else (false, .cons fn e1 rest, c1)
termination_by structural fuel

/-- The `EXPR_CALL` argument loop of `expr_subst`, fail-fast. -/
def call_subst_args (fuel : Nat) (ctx : Context) (args : ExprList)
    (name : Sym) (r : Expr) : Bool × ExprList × Context :=
  match fuel with
  | 0 => (false, args, ctx)
  | fuel + 1 =>
    match args with
    | .nil => (true, .nil, ctx)
    | .cons e rest =>
        let (b1, e1, c1) := expr_subst fuel ctx e name r
        if b1 then
          let (b, rest', c) := call_subst_args fuel c1 rest name r
          (b, .cons e1 rest', c)
        else (false, .cons e1 rest, c1)
termination_by structural fuel

/-- `statement_subst`.  A `Decl` substitutes into its type and, when
initialized, its initial value; the declared name is not consulted. -/
def statement_subst (fuel : Nat) (ctx : Context) (st : Statement)
    (name : Sym) (r : Expr) : Bool × Statement × Context :=
  match fuel with
  | 0 => (false, st, ctx)
  | fuel + 1 =>
    match st with
    | .empty => (true, st, ctx)
    | .expr e =>
        let (b, e', c) := expr_subst fuel ctx e name r
        (b, .expr e', c)
    | .ret e =>
        let (b, e', c) := expr_subst fuel ctx e name r
        (b, .ret e', c)
    | .block bl =>
        let (b, bl', c) := block_subst fuel ctx bl name r
        (b, .block bl', c)
    | .decl ty n init =>
        let (b1, ty', c1) := expr_subst fuel ctx ty name r
        if b1 then
          match init with
          | some v =>
              let (b2, v', c2) := expr_subst fuel c1 v name r
              (b2, .decl ty' n (some v'), c2)
          | none => (true, .decl ty' n none, c1)
        else (false, .decl ty' n init, c1)
    | .ifThenElse ifs els =>
        let (b1, ifs', c1) := stmt_ifs_subst fuel ctx ifs name r
        if b1 then
          let (b2, els', c2) := block_subst fuel c1 els name r
          (b2, .ifThenElse ifs' els', c2)
        else (false, .ifThenElse ifs' els, c1)
termination_by structural fuel

/-- The `STATEMENT_IFTHENELSE` loop of `statement_subst`: each condition
then its then-block, fail-fast. -/
def stmt_ifs_subst (fuel : Nat) (ctx : Context) (ifs : IfList)
    (name : Sym) (r : Expr) : Bool × IfList × Context :=
  match fuel with
  | 0 => (false, ifs, ctx)
  | fuel + 1 =>
    match ifs with
    | .nil => (true, .nil, ctx)
    | .cons cond t rest =>
        let (b1, cond', c1) := expr_subst fuel ctx cond name r
        if b1 then
          let (b2, t', c2) := block_subst fuel c1 t name r
          if b2 then
            let (b, rest', c) := stmt_ifs_subst fuel c2 rest name r
            (b, .cons cond' t' rest', c)
          else (false, .cons cond' t' rest, c2)
        else (false, .cons cond' t rest, c1)
termination_by structural fuel

/-- `block_subst`: substitute into every statement in order, fail-fast.
No shadowing or renaming treatment of `Decl` names is performed. -/
def block_subst (fuel : Nat) (ctx : Context) (b : Block)
    (name : Sym) (r : Expr) : Bool × Block × Context :=
  match fuel with
  | 0 => (false, b, ctx)
  | fuel + 1 =>
    match b with
    | .mk stmts =>
        let (ok, stmts', c) := block_stmts_subst fuel ctx stmts name r
        (ok, .mk stmts', c)
termination_by structural fuel

/-- The statement loop of `block_subst`. -/
def block_stmts_subst (fuel : Nat) (ctx : Context) (sl : StmtList)
    (name : Sym) (r : Expr) : Bool × StmtList × Context :=
  match fuel with
  | 0 => (false, sl, ctx)
  | fuel + 1 =>
    match sl with
    | .nil => (true, .nil, ctx)
    | .cons st rest =>
        let (b1, st', c1) := statement_subst fuel ctx st name r
        if b1 then
          let (b, rest', c) := block_stmts_subst fuel c1 rest name r
          (b, .cons st' rest', c)
        else (false, .cons st' rest, c1)
termination_by structural fuel

end

/-! Concrete terms used to evaluate the operations at specific inputs.
Symbols are numbered: reading `0,1,2,…` as `x,y,z,…` of the corresponding
surface programs. -/

/-- The function type `x[u8 y, y z]` (return type `Ident x`, first
parameter `u8` named `y`, second parameter type `Ident y` named `z`):
substituting `x ↦ y` must rename the binder `y`. -/
def exC1 : Expr :=
  .funcType (.ident 0)
    (.cons (.literal .u8) (some 1) (.cons (.ident 1) (some 2) .nil))

/-- The block `{ u8 x = y; x + z; }` with `x,y,z = 0,1,2`; the declared
type is the built-in literal `u8`. -/
def exC7 : Block :=
  .mk (.cons (.decl (.literal .u8) 0 (some (.ident 1)))
    (.cons (.expr (.binOp .add (.ident 0) (.ident 2))) .nil))

/-- The statement `if (a) { b; } else { c; }` with `a,b,c = 0,1,2`. -/
def exC8 : Statement :=
  .ifThenElse (.cons (.ident 0) (.mk (.cons (.expr (.ident 1)) .nil)) .nil)
    (.mk (.cons (.expr (.ident 2)) .nil))

/-- The statement `if (a) { b; } else if (d) { e; } else { c; }` with
`a,b,c,d,e = 0,1,2,3,4`. -/
def exC8b : Statement :=
  .ifThenElse
    (.cons (.ident 0) (.mk (.cons (.expr (.ident 1)) .nil))
      (.cons (.ident 3) (.mk (.cons (.expr (.ident 4)) .nil)) .nil))
    (.mk (.cons (.expr (.ident 2)) .nil))

/-- C1: evaluating the source's substitution on the function type
`x[u8 y, y z]` with `x ↦ y` (symbols `x,y,z = 0,1,2`, gensym counter 3).
The binder `y` is renamed to the fresh symbol `3`, but the renaming
substitution `y ↦ Ident 3` is applied to the already-processed first
parameter type (`param_types[i]`) instead of the remaining second
parameter type, which is left reading `Ident 1` (`y`) instead of
`Ident 3`; the behaviour claimed in the spec would produce second
parameter type `Ident 3`.  (The return type ends as `Ident 1` because the
identifier case of `expr_subst` overwrites every identifier.) -/
theorem exprSubstFuncTypeSkipsLaterParamTypes :
    expr_subst 30 3 exC1 0 (.ident 1) =
      (true,
       .funcType (.ident 1)
         (.cons (.literal .u8) (some 3) (.cons (.ident 1) (some 2) .nil)),
       4) := rfl

/-- C2: the `EXPR_IDENT` case of `expr_subst` never compares the
identifier with the target name: substituting `y ↦ 42` (with `y = 1`)
into the sole identifier `x` (`= 0`) replaces it although
`y ∉ freeVars(x)`, and the result is distinguished from the original by
`expr_equal` — contradicting the claimed no-op. -/
theorem exprSubstIdentIgnoresName :
    1 ∉ expr_free_vars (.ident 0) ∧
    expr_subst 30 0 (.ident 0) 1 (.literal (.integral 42)) =
      (true, .literal (.integral 42), 0) ∧
    expr_equal (.literal (.integral 42)) (.ident 0) = false :=
  ⟨by decide, rfl, rfl⟩

/-- C3: `expr_equal` is not reflexive: on the well-formed expression
`1 + 2` it returns `false`, because the `EXPR_BIN_OP` case requires the
two operators to be *unequal* (`op != op`). -/
theorem exprEqualNotReflOnBinOp :
    expr_equal (.binOp .add (.literal (.integral 1)) (.literal (.integral 2)))
      (.binOp .add (.literal (.integral 1)) (.literal (.integral 2))) = false := rfl

/-- C4: `expr_equal` on binary operations inverts the operator check:
two structurally identical additions compare unequal, while an addition
and a subtraction with the same operands compare equal. -/
theorem exprEqualBinOpInverted :
    expr_equal (.binOp .add (.ident 0) (.ident 1))
      (.binOp .sub (.ident 0) (.ident 1)) = true ∧
    expr_equal (.binOp .add (.ident 0) (.ident 1))
      (.binOp .add (.ident 0) (.ident 1)) = false :=
  ⟨rfl, rfl⟩

/-- C6: `block_subst` does not halt at a shadowing declaration: in the
block `{ u8 x; x; }` (with `x = 0`), substituting `x ↦ 42` rewrites the
statement *after* the declaration of `x` to `42;`, although the claim
requires propagation to stop there; no α-renaming of declarations is
performed anywhere in `block_subst`. -/
theorem blockSubstIgnoresDeclShadowing :
    block_subst 30 1
      (.mk (.cons (.decl (.literal .u8) 0 none) (.cons (.expr (.ident 0)) .nil)))
      0 (.literal (.integral 42)) =
    (true,
     .mk (.cons (.decl (.literal .u8) 0 none)
       (.cons (.expr (.literal (.integral 42))) .nil)),
     1) := rfl

/-- C7 (counterexample): on the block `{ u8 x = y; x + z; }` the computed
free-variable set is `{y, z}` — a two-element set — and not the claimed
three-element set `{u8, y, z}`: the declared type is the built-in literal
`u8`, which contributes no free variable (here `u8` is read as any symbol
distinct from `x, y, z`, e.g. `3`). -/
theorem blockFreeVarsExampleHasNoU8 :
    block_free_vars exC7 ≠ ({3, 1, 2} : Finset Sym) ∧
    block_free_vars exC7 = ({1, 2} : Finset Sym) ∧
    (block_free_vars exC7).card = 2 :=
  ⟨by decide, by decide, by decide⟩

/-- The loop of `block_free_vars` is the claimed right-to-left fold. -/
theorem block_fv_loop_eq_foldr : (sl : StmtList) →
    block_fv_loop sl =
      sl.toList.foldr
        (fun st acc =>
          (match st with | .decl _ d _ => acc.erase d | _ => acc) ∪
            statement_free_vars st) ∅
  | .nil => rfl
  | .cons st rest => by
      simp only [block_fv_loop, StmtList.toList, List.foldr_cons,
        block_fv_loop_eq_foldr rest]

/-- C7 (amended): free variables of a block are computed by a
right-to-left fold — starting from `∅`, statements are processed from last
to first, a `Decl`'s name being deleted from the accumulated set before
that statement's own free variables are unioned in — and on
`{ u8 x = y; x + z; }` this yields `{y, z}` (the built-in type literal
`u8` contributes no free variable, and `x` does not escape). -/
theorem blockFreeVarsFoldrCharacterization :
    (∀ sl : StmtList,
      block_free_vars (.mk sl) =
        sl.toList.foldr
          (fun st acc =>
            (match st with | .decl _ d _ => acc.erase d | _ => acc) ∪
              statement_free_vars st) ∅) ∧
    block_free_vars exC7 = ({1, 2} : Finset Sym) :=
  ⟨fun sl => block_fv_loop_eq_foldr sl, by decide⟩

/-- C8: free variables of a statement-level `if`/`else`: each loop
iteration *overwrites* the accumulated set with the then-block's free
vars, so everything accumulated before the last branch — the else-block
and all earlier condition/then pairs — is discarded: on
`if (a) { b; } else { c; }` the result is `{a, b}` (missing the
else-block's `c`), and on `if (a) { b; } else if (d) { e; } else { c; }`
it is `{d, e}` — not the claimed union of all conditions, then-blocks and
the else-block. -/
theorem statementIfThenElseFreeVarsDropsBranches :
    statement_free_vars exC8 = ({0, 1} : Finset Sym) ∧
    2 ∉ statement_free_vars exC8 ∧
    statement_free_vars exC8b = ({3, 4} : Finset Sym) :=
  ⟨by decide, by decide, by decide⟩

/-- Scanning field names left to right as the `Struct`/`Pack` substitution
loops do: `true` iff a name in `fv` is reached before any name equal to
`name` (each field is first checked for shadowing, then for capture). -/
def capture_before_shadow (fv : Finset Sym) (name : Sym) : List Sym → Bool
  | [] => false
  | n :: rest =>
      if n = name then false
      else if n ∈ fv then true
      else capture_before_shadow fv name rest

/-- The `Struct` substitution loop never changes the field names. -/
theorem struct_subst_fields_names : (fuel : Nat) → (ctx : Context) →
    (fs : NParamList) → (name : Sym) → (r : Expr) → (fv : Finset Sym) →
    ((struct_subst_fields fuel ctx fs name r fv).2.1).names = fs.names
  | 0, _, _, _, _, _ => rfl
  | _ + 1, _, .nil, _, _, _ => rfl
  | fuel + 1, ctx, .cons ty fn rest, name, r, fv => by
      simp only [struct_subst_fields]
      rcases h : expr_subst fuel ctx ty name r with ⟨b1, ty1, c1⟩
      by_cases hb : b1
      · subst hb
        by_cases hsh : fn = name
        · simp [hsh, NParamList.names]
        · by_cases hcap : fn ∈ fv
          · simp [hsh, hcap, NParamList.names]
          · simpa [hsh, hcap, NParamList.names] using
              struct_subst_fields_names fuel c1 rest name r fv
      · simp only [Bool.not_eq_true] at hb
        subst hb
        simp [NParamList.names]

/-- The `Pack` substitution loop never changes the field names. -/
theorem pack_subst_assigns_names : (fuel : Nat) → (ctx : Context) →
    (asg : AssignList) → (name : Sym) → (r : Expr) → (fv : Finset Sym) →
    ((pack_subst_assigns fuel ctx asg name r fv).2.1).names = asg.names
  | 0, _, _, _, _, _ => rfl
  | _ + 1, _, .nil, _, _, _ => rfl
  | fuel + 1, ctx, .cons fn e rest, name, r, fv => by
      simp only [pack_subst_assigns]
      rcases h : expr_subst fuel ctx e name r with ⟨b1, e1, c1⟩
      by_cases hb : b1
      · subst hb
        by_cases hsh : fn = name
        · simp [hsh, AssignList.names]
        · by_cases hcap : fn ∈ fv
          · simp [hsh, hcap, AssignList.names]
          · simpa [hsh, hcap, AssignList.names] using
              pack_subst_assigns_names fuel c1 rest name r fv
      · simp only [Bool.not_eq_true] at hb
        subst hb
        simp [AssignList.names]

/-- If a field name in `fv` precedes any shadowing field, the `Struct`
substitution loop reports failure. -/
theorem struct_subst_fields_capture_fails : (fuel : Nat) → (ctx : Context) →
    (fs : NParamList) → (name : Sym) → (r : Expr) → (fv : Finset Sym) →
    capture_before_shadow fv name fs.names = true →
    (struct_subst_fields fuel ctx fs name r fv).1 = false
  | 0, _, _, _, _, _, _ => rfl
  | fuel + 1, ctx, .cons ty fn rest, name, r, fv, hcbs => by
      simp only [NParamList.names, capture_before_shadow] at hcbs
      by_cases hsh : fn = name
      · simp [hsh] at hcbs
      · simp only [hsh, if_false] at hcbs
        simp only [struct_subst_fields]
        rcases h : expr_subst fuel ctx ty name r with ⟨b1, ty1, c1⟩
        by_cases hb : b1
        · subst hb
          by_cases hcap : fn ∈ fv
          · simp [hsh, hcap]
          · simp only [hcap, if_false] at hcbs
            simpa [hsh, hcap] using
              struct_subst_fields_capture_fails fuel c1 rest name r fv hcbs
        · simp only [Bool.not_eq_true] at hb
          subst hb
          simp

/-- If a field name in `fv` precedes any shadowing field, the `Pack`
substitution loop reports failure. -/
theorem pack_subst_assigns_capture_fails : (fuel : Nat) → (ctx : Context) →
    (asg : AssignList) → (name : Sym) → (r : Expr) → (fv : Finset Sym) →
    capture_before_shadow fv name asg.names = true →
    (pack_subst_assigns fuel ctx asg name r fv).1 = false
  | 0, _, _, _, _, _, _ => rfl
  | fuel + 1, ctx, .cons fn e rest, name, r, fv, hcbs => by
      simp only [AssignList.names, capture_before_shadow] at hcbs
      by_cases hsh : fn = name
      · simp [hsh] at hcbs
      · simp only [hsh, if_false] at hcbs
        simp only [pack_subst_assigns]
        rcases h : expr_subst fuel ctx e name r with ⟨b1, e1, c1⟩
        by_cases hb : b1
        · subst hb
          by_cases hcap : fn ∈ fv
          · simp [hsh, hcap]
          · simp only [hcap, if_false] at hcbs
            simpa [hsh, hcap] using
              pack_subst_assigns_capture_fails fuel c1 rest name r fv hcbs
        · simp only [Bool.not_eq_true] at hb
          subst hb
          simp

/-- C5: substituting into a `Struct` or `Pack` whose field-name list
contains, before any field named `name` (shadowing), a field name among
the free variables of the replacement returns `fail`, the result being
still a `Struct`/`Pack` with the field names untouched; moreover — last
two conjuncts — the substitution loops never change field names on any
input: no α-renaming is performed on record field names. -/
theorem substRefusesFieldCapture
    (fuel : Nat) (ctx1 ctx2 : Context) (fields : NParamList) (asg : AssignList)
    (pty : Expr) (name : Sym) (r : Expr)
    (hs : capture_before_shadow (expr_free_vars r) name fields.names = true)
    (hp : capture_before_shadow (expr_free_vars r) name asg.names = true) :
    (∃ fs' c', expr_subst fuel ctx1 (.struct fields) name r = (false, .struct fs', c') ∧
      fs'.names = fields.names) ∧
    (∃ asg' c', expr_subst fuel ctx2 (.pack pty asg) name r = (false, .pack pty asg', c') ∧
      asg'.names = asg.names) ∧
    (∀ fs2 : NParamList,
      ((struct_subst_fields fuel ctx1 fs2 name r (expr_free_vars r)).2.1).names = fs2.names) ∧
    (∀ asg2 : AssignList,
      ((pack_subst_assigns fuel ctx2 asg2 name r (expr_free_vars r)).2.1).names = asg2.names) := by
  refine ⟨?_, ?_, fun fs2 => struct_subst_fields_names fuel ctx1 fs2 name r _,
    fun asg2 => pack_subst_assigns_names fuel ctx2 asg2 name r _⟩
  · match fuel with
    | 0 => exact ⟨fields, ctx1, rfl, rfl⟩
    | fuel + 1 =>
        rcases h : struct_subst_fields fuel ctx1 fields name r (expr_free_vars r)
          with ⟨b, fs', c'⟩
        have hb : b = false := by
          have := struct_subst_fields_capture_fails fuel ctx1 fields name r
            (expr_free_vars r) hs
          rwa [h] at this
        have hn : fs'.names = fields.names := by
          have := struct_subst_fields_names fuel ctx1 fields name r (expr_free_vars r)
          rwa [h] at this
        subst hb
        exact ⟨fs', c', by simp [expr_subst, h], hn⟩
  · match fuel with
    | 0 => exact ⟨asg, ctx2, rfl, rfl⟩
    | fuel + 1 =>
        rcases h : pack_subst_assigns fuel ctx2 asg name r (expr_free_vars r)
          with ⟨b, asg', c'⟩
        have hb : b = false := by
          have := pack_subst_assigns_capture_fails fuel ctx2 asg name r
            (expr_free_vars r) hp
          rwa [h] at this
        have hn : asg'.names = asg.names := by
          have := pack_subst_assigns_names fuel ctx2 asg name r (expr_free_vars r)
          rwa [h] at this
        subst hb
        exact ⟨asg', c', by simp [expr_subst, h], hn⟩

/-- C5 (witness): the refusal at a concrete input — `struct { u8 y; }`
and `[u8]{.y = 42}` under `x ↦ y` (symbols `x, y = 0, 1`): `y` is a free
variable of the replacement and is not shadowing, so both substitutions
fail with the field names intact. -/
theorem substRefusesFieldCaptureWitness :
    (∃ fs' c', expr_subst 5 0 (.struct (.cons (.literal .u8) 1 .nil)) 0 (.ident 1) =
        (false, .struct fs', c') ∧
      fs'.names = (NParamList.cons (.literal .u8) 1 .nil).names) ∧
    (∃ asg' c', expr_subst 5 0
        (.pack (.literal .u8) (.cons 1 (.literal (.integral 42)) .nil)) 0 (.ident 1) =
        (false, .pack (.literal .u8) asg', c') ∧
      asg'.names = (AssignList.cons 1 (.literal (.integral 42)) .nil).names) ∧
    (∀ fs2 : NParamList,
      ((struct_subst_fields 5 0 fs2 0 (.ident 1) (expr_free_vars (.ident 1))).2.1).names =
        fs2.names) ∧
    (∀ asg2 : AssignList,
      ((pack_subst_assigns 5 0 asg2 0 (.ident 1) (expr_free_vars (.ident 1))).2.1).names =
        asg2.names) :=
  substRefusesFieldCapture 5 0 0 (.cons (.literal .u8) 1 .nil)
    (.cons 1 (.literal (.integral 42)) .nil) (.literal .u8) 0 (.ident 1)
    (by decide) (by decide)

/-- Any set is contained in the accumulated union computed by the `Pack`
free-variable loop. -/
theorem subset_pack_assigns_fv : (al : AssignList) → (s : Finset Sym) →
    s ⊆ pack_assigns_fv al s
  | .nil, s => by simp [pack_assigns_fv]
  | .cons n e rest, s => by
      simp only [pack_assigns_fv]
      exact Finset.Subset.trans Finset.subset_union_left
        (subset_pack_assigns_fv rest _)

/-- C9: substitution leaves a `Pack`'s type component entirely unchanged —
for every fuel, context, name and replacement the result is again a `Pack`
with the *same* type, only the assignments being substituted into — even
though the free-variable analysis of a `Pack` does include the type
component (second conjunct). -/
theorem exprSubstPackPreservesType (fuel : Nat) (ctx : Context) (ty : Expr)
    (asg : AssignList) (name : Sym) (r : Expr) :
    (∃ ok asg' ctx',
      expr_subst fuel ctx (.pack ty asg) name r = (ok, .pack ty asg', ctx')) ∧
    expr_free_vars ty ⊆ expr_free_vars (.pack ty asg) := by
  constructor
  · match fuel with
    | 0 => exact ⟨false, asg, ctx, rfl⟩
    | fuel + 1 =>
        rcases h : pack_subst_assigns fuel ctx asg name r (expr_free_vars r)
          with ⟨b, asg', c'⟩
        exact ⟨b, asg', c', by simp [expr_subst, h]⟩
  · simp only [expr_free_vars]
    exact subset_pack_assigns_fv asg (expr_free_vars ty)

/-! Infrastructure for the totality-of-success analysis of `expr_subst`:
a term is *clean* when it contains no `Struct` and no `Pack` node
(`no_struct_pack`), and `names_lt · c` bounds every non-identifier symbol
payload (parameter, field, member and declaration names) by `c` — the
freshness invariant maintained by the gensym counter. -/

mutual

/-- No `Struct` or `Pack` node occurs in the expression. -/
def Expr.no_struct_pack : Expr → Bool
  | .literal _ => true
  | .ident _ => true
  | .binOp _ e1 e2 => e1.no_struct_pack && e2.no_struct_pack
  | .ifThenElse p t e => p.no_struct_pack && t.no_struct_pack && e.no_struct_pack
  | .funcType ret ps => ret.no_struct_pack && ps.no_struct_pack
  | .lambda ps b => ps.no_struct_pack && b.no_struct_pack
  | .call f args => f.no_struct_pack && args.no_struct_pack
  | .struct _ => false
  | .union fs => fs.no_struct_pack
  | .pack _ _ => false
  | .member r _ => r.no_struct_pack
  | .pointer e => e.no_struct_pack
  | .reference e => e.no_struct_pack
  | .dereference e => e.no_struct_pack
  | .statement s => s.no_struct_pack
termination_by structural t => t

/-- `no_struct_pack` over a `ParamList`. -/
def ParamList.no_struct_pack : ParamList → Bool
  | .nil => true
  | .cons ty _ rest => ty.no_struct_pack && rest.no_struct_pack
termination_by structural t => t

/-- `no_struct_pack` over an `NParamList`. -/
def NParamList.no_struct_pack : NParamList → Bool
  | .nil => true
  | .cons ty _ rest => ty.no_struct_pack && rest.no_struct_pack
termination_by structural t => t

/-- `no_struct_pack` over an `ExprList`. -/
def ExprList.no_struct_pack : ExprList → Bool
  | .nil => true
  | .cons e rest => e.no_struct_pack && rest.no_struct_pack
termination_by structural t => t

/-- `no_struct_pack` over a `Statement`. -/
def Statement.no_struct_pack : Statement → Bool
  | .empty => true
  | .expr e => e.no_struct_pack
  | .ret e => e.no_struct_pack
  | .block b => b.no_struct_pack
  | .decl ty _ none => ty.no_struct_pack
  | .decl ty _ (some v) => ty.no_struct_pack && v.no_struct_pack
  | .ifThenElse ifs els => ifs.no_struct_pack && els.no_struct_pack
termination_by structural t => t

/-- `no_struct_pack` over an `IfList`. -/
def IfList.no_struct_pack : IfList → Bool
  | .nil => true
  | .cons c t rest => c.no_struct_pack && t.no_struct_pack && rest.no_struct_pack
termination_by structural t => t

/-- `no_struct_pack` over a `Block`. -/
def Block.no_struct_pack : Block → Bool
  | .mk stmts => stmts.no_struct_pack
termination_by structural t => t

/-- `no_struct_pack` over a `StmtList`. -/
def StmtList.no_struct_pack : StmtList → Bool
  | .nil => true
  | .cons s rest => s.no_struct_pack && rest.no_struct_pack
termination_by structural t => t

end

mutual

/-- Every non-identifier symbol payload (parameter names, field names,
member fields, declaration names) is `< c`. -/
def Expr.names_lt : Expr → Nat → Bool
  | .literal _, _ => true
  | .ident _, _ => true
  | .binOp _ e1 e2, c => e1.names_lt c && e2.names_lt c
  | .ifThenElse p t e, c => p.names_lt c && t.names_lt c && e.names_lt c
  | .funcType ret ps, c => ret.names_lt c && ps.names_lt c
  | .lambda ps b, c => ps.names_lt c && b.names_lt c
  | .call f args, c => f.names_lt c && args.names_lt c
  | .struct fs, c => fs.names_lt c
  | .union fs, c => fs.names_lt c
  | .pack ty asg, c => ty.names_lt c && asg.names_lt c
  | .member r f, c => r.names_lt c && decide (f < c)
  | .pointer e, c => e.names_lt c
  | .reference e, c => e.names_lt c
  | .dereference e, c => e.names_lt c
  | .statement s, c => s.names_lt c
termination_by structural t _ => t

/-- `names_lt` over a `ParamList`. -/
def ParamList.names_lt : ParamList → Nat → Bool
  | .nil, _ => true
  | .cons ty none rest, c => ty.names_lt c && rest.names_lt c
  | .cons ty (some p) rest, c => ty.names_lt c && decide (p < c) && rest.names_lt c
termination_by structural t _ => t

/-- `names_lt` over an `NParamList`. -/
def NParamList.names_lt : NParamList → Nat → Bool
  | .nil, _ => true
  | .cons ty n rest, c => ty.names_lt c && decide (n < c) && rest.names_lt c
termination_by structural t _ => t

/-- `names_lt` over an `ExprList`. -/
def ExprList.names_lt : ExprList → Nat → Bool
  | .nil, _ => true
  | .cons e rest, c => e.names_lt c && rest.names_lt c
termination_by structural t _ => t

/-- `names_lt` over an `AssignList`. -/
def AssignList.names_lt : AssignList → Nat → Bool
  | .nil, _ => true
  | .cons n e rest, c => decide (n < c) && e.names_lt c && rest.names_lt c
termination_by structural t _ => t

/-- `names_lt` over a `Statement`. -/
def Statement.names_lt : Statement → Nat → Bool
  | .empty, _ => true
  | .expr e, c => e.names_lt c
  | .ret e, c => e.names_lt c
  | .block b, c => b.names_lt c
  | .decl ty n none, c => ty.names_lt c && decide (n < c)
  | .decl ty n (some v), c => ty.names_lt c && decide (n < c) && v.names_lt c
  | .ifThenElse ifs els, c => ifs.names_lt c && els.names_lt c
termination_by structural t _ => t

/-- `names_lt` over an `IfList`. -/
def IfList.names_lt : IfList → Nat → Bool
  | .nil, _ => true
  | .cons co t rest, c => co.names_lt c && t.names_lt c && rest.names_lt c
termination_by structural t _ => t

/-- `names_lt` over a `Block`. -/
def Block.names_lt : Block → Nat → Bool
  | .mk stmts, c => stmts.names_lt c
termination_by structural t _ => t

/-- `names_lt` over a `StmtList`. -/
def StmtList.names_lt : StmtList → Nat → Bool
  | .nil, _ => true
  | .cons s rest, c => s.names_lt c && rest.names_lt c
termination_by structural t _ => t

end

/-- `AssignList.no_struct_pack` is unused only because a clean term has no
`Pack` node at all; the loop lemmas still need cleanliness of assignment
lists, defined here outside the mutual block for convenience. -/
def AssignList.no_struct_pack : AssignList → Bool
  | .nil => true
  | .cons _ e rest => e.no_struct_pack && rest.no_struct_pack

mutual

/-- `names_lt` is monotone in the bound. -/
theorem expr_names_lt_mono : (e : Expr) → ∀ {c d : Nat}, c ≤ d →
    e.names_lt c = true → e.names_lt d = true
  | .literal _, _, _, _, _ => rfl
  | .ident _, _, _, _, _ => rfl
  | .binOp _ e1 e2, _, _, hcd, h => by
      simp only [Expr.names_lt, Bool.and_eq_true] at h ⊢
      exact ⟨expr_names_lt_mono e1 hcd h.1, expr_names_lt_mono e2 hcd h.2⟩
  | .ifThenElse p t e, _, _, hcd, h => by
      simp only [Expr.names_lt, Bool.and_eq_true] at h ⊢
      exact ⟨⟨expr_names_lt_mono p hcd h.1.1, expr_names_lt_mono t hcd h.1.2⟩,
        expr_names_lt_mono e hcd h.2⟩
  | .funcType ret ps, _, _, hcd, h => by
      simp only [Expr.names_lt, Bool.and_eq_true] at h ⊢
      exact ⟨expr_names_lt_mono ret hcd h.1, params_names_lt_mono ps hcd h.2⟩
  | .lambda ps b, _, _, hcd, h => by
      simp only [Expr.names_lt, Bool.and_eq_true] at h ⊢
      exact ⟨nparams_names_lt_mono ps hcd h.1, expr_names_lt_mono b hcd h.2⟩
  | .call f args, _, _, hcd, h => by
      simp only [Expr.names_lt, Bool.and_eq_true] at h ⊢
      exact ⟨expr_names_lt_mono f hcd h.1, exprlist_names_lt_mono args hcd h.2⟩
  | .struct fs, _, _, hcd, h => by
      simp only [Expr.names_lt] at h ⊢
      exact nparams_names_lt_mono fs hcd h
  | .union fs, _, _, hcd, h => by
      simp only [Expr.names_lt] at h ⊢
      exact nparams_names_lt_mono fs hcd h
  | .pack ty asg, _, _, hcd, h => by
      simp only [Expr.names_lt, Bool.and_eq_true] at h ⊢
      exact ⟨expr_names_lt_mono ty hcd h.1, assigns_names_lt_mono asg hcd h.2⟩
  | .member r f, _, _, hcd, h => by
      simp only [Expr.names_lt, Bool.and_eq_true, decide_eq_true_eq] at h ⊢
      exact ⟨expr_names_lt_mono r hcd h.1, Nat.lt_of_lt_of_le h.2 hcd⟩
  | .pointer e, _, _, hcd, h => expr_names_lt_mono e hcd h
  | .reference e, _, _, hcd, h => expr_names_lt_mono e hcd h
  | .dereference e, _, _, hcd, h => expr_names_lt_mono e hcd h
  | .statement s, _, _, hcd, h => statement_names_lt_mono s hcd h

/-- `names_lt` is monotone in the bound (`ParamList`). -/
theorem params_names_lt_mono : (ps : ParamList) → ∀ {c d : Nat}, c ≤ d →
    ps.names_lt c = true → ps.names_lt d = true
  | .nil, _, _, _, _ => rfl
  | .cons ty none rest, _, _, hcd, h => by
      simp only [ParamList.names_lt, Bool.and_eq_true] at h ⊢
      exact ⟨expr_names_lt_mono ty hcd h.1, params_names_lt_mono rest hcd h.2⟩
  | .cons ty (some p) rest, _, _, hcd, h => by
      simp only [ParamList.names_lt, Bool.and_eq_true, decide_eq_true_eq] at h ⊢
      exact ⟨⟨expr_names_lt_mono ty hcd h.1.1, Nat.lt_of_lt_of_le h.1.2 hcd⟩,
        params_names_lt_mono rest hcd h.2⟩

/-- `names_lt` is monotone in the bound (`NParamList`). -/
theorem nparams_names_lt_mono : (ps : NParamList) → ∀ {c d : Nat}, c ≤ d →
    ps.names_lt c = true → ps.names_lt d = true
  | .nil, _, _, _, _ => rfl
  | .cons ty n rest, _, _, hcd, h => by
      simp only [NParamList.names_lt, Bool.and_eq_true, decide_eq_true_eq] at h ⊢
      exact ⟨⟨expr_names_lt_mono ty hcd h.1.1, Nat.lt_of_lt_of_le h.1.2 hcd⟩,
        nparams_names_lt_mono rest hcd h.2⟩

/-- `names_lt` is monotone in the bound (`ExprList`). -/
theorem exprlist_names_lt_mono : (args : ExprList) → ∀ {c d : Nat}, c ≤ d →
    args.names_lt c = true → args.names_lt d = true
  | .nil, _, _, _, _ => rfl
  | .cons e rest, _, _, hcd, h => by
      simp only [ExprList.names_lt, Bool.and_eq_true] at h ⊢
      exact ⟨expr_names_lt_mono e hcd h.1, exprlist_names_lt_mono rest hcd h.2⟩

/-- `names_lt` is monotone in the bound (`AssignList`). -/
theorem assigns_names_lt_mono : (asg : AssignList) → ∀ {c d : Nat}, c ≤ d →
    asg.names_lt c = true → asg.names_lt d = true
  | .nil, _, _, _, _ => rfl
  | .cons n e rest, _, _, hcd, h => by
      simp only [AssignList.names_lt, Bool.and_eq_true, decide_eq_true_eq] at h ⊢
      exact ⟨⟨Nat.lt_of_lt_of_le h.1.1 hcd, expr_names_lt_mono e hcd h.1.2⟩,
        assigns_names_lt_mono rest hcd h.2⟩

/-- `names_lt` is monotone in the bound (`Statement`). -/
theorem statement_names_lt_mono : (st : Statement) → ∀ {c d : Nat}, c ≤ d →
    st.names_lt c = true → st.names_lt d = true
  | .empty, _, _, _, _ => rfl
  | .expr e, _, _, hcd, h => expr_names_lt_mono e hcd h
  | .ret e, _, _, hcd, h => expr_names_lt_mono e hcd h
  | .block b, _, _, hcd, h => block_names_lt_mono b hcd h
  | .decl ty n none, _, _, hcd, h => by
      simp only [Statement.names_lt, Bool.and_eq_true, decide_eq_true_eq] at h ⊢
      exact ⟨expr_names_lt_mono ty hcd h.1, Nat.lt_of_lt_of_le h.2 hcd⟩
  | .decl ty n (some v), _, _, hcd, h => by
      simp only [Statement.names_lt, Bool.and_eq_true, decide_eq_true_eq] at h ⊢
      exact ⟨⟨expr_names_lt_mono ty hcd h.1.1, Nat.lt_of_lt_of_le h.1.2 hcd⟩,
        expr_names_lt_mono v hcd h.2⟩
  | .ifThenElse ifs els, _, _, hcd, h => by
      simp only [Statement.names_lt, Bool.and_eq_true] at h ⊢
      exact ⟨iflist_names_lt_mono ifs hcd h.1, block_names_lt_mono els hcd h.2⟩

/-- `names_lt` is monotone in the bound (`IfList`). -/
theorem iflist_names_lt_mono : (ifs : IfList) → ∀ {c d : Nat}, c ≤ d →
    ifs.names_lt c = true → ifs.names_lt d = true
  | .nil, _, _, _, _ => rfl
  | .cons co t rest, _, _, hcd, h => by
      simp only [IfList.names_lt, Bool.and_eq_true] at h ⊢
      exact ⟨⟨expr_names_lt_mono co hcd h.1.1, block_names_lt_mono t hcd h.1.2⟩,
        iflist_names_lt_mono rest hcd h.2⟩

/-- `names_lt` is monotone in the bound (`Block`). -/
theorem block_names_lt_mono : (b : Block) → ∀ {c d : Nat}, c ≤ d →
    b.names_lt c = true → b.names_lt d = true
  | .mk stmts, _, _, hcd, h => stmts_names_lt_mono stmts hcd h

/-- `names_lt` is monotone in the bound (`StmtList`). -/
theorem stmts_names_lt_mono : (sl : StmtList) → ∀ {c d : Nat}, c ≤ d →
    sl.names_lt c = true → sl.names_lt d = true
  | .nil, _, _, _, _ => rfl
  | .cons s rest, _, _, hcd, h => by
      simp only [StmtList.names_lt, Bool.and_eq_true] at h ⊢
      exact ⟨statement_names_lt_mono s hcd h.1, stmts_names_lt_mono rest hcd h.2⟩

end

mutual

/-- Deep copy is the identity on the modelled tree (symbol handles are
shared and locations are not modelled). -/
theorem expr_copy_eq : (e : Expr) → expr_copy e = e
  | .literal _ => rfl
  | .ident _ => rfl
  | .binOp op e1 e2 => by
      simp only [expr_copy, expr_copy_eq e1, expr_copy_eq e2]
  | .ifThenElse p t e => by
      simp only [expr_copy, expr_copy_eq p, expr_copy_eq t, expr_copy_eq e]
  | .funcType ret ps => by
      simp only [expr_copy, expr_copy_eq ret, params_copy_eq ps]
  | .lambda ps b => by
      simp only [expr_copy, nparams_copy_eq ps, expr_copy_eq b]
  | .call f args => by
      simp only [expr_copy, expr_copy_eq f, args_copy_eq args]
  | .struct fs => by simp only [expr_copy, nparams_copy_eq fs]
  | .union fs => by simp only [expr_copy, nparams_copy_eq fs]
  | .pack ty asg => by
      simp only [expr_copy, expr_copy_eq ty, assigns_copy_eq asg]
  | .member r f => by simp only [expr_copy, expr_copy_eq r]
  | .pointer e => by simp only [expr_copy, expr_copy_eq e]
  | .reference e => by simp only [expr_copy, expr_copy_eq e]
  | .dereference e => by simp only [expr_copy, expr_copy_eq e]
  | .statement s => by simp only [expr_copy, statement_copy_eq s]

/-- `params_copy` is the identity. -/
theorem params_copy_eq : (ps : ParamList) → params_copy ps = ps
  | .nil => rfl
  | .cons ty n rest => by
      simp only [params_copy, expr_copy_eq ty, params_copy_eq rest]

/-- `nparams_copy` is the identity. -/
theorem nparams_copy_eq : (ps : NParamList) → nparams_copy ps = ps
  | .nil => rfl
  | .cons ty n rest => by
      simp only [nparams_copy, expr_copy_eq ty, nparams_copy_eq rest]

/-- `args_copy` is the identity. -/
theorem args_copy_eq : (args : ExprList) → args_copy args = args
  | .nil => rfl
  | .cons e rest => by
      simp only [args_copy, expr_copy_eq e, args_copy_eq rest]

/-- `assigns_copy` is the identity. -/
theorem assigns_copy_eq : (asg : AssignList) → assigns_copy asg = asg
  | .nil => rfl
  | .cons n e rest => by
      simp only [assigns_copy, expr_copy_eq e, assigns_copy_eq rest]

/-- `statement_copy` is the identity. -/
theorem statement_copy_eq : (st : Statement) → statement_copy st = st
  | .empty => rfl
  | .expr e => by simp only [statement_copy, expr_copy_eq e]
  | .ret e => by simp only [statement_copy, expr_copy_eq e]
  | .block b => by simp only [statement_copy, block_copy_eq b]
  | .decl ty n none => by simp only [statement_copy, expr_copy_eq ty]
  | .decl ty n (some v) => by
      simp only [statement_copy, expr_copy_eq ty, expr_copy_eq v]
  | .ifThenElse ifs els => by
      simp only [statement_copy, ifs_copy_eq ifs, block_copy_eq els]

/-- `ifs_copy` is the identity. -/
theorem ifs_copy_eq : (ifs : IfList) → ifs_copy ifs = ifs
  | .nil => rfl
  | .cons c t rest => by
      simp only [ifs_copy, expr_copy_eq c, block_copy_eq t, ifs_copy_eq rest]

/-- `block_copy` is the identity. -/
theorem block_copy_eq : (b : Block) → block_copy b = b
  | .mk stmts => by simp only [block_copy, stmts_copy_eq stmts]

/-- `stmts_copy` is the identity. -/
theorem stmts_copy_eq : (sl : StmtList) → stmts_copy sl = sl
  | .nil => rfl
  | .cons s rest => by
      simp only [stmts_copy, statement_copy_eq s, stmts_copy_eq rest]

end

/-- Every expression has positive size. -/
theorem expr_one_le_esize (e : Expr) : 1 ≤ e.esize := by
  cases e <;> simp_arith [Expr.esize]

/-- Every `ParamList` has positive size. -/
theorem params_one_le_esize (ps : ParamList) : 1 ≤ ps.esize := by
  cases ps <;> simp_arith [ParamList.esize]

/-- Every `NParamList` has positive size. -/
theorem nparams_one_le_esize (ps : NParamList) : 1 ≤ ps.esize := by
  cases ps <;> simp_arith [NParamList.esize]

/-- Every `Statement` has positive size. -/
theorem statement_one_le_esize (st : Statement) : 1 ≤ st.esize := by
  cases st with
  | decl ty n init => cases init <;> simp_arith [Statement.esize]
  | _ => simp_arith [Statement.esize]

/-- A `ParamList` is at least as big as its length. -/
theorem params_length_le_esize : (ps : ParamList) → ps.length ≤ ps.esize
  | .nil => by simp [ParamList.length, ParamList.esize]
  | .cons ty n rest => by
      have h := params_length_le_esize rest
      have h2 := expr_one_le_esize ty
      simp only [ParamList.length, ParamList.esize]
      omega

/-- An `NParamList` is at least as big as its length. -/
theorem nparams_length_le_esize : (ps : NParamList) → ps.length ≤ ps.esize
  | .nil => by simp [NParamList.length, NParamList.esize]
  | .cons ty n rest => by
      have h := nparams_length_le_esize rest
      have h2 := expr_one_le_esize ty
      simp only [NParamList.length, NParamList.esize]
      omega

/-- `p` is free in the identifier `z` exactly when `p = z`. -/
theorem mem_free_vars_ident {p z : Sym} : p ∈ expr_free_vars (.ident z) ↔ p = z := by
  simp [expr_free_vars]

/-- Renaming-invariance relation: same size, cleanliness preserved, name
bounds preserved.  This is what substituting a fresh identifier leaves
intact. -/
def ExprKeeps (e e' : Expr) : Prop :=
  e'.esize = e.esize ∧
  (e.no_struct_pack = true → e'.no_struct_pack = true) ∧
  ∀ m, e.names_lt m = true → e'.names_lt m = true

/-- `ExprKeeps` over `ParamList`s. -/
def ParamsKeeps (ps ps' : ParamList) : Prop :=
  ps'.esize = ps.esize ∧
  (ps.no_struct_pack = true → ps'.no_struct_pack = true) ∧
  ∀ m, ps.names_lt m = true → ps'.names_lt m = true

/-- `ExprKeeps` over `NParamList`s. -/
def NParamsKeeps (ps ps' : NParamList) : Prop :=
  ps'.esize = ps.esize ∧
  (ps.no_struct_pack = true → ps'.no_struct_pack = true) ∧
  ∀ m, ps.names_lt m = true → ps'.names_lt m = true

/-- `ExprKeeps` over `ExprList`s. -/
def ArgsKeeps (args args' : ExprList) : Prop :=
  args'.esize = args.esize ∧
  (args.no_struct_pack = true → args'.no_struct_pack = true) ∧
  ∀ m, args.names_lt m = true → args'.names_lt m = true

/-- `ExprKeeps` over `AssignList`s. -/
def AssignsKeeps (asg asg' : AssignList) : Prop :=
  asg'.esize = asg.esize ∧
  (asg.no_struct_pack = true → asg'.no_struct_pack = true) ∧
  ∀ m, asg.names_lt m = true → asg'.names_lt m = true

/-- `ExprKeeps` over `Statement`s. -/
def StatementKeeps (st st' : Statement) : Prop :=
  st'.esize = st.esize ∧
  (st.no_struct_pack = true → st'.no_struct_pack = true) ∧
  ∀ m, st.names_lt m = true → st'.names_lt m = true

/-- `ExprKeeps` over `IfList`s. -/
def IfsKeeps (ifs ifs' : IfList) : Prop :=
  ifs'.esize = ifs.esize ∧
  (ifs.no_struct_pack = true → ifs'.no_struct_pack = true) ∧
  ∀ m, ifs.names_lt m = true → ifs'.names_lt m = true

/-- `ExprKeeps` over `Block`s. -/
def BlockKeeps (b b' : Block) : Prop :=
  b'.esize = b.esize ∧
  (b.no_struct_pack = true → b'.no_struct_pack = true) ∧
  ∀ m, b.names_lt m = true → b'.names_lt m = true

/-- `ExprKeeps` over `StmtList`s. -/
def StmtsKeeps (sl sl' : StmtList) : Prop :=
  sl'.esize = sl.esize ∧
  (sl.no_struct_pack = true → sl'.no_struct_pack = true) ∧
  ∀ m, sl.names_lt m = true → sl'.names_lt m = true

/-- `ExprKeeps` is reflexive. -/
theorem ExprKeeps.refl_e (e : Expr) : ExprKeeps e e := ⟨rfl, id, fun _ => id⟩

/-- `ParamsKeeps` is reflexive. -/
theorem ParamsKeeps.refl_ps (ps : ParamList) : ParamsKeeps ps ps := ⟨rfl, id, fun _ => id⟩

/-- `NParamsKeeps` is reflexive. -/
theorem NParamsKeeps.refl_ps_nps (ps : NParamList) : NParamsKeeps ps ps := ⟨rfl, id, fun _ => id⟩

/-- `ArgsKeeps` is reflexive. -/
theorem ArgsKeeps.refl_args (args : ExprList) : ArgsKeeps args args := ⟨rfl, id, fun _ => id⟩

/-- `AssignsKeeps` is reflexive. -/
theorem AssignsKeeps.refl_asg (asg : AssignList) : AssignsKeeps asg asg := ⟨rfl, id, fun _ => id⟩

/-- `StatementKeeps` is reflexive. -/
theorem StatementKeeps.refl_st (st : Statement) : StatementKeeps st st := ⟨rfl, id, fun _ => id⟩

/-- `IfsKeeps` is reflexive. -/
theorem IfsKeeps.refl_ifs (ifs : IfList) : IfsKeeps ifs ifs := ⟨rfl, id, fun _ => id⟩

/-- `BlockKeeps` is reflexive. -/
theorem BlockKeeps.refl_bl (b : Block) : BlockKeeps b b := ⟨rfl, id, fun _ => id⟩

/-- `StmtsKeeps` is reflexive. -/
theorem StmtsKeeps.refl_sl (sl : StmtList) : StmtsKeeps sl sl := ⟨rfl, id, fun _ => id⟩

/-- Replacing one identifier by another keeps everything tracked. -/
theorem ExprKeeps.ident_ident (s z : Sym) : ExprKeeps (.ident s) (.ident z) :=
  ⟨rfl, fun _ => rfl, fun _ _ => rfl⟩

/-- Congruence of `ExprKeeps` for `binOp`. -/
theorem ExprKeeps.binOp (op : BinaryOp) {e1 e1' e2 e2' : Expr}
    (h1 : ExprKeeps e1 e1') (h2 : ExprKeeps e2 e2') :
    ExprKeeps (.binOp op e1 e2) (.binOp op e1' e2') := by
  obtain ⟨s1, c1, n1⟩ := h1; obtain ⟨s2, c2, n2⟩ := h2
  refine ⟨by simp [Expr.esize, s1, s2], ?_, ?_⟩
  · intro h
    simp only [Expr.no_struct_pack, Bool.and_eq_true] at h ⊢
    exact ⟨c1 h.1, c2 h.2⟩
  · intro m h
    simp only [Expr.names_lt, Bool.and_eq_true] at h ⊢
    exact ⟨n1 m h.1, n2 m h.2⟩

/-- Congruence of `ExprKeeps` for `ifThenElse`. -/
theorem ExprKeeps.ifThenElse {p p' t t' e e' : Expr}
    (h1 : ExprKeeps p p') (h2 : ExprKeeps t t') (h3 : ExprKeeps e e') :
    ExprKeeps (.ifThenElse p t e) (.ifThenElse p' t' e') := by
  obtain ⟨s1, c1, n1⟩ := h1; obtain ⟨s2, c2, n2⟩ := h2; obtain ⟨s3, c3, n3⟩ := h3
  refine ⟨by simp [Expr.esize, s1, s2, s3], ?_, ?_⟩
  · intro h
    simp only [Expr.no_struct_pack, Bool.and_eq_true] at h ⊢
    exact ⟨⟨c1 h.1.1, c2 h.1.2⟩, c3 h.2⟩
  · intro m h
    simp only [Expr.names_lt, Bool.and_eq_true] at h ⊢
    exact ⟨⟨n1 m h.1.1, n2 m h.1.2⟩, n3 m h.2⟩

/-- Congruence of `ExprKeeps` for `funcType`. -/
theorem ExprKeeps.funcType {ret ret' : Expr} {ps ps' : ParamList}
    (h1 : ExprKeeps ret ret') (h2 : ParamsKeeps ps ps') :
    ExprKeeps (.funcType ret ps) (.funcType ret' ps') := by
  obtain ⟨s1, c1, n1⟩ := h1; obtain ⟨s2, c2, n2⟩ := h2
  refine ⟨by simp [Expr.esize, s1, s2], ?_, ?_⟩
  · intro h
    simp only [Expr.no_struct_pack, Bool.and_eq_true] at h ⊢
    exact ⟨c1 h.1, c2 h.2⟩
  · intro m h
    simp only [Expr.names_lt, Bool.and_eq_true] at h ⊢
    exact ⟨n1 m h.1, n2 m h.2⟩

/-- Congruence of `ExprKeeps` for `lambda`. -/
theorem ExprKeeps.lambda {ps ps' : NParamList} {b b' : Expr}
    (h1 : NParamsKeeps ps ps') (h2 : ExprKeeps b b') :
    ExprKeeps (.lambda ps b) (.lambda ps' b') := by
  obtain ⟨s1, c1, n1⟩ := h1; obtain ⟨s2, c2, n2⟩ := h2
  refine ⟨by simp [Expr.esize, s1, s2], ?_, ?_⟩
  · intro h
    simp only [Expr.no_struct_pack, Bool.and_eq_true] at h ⊢
    exact ⟨c1 h.1, c2 h.2⟩
  · intro m h
    simp only [Expr.names_lt, Bool.and_eq_true] at h ⊢
    exact ⟨n1 m h.1, n2 m h.2⟩

/-- Congruence of `ExprKeeps` for `call`. -/
theorem ExprKeeps.call {f f' : Expr} {args args' : ExprList}
    (h1 : ExprKeeps f f') (h2 : ArgsKeeps args args') :
    ExprKeeps (.call f args) (.call f' args') := by
  obtain ⟨s1, c1, n1⟩ := h1; obtain ⟨s2, c2, n2⟩ := h2
  refine ⟨by simp [Expr.esize, s1, s2], ?_, ?_⟩
  · intro h
    simp only [Expr.no_struct_pack, Bool.and_eq_true] at h ⊢
    exact ⟨c1 h.1, c2 h.2⟩
  · intro m h
    simp only [Expr.names_lt, Bool.and_eq_true] at h ⊢
    exact ⟨n1 m h.1, n2 m h.2⟩

/-- Congruence of `ExprKeeps` for `struct`. -/
theorem ExprKeeps.struct {fs fs' : NParamList} (h : NParamsKeeps fs fs') :
    ExprKeeps (.struct fs) (.struct fs') := by
  obtain ⟨s1, _, n1⟩ := h
  exact ⟨by simp [Expr.esize, s1], fun hc => by simp [Expr.no_struct_pack] at hc,
    fun m hm => n1 m hm⟩

/-- Congruence of `ExprKeeps` for `union`. -/
theorem ExprKeeps.union {fs fs' : NParamList} (h : NParamsKeeps fs fs') :
    ExprKeeps (.union fs) (.union fs') := by
  obtain ⟨s1, c1, n1⟩ := h
  exact ⟨by simp [Expr.esize, s1], fun hc => c1 hc, fun m hm => n1 m hm⟩

/-- Congruence of `ExprKeeps` for `pack`. -/
theorem ExprKeeps.pack {ty ty' : Expr} {asg asg' : AssignList}
    (h1 : ExprKeeps ty ty') (h2 : AssignsKeeps asg asg') :
    ExprKeeps (.pack ty asg) (.pack ty' asg') := by
  obtain ⟨s1, _, n1⟩ := h1; obtain ⟨s2, _, n2⟩ := h2
  refine ⟨by simp [Expr.esize, s1, s2],
    fun hc => by simp [Expr.no_struct_pack] at hc, ?_⟩
  intro m h
  simp only [Expr.names_lt, Bool.and_eq_true] at h ⊢
  exact ⟨n1 m h.1, n2 m h.2⟩

/-- Congruence of `ExprKeeps` for `member`. -/
theorem ExprKeeps.member {r r' : Expr} (f : Sym) (h : ExprKeeps r r') :
    ExprKeeps (.member r f) (.member r' f) := by
  obtain ⟨s1, c1, n1⟩ := h
  refine ⟨by simp [Expr.esize, s1], ?_, ?_⟩
  · intro hc
    simp only [Expr.no_struct_pack] at hc ⊢
    exact c1 hc
  · intro m hm
    simp only [Expr.names_lt, Bool.and_eq_true] at hm ⊢
    exact ⟨n1 m hm.1, hm.2⟩

/-- Congruence of `ExprKeeps` for `pointer`. -/
theorem ExprKeeps.pointer {e e' : Expr} (h : ExprKeeps e e') :
    ExprKeeps (.pointer e) (.pointer e') := by
  obtain ⟨s1, c1, n1⟩ := h
  exact ⟨by simp [Expr.esize, s1], fun hc => c1 hc, fun m hm => n1 m hm⟩

/-- Congruence of `ExprKeeps` for `reference`. -/
theorem ExprKeeps.reference {e e' : Expr} (h : ExprKeeps e e') :
    ExprKeeps (.reference e) (.reference e') := by
  obtain ⟨s1, c1, n1⟩ := h
  exact ⟨by simp [Expr.esize, s1], fun hc => c1 hc, fun m hm => n1 m hm⟩

/-- Congruence of `ExprKeeps` for `dereference`. -/
theorem ExprKeeps.dereference {e e' : Expr} (h : ExprKeeps e e') :
    ExprKeeps (.dereference e) (.dereference e') := by
  obtain ⟨s1, c1, n1⟩ := h
  exact ⟨by simp [Expr.esize, s1], fun hc => c1 hc, fun m hm => n1 m hm⟩

/-- Congruence of `ExprKeeps` for `statement`. -/
theorem ExprKeeps.statement {st st' : Statement} (h : StatementKeeps st st') :
    ExprKeeps (.statement st) (.statement st') := by
  obtain ⟨s1, c1, n1⟩ := h
  exact ⟨by simp [Expr.esize, s1], fun hc => c1 hc, fun m hm => n1 m hm⟩

/-- Congruence of `ParamsKeeps` for `cons` with the name unchanged. -/
theorem ParamsKeeps.cons_ps (n : Option Sym) {ty ty' : Expr} {rest rest' : ParamList}
    (h1 : ExprKeeps ty ty') (h2 : ParamsKeeps rest rest') :
    ParamsKeeps (.cons ty n rest) (.cons ty' n rest') := by
  obtain ⟨s1, c1, n1⟩ := h1; obtain ⟨s2, c2, n2⟩ := h2
  refine ⟨by simp [ParamList.esize, s1, s2], ?_, ?_⟩
  · intro h
    simp only [ParamList.no_struct_pack, Bool.and_eq_true] at h ⊢
    exact ⟨c1 h.1, c2 h.2⟩
  · intro m h
    cases n with
    | none =>
        simp only [ParamList.names_lt, Bool.and_eq_true] at h ⊢
        exact ⟨n1 m h.1, n2 m h.2⟩
    | some p =>
        simp only [ParamList.names_lt, Bool.and_eq_true] at h ⊢
        exact ⟨⟨n1 m h.1.1, h.1.2⟩, n2 m h.2⟩

/-- Congruence of `NParamsKeeps` for `cons` with the name unchanged. -/
theorem NParamsKeeps.cons_ps_nps (n : Sym) {ty ty' : Expr} {rest rest' : NParamList}
    (h1 : ExprKeeps ty ty') (h2 : NParamsKeeps rest rest') :
    NParamsKeeps (.cons ty n rest) (.cons ty' n rest') := by
  obtain ⟨s1, c1, n1⟩ := h1; obtain ⟨s2, c2, n2⟩ := h2
  refine ⟨by simp [NParamList.esize, s1, s2], ?_, ?_⟩
  · intro h
    simp only [NParamList.no_struct_pack, Bool.and_eq_true] at h ⊢
    exact ⟨c1 h.1, c2 h.2⟩
  · intro m h
    simp only [NParamList.names_lt, Bool.and_eq_true] at h ⊢
    exact ⟨⟨n1 m h.1.1, h.1.2⟩, n2 m h.2⟩

/-- Congruence of `ArgsKeeps` for `cons`. -/
theorem ArgsKeeps.cons_args {e e' : Expr} {rest rest' : ExprList}
    (h1 : ExprKeeps e e') (h2 : ArgsKeeps rest rest') :
    ArgsKeeps (.cons e rest) (.cons e' rest') := by
  obtain ⟨s1, c1, n1⟩ := h1; obtain ⟨s2, c2, n2⟩ := h2
  refine ⟨by simp [ExprList.esize, s1, s2], ?_, ?_⟩
  · intro h
    simp only [ExprList.no_struct_pack, Bool.and_eq_true] at h ⊢
    exact ⟨c1 h.1, c2 h.2⟩
  · intro m h
    simp only [ExprList.names_lt, Bool.and_eq_true] at h ⊢
    exact ⟨n1 m h.1, n2 m h.2⟩

/-- Congruence of `AssignsKeeps` for `cons` with the name unchanged. -/
theorem AssignsKeeps.cons_asg (n : Sym) {e e' : Expr} {rest rest' : AssignList}
    (h1 : ExprKeeps e e') (h2 : AssignsKeeps rest rest') :
    AssignsKeeps (.cons n e rest) (.cons n e' rest') := by
  obtain ⟨s1, c1, n1⟩ := h1; obtain ⟨s2, c2, n2⟩ := h2
  refine ⟨by simp [AssignList.esize, s1, s2], ?_, ?_⟩
  · intro h
    simp only [AssignList.no_struct_pack, Bool.and_eq_true] at h ⊢
    exact ⟨c1 h.1, c2 h.2⟩
  · intro m h
    simp only [AssignList.names_lt, Bool.and_eq_true] at h ⊢
    exact ⟨⟨h.1.1, n1 m h.1.2⟩, n2 m h.2⟩

/-- Congruence of `StatementKeeps` for `expr`. -/
theorem StatementKeeps.exprSt {e e' : Expr} (h : ExprKeeps e e') :
    StatementKeeps (.expr e) (.expr e') := by
  obtain ⟨s1, c1, n1⟩ := h
  exact ⟨by simp [Statement.esize, s1], fun hc => c1 hc, fun m hm => n1 m hm⟩

/-- Congruence of `StatementKeeps` for `ret`. -/
theorem StatementKeeps.retSt {e e' : Expr} (h : ExprKeeps e e') :
    StatementKeeps (.ret e) (.ret e') := by
  obtain ⟨s1, c1, n1⟩ := h
  exact ⟨by simp [Statement.esize, s1], fun hc => c1 hc, fun m hm => n1 m hm⟩

/-- Congruence of `StatementKeeps` for `block`. -/
theorem StatementKeeps.blockSt {b b' : Block} (h : BlockKeeps b b') :
    StatementKeeps (.block b) (.block b') := by
  obtain ⟨s1, c1, n1⟩ := h
  exact ⟨by simp [Statement.esize, s1], fun hc => c1 hc, fun m hm => n1 m hm⟩

/-- Congruence of `StatementKeeps` for an uninitialized `decl`. -/
theorem StatementKeeps.declNone (n : Sym) {ty ty' : Expr} (h : ExprKeeps ty ty') :
    StatementKeeps (.decl ty n none) (.decl ty' n none) := by
  obtain ⟨s1, c1, n1⟩ := h
  refine ⟨by simp [Statement.esize, s1], ?_, ?_⟩
  · intro hc
    simp only [Statement.no_struct_pack] at hc ⊢
    exact c1 hc
  · intro m hm
    simp only [Statement.names_lt, Bool.and_eq_true] at hm ⊢
    exact ⟨n1 m hm.1, hm.2⟩

/-- Congruence of `StatementKeeps` for an initialized `decl`. -/
theorem StatementKeeps.declSome (n : Sym) {ty ty' v v' : Expr}
    (h1 : ExprKeeps ty ty') (h2 : ExprKeeps v v') :
    StatementKeeps (.decl ty n (some v)) (.decl ty' n (some v')) := by
  obtain ⟨s1, c1, n1⟩ := h1; obtain ⟨s2, c2, n2⟩ := h2
  refine ⟨by simp [Statement.esize, s1, s2], ?_, ?_⟩
  · intro h
    simp only [Statement.no_struct_pack, Bool.and_eq_true] at h ⊢
    exact ⟨c1 h.1, c2 h.2⟩
  · intro m h
    simp only [Statement.names_lt, Bool.and_eq_true] at h ⊢
    exact ⟨⟨n1 m h.1.1, h.1.2⟩, n2 m h.2⟩

/-- Congruence of `StatementKeeps` for a statement-level `ifThenElse`. -/
theorem StatementKeeps.ifSt {ifs ifs' : IfList} {els els' : Block}
    (h1 : IfsKeeps ifs ifs') (h2 : BlockKeeps els els') :
    StatementKeeps (.ifThenElse ifs els) (.ifThenElse ifs' els') := by
  obtain ⟨s1, c1, n1⟩ := h1; obtain ⟨s2, c2, n2⟩ := h2
  refine ⟨by simp [Statement.esize, s1, s2], ?_, ?_⟩
  · intro h
    simp only [Statement.no_struct_pack, Bool.and_eq_true] at h ⊢
    exact ⟨c1 h.1, c2 h.2⟩
  · intro m h
    simp only [Statement.names_lt, Bool.and_eq_true] at h ⊢
    exact ⟨n1 m h.1, n2 m h.2⟩

/-- Congruence of `IfsKeeps` for `cons`. -/
theorem IfsKeeps.cons_ifs {c c' : Expr} {t t' : Block} {rest rest' : IfList}
    (h1 : ExprKeeps c c') (h2 : BlockKeeps t t') (h3 : IfsKeeps rest rest') :
    IfsKeeps (.cons c t rest) (.cons c' t' rest') := by
  obtain ⟨s1, c1, n1⟩ := h1; obtain ⟨s2, c2, n2⟩ := h2; obtain ⟨s3, c3, n3⟩ := h3
  refine ⟨by simp [IfList.esize, s1, s2, s3], ?_, ?_⟩
  · intro h
    simp only [IfList.no_struct_pack, Bool.and_eq_true] at h ⊢
    exact ⟨⟨c1 h.1.1, c2 h.1.2⟩, c3 h.2⟩
  · intro m h
    simp only [IfList.names_lt, Bool.and_eq_true] at h ⊢
    exact ⟨⟨n1 m h.1.1, n2 m h.1.2⟩, n3 m h.2⟩

/-- Congruence of `BlockKeeps` for `mk`. -/
theorem BlockKeeps.mk {sl sl' : StmtList} (h : StmtsKeeps sl sl') :
    BlockKeeps (.mk sl) (.mk sl') := by
  obtain ⟨s1, c1, n1⟩ := h
  exact ⟨by simp [Block.esize, s1], fun hc => c1 hc, fun m hm => n1 m hm⟩

/-- Congruence of `StmtsKeeps` for `cons`. -/
theorem StmtsKeeps.cons_sl {s s' : Statement} {rest rest' : StmtList}
    (h1 : StatementKeeps s s') (h2 : StmtsKeeps rest rest') :
    StmtsKeeps (.cons s rest) (.cons s' rest') := by
  obtain ⟨s1, c1, n1⟩ := h1; obtain ⟨s2, c2, n2⟩ := h2
  refine ⟨by simp [StmtList.esize, s1, s2], ?_, ?_⟩
  · intro h
    simp only [StmtList.no_struct_pack, Bool.and_eq_true] at h ⊢
    exact ⟨c1 h.1, c2 h.2⟩
  · intro m h
    simp only [StmtList.names_lt, Bool.and_eq_true] at h ⊢
    exact ⟨n1 m h.1, n2 m h.2⟩

mutual

/-- Substituting a *fresh* identifier `z` (larger than every name in the
term) always succeeds, does not consume gensyms, and keeps size,
cleanliness and name bounds: no capture check can fire because every
binder/field name is below `z`. -/
theorem rename_subst_ok : (fuel : Nat) → (ctx : Context) → (e : Expr) →
    (name z : Sym) → e.esize ≤ fuel → e.names_lt z = true →
    (expr_subst fuel ctx e name (.ident z)).1 = true ∧
    (expr_subst fuel ctx e name (.ident z)).2.2 = ctx ∧
    ExprKeeps e (expr_subst fuel ctx e name (.ident z)).2.1
  | 0, _, e, _, _, hfuel, _ =>
      absurd hfuel (by have := expr_one_le_esize e; omega)
  | fuel + 1, ctx, .literal l, name, z, _, _ =>
      ⟨rfl, rfl, ExprKeeps.refl_e _⟩
  | fuel + 1, ctx, .ident s, name, z, _, _ =>
      ⟨rfl, rfl, ExprKeeps.ident_ident s z⟩
  | fuel + 1, ctx, .binOp op e1 e2, name, z, hfuel, hnl => by
      simp only [Expr.esize] at hfuel
      simp only [Expr.names_lt, Bool.and_eq_true] at hnl
      have H1 := rename_subst_ok fuel ctx e1 name z (by omega) hnl.1
      rcases h1 : expr_subst fuel ctx e1 name (.ident z) with ⟨b1, e1', c1⟩
      rw [h1] at H1
      obtain ⟨hb1, hc1, hk1⟩ := H1
      simp only at hb1 hc1
      subst hb1
      have H2 := rename_subst_ok fuel c1 e2 name z (by omega) hnl.2
      rcases h2 : expr_subst fuel c1 e2 name (.ident z) with ⟨b2, e2', c2⟩
      rw [h2] at H2
      obtain ⟨hb2, hc2, hk2⟩ := H2
      simp only at hb2 hc2
      subst hb2
      simp only [expr_subst, h1, h2, if_true]
      exact ⟨trivial, hc2.trans hc1, ExprKeeps.binOp op hk1 hk2⟩
  | fuel + 1, ctx, .ifThenElse p t el, name, z, hfuel, hnl => by
      simp only [Expr.esize] at hfuel
      simp only [Expr.names_lt, Bool.and_eq_true] at hnl
      have H1 := rename_subst_ok fuel ctx p name z (by omega) hnl.1.1
      rcases h1 : expr_subst fuel ctx p name (.ident z) with ⟨b1, p', c1⟩
      rw [h1] at H1
      obtain ⟨hb1, hc1, hk1⟩ := H1
      simp only at hb1 hc1
      subst hb1
      have H2 := rename_subst_ok fuel c1 t name z (by omega) hnl.1.2
      rcases h2 : expr_subst fuel c1 t name (.ident z) with ⟨b2, t', c2⟩
      rw [h2] at H2
      obtain ⟨hb2, hc2, hk2⟩ := H2
      simp only at hb2 hc2
      subst hb2
      have H3 := rename_subst_ok fuel c2 el name z (by omega) hnl.2
      rcases h3 : expr_subst fuel c2 el name (.ident z) with ⟨b3, el', c3⟩
      rw [h3] at H3
      obtain ⟨hb3, hc3, hk3⟩ := H3
      simp only at hb3 hc3
      subst hb3
      simp only [expr_subst, h1, h2, h3, if_true]
      exact ⟨trivial, hc3.trans (hc2.trans hc1), ExprKeeps.ifThenElse hk1 hk2 hk3⟩
  | fuel + 1, ctx, .funcType ret ps, name, z, hfuel, hnl => by
      simp only [Expr.esize] at hfuel
      simp only [Expr.names_lt, Bool.and_eq_true] at hnl
      have H := rename_subst_ok_ftparams fuel ctx ps ret name z (by omega) hnl.2 hnl.1
      rcases h : func_type_subst_params fuel ctx ps ret name (.ident z)
        (expr_free_vars (.ident z)) with ⟨b, ps', ret', c⟩
      rw [h] at H
      obtain ⟨hb, hc, hkp, hkr⟩ := H
      simp only at hb hc
      subst hb
      simp only [expr_subst, h]
      exact ⟨trivial, hc, ExprKeeps.funcType hkr hkp⟩
  | fuel + 1, ctx, .lambda ps body, name, z, hfuel, hnl => by
      simp only [Expr.esize] at hfuel
      simp only [Expr.names_lt, Bool.and_eq_true] at hnl
      have H := rename_subst_ok_lamparams fuel ctx ps body name z (by omega) hnl.1 hnl.2
      rcases h : lambda_subst_params fuel ctx ps body name (.ident z)
        (expr_free_vars (.ident z)) with ⟨b, ps', body', c⟩
      rw [h] at H
      obtain ⟨hb, hc, hkp, hkb⟩ := H
      simp only at hb hc
      subst hb
      simp only [expr_subst, h]
      exact ⟨trivial, hc, ExprKeeps.lambda hkp hkb⟩
  | fuel + 1, ctx, .call f args, name, z, hfuel, hnl => by
      simp only [Expr.esize] at hfuel
      simp only [Expr.names_lt, Bool.and_eq_true] at hnl
      have H1 := rename_subst_ok fuel ctx f name z (by omega) hnl.1
      rcases h1 : expr_subst fuel ctx f name (.ident z) with ⟨b1, f', c1⟩
      rw [h1] at H1
      obtain ⟨hb1, hc1, hk1⟩ := H1
      simp only at hb1 hc1
      subst hb1
      have H2 := rename_subst_ok_args fuel c1 args name z (by omega) hnl.2
      rcases h2 : call_subst_args fuel c1 args name (.ident z) with ⟨b2, args', c2⟩
      rw [h2] at H2
      obtain ⟨hb2, hc2, hk2⟩ := H2
      simp only at hb2 hc2
      subst hb2
      simp only [expr_subst, h1, h2, if_true]
      exact ⟨trivial, hc2.trans hc1, ExprKeeps.call hk1 hk2⟩
  | fuel + 1, ctx, .struct fs, name, z, hfuel, hnl => by
      simp only [Expr.esize] at hfuel
      simp only [Expr.names_lt] at hnl
      have H := rename_subst_ok_struct_fields fuel ctx fs name z (by omega) hnl
      rcases h : struct_subst_fields fuel ctx fs name (.ident z)
        (expr_free_vars (.ident z)) with ⟨b, fs', c⟩
      rw [h] at H
      obtain ⟨hb, hc, hk⟩ := H
      simp only at hb hc
      subst hb
      simp only [expr_subst, h]
      exact ⟨trivial, hc, ExprKeeps.struct hk⟩
  | fuel + 1, ctx, .union fs, name, z, hfuel, hnl => by
      simp only [Expr.esize] at hfuel
      simp only [Expr.names_lt] at hnl
      have H := rename_subst_ok_union_fields fuel ctx fs name z (by omega) hnl
      rcases h : union_subst_fields fuel ctx fs name (.ident z) with ⟨b, fs', c⟩
      rw [h] at H
      obtain ⟨hb, hc, hk⟩ := H
      simp only at hb hc
      subst hb
      simp only [expr_subst, h]
      exact ⟨trivial, hc, ExprKeeps.union hk⟩
  | fuel + 1, ctx, .pack ty asg, name, z, hfuel, hnl => by
      simp only [Expr.esize] at hfuel
      simp only [Expr.names_lt, Bool.and_eq_true] at hnl
      have H := rename_subst_ok_assigns fuel ctx asg name z (by omega) hnl.2
      rcases h : pack_subst_assigns fuel ctx asg name (.ident z)
        (expr_free_vars (.ident z)) with ⟨b, asg', c⟩
      rw [h] at H
      obtain ⟨hb, hc, hk⟩ := H
      simp only at hb hc
      subst hb
      simp only [expr_subst, h]
      exact ⟨trivial, hc, ExprKeeps.pack (ExprKeeps.refl_e ty) hk⟩
  | fuel + 1, ctx, .member rc f, name, z, hfuel, hnl => by
      simp only [Expr.esize] at hfuel
      simp only [Expr.names_lt, Bool.and_eq_true] at hnl
      have H := rename_subst_ok fuel ctx rc name z (by omega) hnl.1
      rcases h : expr_subst fuel ctx rc name (.ident z) with ⟨b, rc', c⟩
      rw [h] at H
      obtain ⟨hb, hc, hk⟩ := H
      simp only at hb hc
      subst hb
      simp only [expr_subst, h]
      exact ⟨trivial, hc, ExprKeeps.member f hk⟩
  | fuel + 1, ctx, .pointer e1, name, z, hfuel, hnl => by
      simp only [Expr.esize] at hfuel
      simp only [Expr.names_lt] at hnl
      have H := rename_subst_ok fuel ctx e1 name z (by omega) hnl
      rcases h : expr_subst fuel ctx e1 name (.ident z) with ⟨b, e1', c⟩
      rw [h] at H
      obtain ⟨hb, hc, hk⟩ := H
      simp only at hb hc
      subst hb
      simp only [expr_subst, h]
      exact ⟨trivial, hc, ExprKeeps.pointer hk⟩
  | fuel + 1, ctx, .reference e1, name, z, hfuel, hnl => by
      simp only [Expr.esize] at hfuel
      simp only [Expr.names_lt] at hnl
      have H := rename_subst_ok fuel ctx e1 name z (by omega) hnl
      rcases h : expr_subst fuel ctx e1 name (.ident z) with ⟨b, e1', c⟩
      rw [h] at H
      obtain ⟨hb, hc, hk⟩ := H
      simp only at hb hc
      subst hb
      simp only [expr_subst, h]
      exact ⟨trivial, hc, ExprKeeps.reference hk⟩
  | fuel + 1, ctx, .dereference e1, name, z, hfuel, hnl => by
      simp only [Expr.esize] at hfuel
      simp only [Expr.names_lt] at hnl
      have H := rename_subst_ok fuel ctx e1 name z (by omega) hnl
      rcases h : expr_subst fuel ctx e1 name (.ident z) with ⟨b, e1', c⟩
      rw [h] at H
      obtain ⟨hb, hc, hk⟩ := H
      simp only at hb hc
      subst hb
      simp only [expr_subst, h]
      exact ⟨trivial, hc, ExprKeeps.dereference hk⟩
  | fuel + 1, ctx, .statement st, name, z, hfuel, hnl => by
      simp only [Expr.esize] at hfuel
      simp only [Expr.names_lt] at hnl
      have H := rename_subst_ok_statement fuel ctx st name z (by omega) hnl
      rcases h : statement_subst fuel ctx st name (.ident z) with ⟨b, st', c⟩
      rw [h] at H
      obtain ⟨hb, hc, hk⟩ := H
      simp only at hb hc
      subst hb
      simp only [expr_subst, h]
      exact ⟨trivial, hc, ExprKeeps.statement hk⟩
termination_by structural f _ _ _ _ _ _ => f

/-- `rename_subst_ok` for the `FuncType` parameter loop: the capture test
`p ∈ {z}` never fires because every parameter name is below `z`. -/
theorem rename_subst_ok_ftparams : (fuel : Nat) → (ctx : Context) →
    (ps : ParamList) → (ret : Expr) → (name z : Sym) →
    ps.esize + ret.esize ≤ fuel → ps.names_lt z = true → ret.names_lt z = true →
    (func_type_subst_params fuel ctx ps ret name (.ident z)
        (expr_free_vars (.ident z))).1 = true ∧
    (func_type_subst_params fuel ctx ps ret name (.ident z)
        (expr_free_vars (.ident z))).2.2.2 = ctx ∧
    ParamsKeeps ps (func_type_subst_params fuel ctx ps ret name (.ident z)
        (expr_free_vars (.ident z))).2.1 ∧
    ExprKeeps ret (func_type_subst_params fuel ctx ps ret name (.ident z)
        (expr_free_vars (.ident z))).2.2.1
  | 0, _, ps, ret, _, _, hfuel, _, _ =>
      absurd hfuel
        (by have := params_one_le_esize ps; have := expr_one_le_esize ret; omega)
  | fuel + 1, ctx, .nil, ret, name, z, hfuel, _, hnr => by
      simp only [ParamList.esize] at hfuel
      have H := rename_subst_ok fuel ctx ret name z (by omega) hnr
      rcases h : expr_subst fuel ctx ret name (.ident z) with ⟨b, ret', c⟩
      rw [h] at H
      obtain ⟨hb, hc, hk⟩ := H
      simp only at hb hc
      subst hb
      simp only [func_type_subst_params, h]
      exact ⟨trivial, hc, ParamsKeeps.refl_ps _, hk⟩
  | fuel + 1, ctx, .cons ty pname rest, ret, name, z, hfuel, hnp, hnr => by
      simp only [ParamList.esize] at hfuel
      have H1 := rename_subst_ok fuel ctx ty name z (by omega)
        (by cases pname <;>
          simp only [ParamList.names_lt, Bool.and_eq_true] at hnp <;>
          first
          | exact hnp.1
          | exact hnp.1.1)
      rcases h1 : expr_subst fuel ctx ty name (.ident z) with ⟨b1, ty1, c1⟩
      rw [h1] at H1
      obtain ⟨hb1, hc1, hk1⟩ := H1
      simp only at hb1 hc1
      subst hb1
      cases pname with
      | none =>
          simp only [ParamList.names_lt, Bool.and_eq_true] at hnp
          have H2 := rename_subst_ok_ftparams fuel c1 rest ret name z (by omega)
            hnp.2 hnr
          rcases h2 : func_type_subst_params fuel c1 rest ret name (.ident z)
            (expr_free_vars (.ident z)) with ⟨b2, rest', ret', c2⟩
          rw [h2] at H2
          obtain ⟨hb2, hc2, hkp, hkr⟩ := H2
          simp only at hb2 hc2
          subst hb2
          simp only [func_type_subst_params, h1, h2, if_true]
          exact ⟨trivial, hc2.trans hc1, ParamsKeeps.cons_ps none hk1 hkp, hkr⟩
      | some p =>
          simp only [ParamList.names_lt, Bool.and_eq_true, decide_eq_true_eq] at hnp
          by_cases hpn : p = name
          · simp only [func_type_subst_params, h1, if_true, hpn, if_pos rfl]
            refine ⟨trivial, hc1, ?_, ExprKeeps.refl_e ret⟩
            exact ParamsKeeps.cons_ps (some name) hk1 (ParamsKeeps.refl_ps rest)
          · have hnotin : p ∉ expr_free_vars (.ident z) := by
              rw [mem_free_vars_ident]
              exact Nat.ne_of_lt hnp.1.2
            have H2 := rename_subst_ok_ftparams fuel c1 rest ret name z (by omega)
              hnp.2 hnr
            rcases h2 : func_type_subst_params fuel c1 rest ret name (.ident z)
              (expr_free_vars (.ident z)) with ⟨b2, rest', ret', c2⟩
            rw [h2] at H2
            obtain ⟨hb2, hc2, hkp, hkr⟩ := H2
            simp only at hb2 hc2
            subst hb2
            simp only [func_type_subst_params, h1, if_true, hpn, if_false,
              hnotin, h2]
            exact ⟨trivial, hc2.trans hc1, ParamsKeeps.cons_ps (some p) hk1 hkp, hkr⟩
termination_by structural f _ _ _ _ _ _ _ _ => f

/-- `rename_subst_ok` for the `Lambda` parameter loop. -/
theorem rename_subst_ok_lamparams : (fuel : Nat) → (ctx : Context) →
    (ps : NParamList) → (body : Expr) → (name z : Sym) →
    ps.esize + body.esize ≤ fuel → ps.names_lt z = true → body.names_lt z = true →
    (lambda_subst_params fuel ctx ps body name (.ident z)
        (expr_free_vars (.ident z))).1 = true ∧
    (lambda_subst_params fuel ctx ps body name (.ident z)
        (expr_free_vars (.ident z))).2.2.2 = ctx ∧
    NParamsKeeps ps (lambda_subst_params fuel ctx ps body name (.ident z)
        (expr_free_vars (.ident z))).2.1 ∧
    ExprKeeps body (lambda_subst_params fuel ctx ps body name (.ident z)
        (expr_free_vars (.ident z))).2.2.1
  | 0, _, ps, body, _, _, hfuel, _, _ =>
      absurd hfuel
        (by have := nparams_one_le_esize ps; have := expr_one_le_esize body; omega)
  | fuel + 1, ctx, .nil, body, name, z, hfuel, _, hnb => by
      simp only [NParamList.esize] at hfuel
      have H := rename_subst_ok fuel ctx body name z (by omega) hnb
      rcases h : expr_subst fuel ctx body name (.ident z) with ⟨b, body', c⟩
      rw [h] at H
      obtain ⟨hb, hc, hk⟩ := H
      simp only at hb hc
      subst hb
      simp only [lambda_subst_params, h]
      exact ⟨trivial, hc, NParamsKeeps.refl_ps_nps _, hk⟩
  | fuel + 1, ctx, .cons ty p rest, body, name, z, hfuel, hnp, hnb => by
      simp only [NParamList.esize] at hfuel
      simp only [NParamList.names_lt, Bool.and_eq_true, decide_eq_true_eq] at hnp
      have H1 := rename_subst_ok fuel ctx ty name z (by omega) hnp.1.1
      rcases h1 : expr_subst fuel ctx ty name (.ident z) with ⟨b1, ty1, c1⟩
      rw [h1] at H1
      obtain ⟨hb1, hc1, hk1⟩ := H1
      simp only at hb1 hc1
      subst hb1
      by_cases hpn : p = name
      · simp only [lambda_subst_params, h1, if_true, hpn, if_pos rfl]
        refine ⟨trivial, hc1, ?_, ExprKeeps.refl_e body⟩
        exact NParamsKeeps.cons_ps_nps name hk1 (NParamsKeeps.refl_ps_nps rest)
      · have hnotin : p ∉ expr_free_vars (.ident z) := by
          rw [mem_free_vars_ident]
          exact Nat.ne_of_lt hnp.1.2
        have H2 := rename_subst_ok_lamparams fuel c1 rest body name z (by omega)
          hnp.2 hnb
        rcases h2 : lambda_subst_params fuel c1 rest body name (.ident z)
          (expr_free_vars (.ident z)) with ⟨b2, rest', body', c2⟩
        rw [h2] at H2
        obtain ⟨hb2, hc2, hkp, hkb⟩ := H2
        simp only at hb2 hc2
        subst hb2
        simp only [lambda_subst_params, h1, if_true, hpn, if_false, hnotin, h2]
        exact ⟨trivial, hc2.trans hc1, NParamsKeeps.cons_ps_nps p hk1 hkp, hkb⟩
termination_by structural f _ _ _ _ _ _ _ _ => f

/-- `rename_subst_ok` for the `Struct` field loop: the refusal check
`fn ∈ {z}` never fires. -/
theorem rename_subst_ok_struct_fields : (fuel : Nat) → (ctx : Context) →
    (fs : NParamList) → (name z : Sym) →
    fs.esize ≤ fuel → fs.names_lt z = true →
    (struct_subst_fields fuel ctx fs name (.ident z)
        (expr_free_vars (.ident z))).1 = true ∧
    (struct_subst_fields fuel ctx fs name (.ident z)
        (expr_free_vars (.ident z))).2.2 = ctx ∧
    NParamsKeeps fs (struct_subst_fields fuel ctx fs name (.ident z)
        (expr_free_vars (.ident z))).2.1
  | 0, _, fs, _, _, hfuel, _ =>
      absurd hfuel (by have := nparams_one_le_esize fs; omega)
  | fuel + 1, ctx, .nil, name, z, _, _ => ⟨rfl, rfl, NParamsKeeps.refl_ps_nps _⟩
  | fuel + 1, ctx, .cons ty fn rest, name, z, hfuel, hnp => by
      simp only [NParamList.esize] at hfuel
      simp only [NParamList.names_lt, Bool.and_eq_true, decide_eq_true_eq] at hnp
      have H1 := rename_subst_ok fuel ctx ty name z (by omega) hnp.1.1
      rcases h1 : expr_subst fuel ctx ty name (.ident z) with ⟨b1, ty1, c1⟩
      rw [h1] at H1
      obtain ⟨hb1, hc1, hk1⟩ := H1
      simp only at hb1 hc1
      subst hb1
      by_cases hpn : fn = name
      · simp only [struct_subst_fields, h1, if_true, hpn, if_pos rfl]
        exact ⟨trivial, hc1, NParamsKeeps.cons_ps_nps name hk1 (NParamsKeeps.refl_ps_nps rest)⟩
      · have hnotin : fn ∉ expr_free_vars (.ident z) := by
          rw [mem_free_vars_ident]
          exact Nat.ne_of_lt hnp.1.2
        have H2 := rename_subst_ok_struct_fields fuel c1 rest name z (by omega) hnp.2
        rcases h2 : struct_subst_fields fuel c1 rest name (.ident z)
          (expr_free_vars (.ident z)) with ⟨b2, rest', c2⟩
        rw [h2] at H2
        obtain ⟨hb2, hc2, hk2⟩ := H2
        simp only at hb2 hc2
        subst hb2
        simp only [struct_subst_fields, h1, if_true, hpn, if_false, hnotin, h2]
        exact ⟨trivial, hc2.trans hc1, NParamsKeeps.cons_ps_nps fn hk1 hk2⟩
termination_by structural f _ _ _ _ _ _ => f

/-- `rename_subst_ok` for the `Union` field loop. -/
theorem rename_subst_ok_union_fields : (fuel : Nat) → (ctx : Context) →
    (fs : NParamList) → (name z : Sym) →
    fs.esize ≤ fuel → fs.names_lt z = true →
    (union_subst_fields fuel ctx fs name (.ident z)).1 = true ∧
    (union_subst_fields fuel ctx fs name (.ident z)).2.2 = ctx ∧
    NParamsKeeps fs (union_subst_fields fuel ctx fs name (.ident z)).2.1
  | 0, _, fs, _, _, hfuel, _ =>
      absurd hfuel (by have := nparams_one_le_esize fs; omega)
  | fuel + 1, ctx, .nil, name, z, _, _ => ⟨rfl, rfl, NParamsKeeps.refl_ps_nps _⟩
  | fuel + 1, ctx, .cons ty fn rest, name, z, hfuel, hnp => by
      simp only [NParamList.esize] at hfuel
      simp only [NParamList.names_lt, Bool.and_eq_true, decide_eq_true_eq] at hnp
      have H1 := rename_subst_ok fuel ctx ty name z (by omega) hnp.1.1
      rcases h1 : expr_subst fuel ctx ty name (.ident z) with ⟨b1, ty1, c1⟩
      rw [h1] at H1
      obtain ⟨hb1, hc1, hk1⟩ := H1
      simp only at hb1 hc1
      subst hb1
      have H2 := rename_subst_ok_union_fields fuel c1 rest name z (by omega) hnp.2
      rcases h2 : union_subst_fields fuel c1 rest name (.ident z) with ⟨b2, rest', c2⟩
      rw [h2] at H2
      obtain ⟨hb2, hc2, hk2⟩ := H2
      simp only at hb2 hc2
      subst hb2
      simp only [union_subst_fields, h1, if_true, h2]
      exact ⟨trivial, hc2.trans hc1, NParamsKeeps.cons_ps_nps fn hk1 hk2⟩
termination_by structural f _ _ _ _ _ _ => f

/-- `rename_subst_ok` for the `Pack` assignment loop. -/
theorem rename_subst_ok_assigns : (fuel : Nat) → (ctx : Context) →
    (asg : AssignList) → (name z : Sym) →
    asg.esize ≤ fuel → asg.names_lt z = true →
    (pack_subst_assigns fuel ctx asg name (.ident z)
        (expr_free_vars (.ident z))).1 = true ∧
    (pack_subst_assigns fuel ctx asg name (.ident z)
        (expr_free_vars (.ident z))).2.2 = ctx ∧
    AssignsKeeps asg (pack_subst_assigns fuel ctx asg name (.ident z)
        (expr_free_vars (.ident z))).2.1
  | 0, _, asg, _, _, hfuel, _ =>
      absurd hfuel (by cases asg <;> simp_arith [AssignList.esize] at hfuel)
  | fuel + 1, ctx, .nil, name, z, _, _ => ⟨rfl, rfl, AssignsKeeps.refl_asg _⟩
  | fuel + 1, ctx, .cons fn e rest, name, z, hfuel, hnp => by
      simp only [AssignList.esize] at hfuel
      simp only [AssignList.names_lt, Bool.and_eq_true, decide_eq_true_eq] at hnp
      have H1 := rename_subst_ok fuel ctx e name z (by omega) hnp.1.2
      rcases h1 : expr_subst fuel ctx e name (.ident z) with ⟨b1, e1, c1⟩
      rw [h1] at H1
      obtain ⟨hb1, hc1, hk1⟩ := H1
      simp only at hb1 hc1
      subst hb1
      by_cases hpn : fn = name
      · simp only [pack_subst_assigns, h1, if_true, hpn, if_pos rfl]
        exact ⟨trivial, hc1, AssignsKeeps.cons_asg name hk1 (AssignsKeeps.refl_asg rest)⟩
      · have hnotin : fn ∉ expr_free_vars (.ident z) := by
          rw [mem_free_vars_ident]
          exact Nat.ne_of_lt hnp.1.1
        have H2 := rename_subst_ok_assigns fuel c1 rest name z (by omega) hnp.2
        rcases h2 : pack_subst_assigns fuel c1 rest name (.ident z)
          (expr_free_vars (.ident z)) with ⟨b2, rest', c2⟩
        rw [h2] at H2
        obtain ⟨hb2, hc2, hk2⟩ := H2
        simp only at hb2 hc2
        subst hb2
        simp only [pack_subst_assigns, h1, if_true, hpn, if_false, hnotin, h2]
        exact ⟨trivial, hc2.trans hc1, AssignsKeeps.cons_asg fn hk1 hk2⟩
termination_by structural f _ _ _ _ _ _ => f

/-- `rename_subst_ok` for the `Call` argument loop. -/
theorem rename_subst_ok_args : (fuel : Nat) → (ctx : Context) →
    (args : ExprList) → (name z : Sym) →
    args.esize ≤ fuel → args.names_lt z = true →
    (call_subst_args fuel ctx args name (.ident z)).1 = true ∧
    (call_subst_args fuel ctx args name (.ident z)).2.2 = ctx ∧
    ArgsKeeps args (call_subst_args fuel ctx args name (.ident z)).2.1
  | 0, _, args, _, _, hfuel, _ =>
      absurd hfuel (by cases args <;> simp_arith [ExprList.esize] at hfuel)
  | fuel + 1, ctx, .nil, name, z, _, _ => ⟨rfl, rfl, ArgsKeeps.refl_args _⟩
  | fuel + 1, ctx, .cons e rest, name, z, hfuel, hnp => by
      simp only [ExprList.esize] at hfuel
      simp only [ExprList.names_lt, Bool.and_eq_true] at hnp
      have H1 := rename_subst_ok fuel ctx e name z (by omega) hnp.1
      rcases h1 : expr_subst fuel ctx e name (.ident z) with ⟨b1, e1, c1⟩
      rw [h1] at H1
      obtain ⟨hb1, hc1, hk1⟩ := H1
      simp only at hb1 hc1
      subst hb1
      have H2 := rename_subst_ok_args fuel c1 rest name z (by omega) hnp.2
      rcases h2 : call_subst_args fuel c1 rest name (.ident z) with ⟨b2, rest', c2⟩
      rw [h2] at H2
      obtain ⟨hb2, hc2, hk2⟩ := H2
      simp only at hb2 hc2
      subst hb2
      simp only [call_subst_args, h1, if_true, h2]
      exact ⟨trivial, hc2.trans hc1, ArgsKeeps.cons_args hk1 hk2⟩
termination_by structural f _ _ _ _ _ _ => f

/-- `rename_subst_ok` for statements. -/
theorem rename_subst_ok_statement : (fuel : Nat) → (ctx : Context) →
    (st : Statement) → (name z : Sym) →
    st.esize ≤ fuel → st.names_lt z = true →
    (statement_subst fuel ctx st name (.ident z)).1 = true ∧
    (statement_subst fuel ctx st name (.ident z)).2.2 = ctx ∧
    StatementKeeps st (statement_subst fuel ctx st name (.ident z)).2.1
  | 0, _, st, _, _, hfuel, _ =>
      absurd hfuel (by have := statement_one_le_esize st; omega)
  | fuel + 1, ctx, .empty, name, z, _, _ => ⟨rfl, rfl, StatementKeeps.refl_st _⟩
  | fuel + 1, ctx, .expr e, name, z, hfuel, hnl => by
      simp only [Statement.esize] at hfuel
      simp only [Statement.names_lt] at hnl
      have H := rename_subst_ok fuel ctx e name z (by omega) hnl
      rcases h : expr_subst fuel ctx e name (.ident z) with ⟨b, e', c⟩
      rw [h] at H
      obtain ⟨hb, hc, hk⟩ := H
      simp only at hb hc
      subst hb
      simp only [statement_subst, h]
      exact ⟨trivial, hc, StatementKeeps.exprSt hk⟩
  | fuel + 1, ctx, .ret e, name, z, hfuel, hnl => by
      simp only [Statement.esize] at hfuel
      simp only [Statement.names_lt] at hnl
      have H := rename_subst_ok fuel ctx e name z (by omega) hnl
      rcases h : expr_subst fuel ctx e name (.ident z) with ⟨b, e', c⟩
      rw [h] at H
      obtain ⟨hb, hc, hk⟩ := H
      simp only at hb hc
      subst hb
      simp only [statement_subst, h]
      exact ⟨trivial, hc, StatementKeeps.retSt hk⟩
  | fuel + 1, ctx, .block bl, name, z, hfuel, hnl => by
      simp only [Statement.esize] at hfuel
      simp only [Statement.names_lt] at hnl
      have H := rename_subst_ok_block fuel ctx bl name z (by omega) hnl
      rcases h : block_subst fuel ctx bl name (.ident z) with ⟨b, bl', c⟩
      rw [h] at H
      obtain ⟨hb, hc, hk⟩ := H
      simp only at hb hc
      subst hb
      simp only [statement_subst, h]
      exact ⟨trivial, hc, StatementKeeps.blockSt hk⟩
  | fuel + 1, ctx, .decl ty n none, name, z, hfuel, hnl => by
      simp only [Statement.esize] at hfuel
      simp only [Statement.names_lt, Bool.and_eq_true, decide_eq_true_eq] at hnl
      have H := rename_subst_ok fuel ctx ty name z (by omega) hnl.1
      rcases h : expr_subst fuel ctx ty name (.ident z) with ⟨b, ty', c⟩
      rw [h] at H
      obtain ⟨hb, hc, hk⟩ := H
      simp only at hb hc
      subst hb
      simp only [statement_subst, h, if_true]
      exact ⟨trivial, hc, StatementKeeps.declNone n hk⟩
  | fuel + 1, ctx, .decl ty n (some v), name, z, hfuel, hnl => by
      simp only [Statement.esize] at hfuel
      simp only [Statement.names_lt, Bool.and_eq_true, decide_eq_true_eq] at hnl
      have H1 := rename_subst_ok fuel ctx ty name z (by omega) hnl.1.1
      rcases h1 : expr_subst fuel ctx ty name (.ident z) with ⟨b1, ty', c1⟩
      rw [h1] at H1
      obtain ⟨hb1, hc1, hk1⟩ := H1
      simp only at hb1 hc1
      subst hb1
      have H2 := rename_subst_ok fuel c1 v name z (by omega) hnl.2
      rcases h2 : expr_subst fuel c1 v name (.ident z) with ⟨b2, v', c2⟩
      rw [h2] at H2
      obtain ⟨hb2, hc2, hk2⟩ := H2
      simp only at hb2 hc2
      subst hb2
      simp only [statement_subst, h1, if_true, h2]
      exact ⟨trivial, hc2.trans hc1, StatementKeeps.declSome n hk1 hk2⟩
  | fuel + 1, ctx, .ifThenElse ifs els, name, z, hfuel, hnl => by
      simp only [Statement.esize] at hfuel
      simp only [Statement.names_lt, Bool.and_eq_true] at hnl
      have H1 := rename_subst_ok_ifs fuel ctx ifs name z (by omega) hnl.1
      rcases h1 : stmt_ifs_subst fuel ctx ifs name (.ident z) with ⟨b1, ifs', c1⟩
      rw [h1] at H1
      obtain ⟨hb1, hc1, hk1⟩ := H1
      simp only at hb1 hc1
      subst hb1
      have H2 := rename_subst_ok_block fuel c1 els name z (by omega) hnl.2
      rcases h2 : block_subst fuel c1 els name (.ident z) with ⟨b2, els', c2⟩
      rw [h2] at H2
      obtain ⟨hb2, hc2, hk2⟩ := H2
      simp only at hb2 hc2
      subst hb2
      simp only [statement_subst, h1, if_true, h2]
      exact ⟨trivial, hc2.trans hc1, StatementKeeps.ifSt hk1 hk2⟩
termination_by structural f _ _ _ _ _ _ => f

/-- `rename_subst_ok` for the statement-level `if` loop. -/
theorem rename_subst_ok_ifs : (fuel : Nat) → (ctx : Context) →
    (ifs : IfList) → (name z : Sym) →
    ifs.esize ≤ fuel → ifs.names_lt z = true →
    (stmt_ifs_subst fuel ctx ifs name (.ident z)).1 = true ∧
    (stmt_ifs_subst fuel ctx ifs name (.ident z)).2.2 = ctx ∧
    IfsKeeps ifs (stmt_ifs_subst fuel ctx ifs name (.ident z)).2.1
  | 0, _, ifs, _, _, hfuel, _ =>
      absurd hfuel (by cases ifs <;> simp_arith [IfList.esize] at hfuel)
  | fuel + 1, ctx, .nil, name, z, _, _ => ⟨rfl, rfl, IfsKeeps.refl_ifs _⟩
  | fuel + 1, ctx, .cons co t rest, name, z, hfuel, hnl => by
      simp only [IfList.esize] at hfuel
      simp only [IfList.names_lt, Bool.and_eq_true] at hnl
      have H1 := rename_subst_ok fuel ctx co name z (by omega) hnl.1.1
      rcases h1 : expr_subst fuel ctx co name (.ident z) with ⟨b1, co', c1⟩
      rw [h1] at H1
      obtain ⟨hb1, hc1, hk1⟩ := H1
      simp only at hb1 hc1
      subst hb1
      have H2 := rename_subst_ok_block fuel c1 t name z (by omega) hnl.1.2
      rcases h2 : block_subst fuel c1 t name (.ident z) with ⟨b2, t', c2⟩
      rw [h2] at H2
      obtain ⟨hb2, hc2, hk2⟩ := H2
      simp only at hb2 hc2
      subst hb2
      have H3 := rename_subst_ok_ifs fuel c2 rest name z (by omega) hnl.2
      rcases h3 : stmt_ifs_subst fuel c2 rest name (.ident z) with ⟨b3, rest', c3⟩
      rw [h3] at H3
      obtain ⟨hb3, hc3, hk3⟩ := H3
      simp only at hb3 hc3
      subst hb3
      simp only [stmt_ifs_subst, h1, if_true, h2, h3]
      exact ⟨trivial, hc3.trans (hc2.trans hc1), IfsKeeps.cons_ifs hk1 hk2 hk3⟩
termination_by structural f _ _ _ _ _ _ => f

/-- `rename_subst_ok` for blocks. -/
theorem rename_subst_ok_block : (fuel : Nat) → (ctx : Context) →
    (bl : Block) → (name z : Sym) →
    bl.esize ≤ fuel → bl.names_lt z = true →
    (block_subst fuel ctx bl name (.ident z)).1 = true ∧
    (block_subst fuel ctx bl name (.ident z)).2.2 = ctx ∧
    BlockKeeps bl (block_subst fuel ctx bl name (.ident z)).2.1
  | 0, _, bl, _, _, hfuel, _ =>
      absurd hfuel (by cases bl <;> simp_arith [Block.esize] at hfuel)
  | fuel + 1, ctx, .mk stmts, name, z, hfuel, hnl => by
      simp only [Block.esize] at hfuel
      simp only [Block.names_lt] at hnl
      have H := rename_subst_ok_stmts fuel ctx stmts name z (by omega) hnl
      rcases h : block_stmts_subst fuel ctx stmts name (.ident z) with ⟨b, stmts', c⟩
      rw [h] at H
      obtain ⟨hb, hc, hk⟩ := H
      simp only at hb hc
      subst hb
      simp only [block_subst, h]
      exact ⟨trivial, hc, BlockKeeps.mk hk⟩
termination_by structural f _ _ _ _ _ _ => f

/-- `rename_subst_ok` for statement lists. -/
theorem rename_subst_ok_stmts : (fuel : Nat) → (ctx : Context) →
    (sl : StmtList) → (name z : Sym) →
    sl.esize ≤ fuel → sl.names_lt z = true →
    (block_stmts_subst fuel ctx sl name (.ident z)).1 = true ∧
    (block_stmts_subst fuel ctx sl name (.ident z)).2.2 = ctx ∧
    StmtsKeeps sl (block_stmts_subst fuel ctx sl name (.ident z)).2.1
  | 0, _, sl, _, _, hfuel, _ =>
      absurd hfuel (by cases sl <;> simp_arith [StmtList.esize] at hfuel)
  | fuel + 1, ctx, .nil, name, z, _, _ => ⟨rfl, rfl, StmtsKeeps.refl_sl _⟩
  | fuel + 1, ctx, .cons s rest, name, z, hfuel, hnl => by
      simp only [StmtList.esize] at hfuel
      simp only [StmtList.names_lt, Bool.and_eq_true] at hnl
      have H1 := rename_subst_ok_statement fuel ctx s name z (by omega) hnl.1
      rcases h1 : statement_subst fuel ctx s name (.ident z) with ⟨b1, s', c1⟩
      rw [h1] at H1
      obtain ⟨hb1, hc1, hk1⟩ := H1
      simp only at hb1 hc1
      subst hb1
      have H2 := rename_subst_ok_stmts fuel c1 rest name z (by omega) hnl.2
      rcases h2 : block_stmts_subst fuel c1 rest name (.ident z) with ⟨b2, rest', c2⟩
      rw [h2] at H2
      obtain ⟨hb2, hc2, hk2⟩ := H2
      simp only at hb2 hc2
      subst hb2
      simp only [block_stmts_subst, h1, if_true, h2]
      exact ⟨trivial, hc2.trans hc1, StmtsKeeps.cons_sl hk1 hk2⟩
termination_by structural f _ _ _ _ _ _ => f

end

/-- `ExprKeeps` is transitive. -/
theorem ExprKeeps.trans {a b c : Expr} (h1 : ExprKeeps a b) (h2 : ExprKeeps b c) :
    ExprKeeps a c :=
  ⟨h2.1.trans h1.1, fun h => h2.2.1 (h1.2.1 h), fun m hm => h2.2.2 m (h1.2.2 m hm)⟩

/-- Iterating the substitution of a fresh identifier (the re-entrant rename
loop) succeeds, does not consume gensyms, and keeps size, cleanliness and
name bounds, for any iteration count `k` with `fuel ≥ e.esize + k`. -/
theorem rename_iterate_ok : (k : Nat) → (fuel : Nat) → (ctx : Context) →
    (e : Expr) → (name z : Sym) →
    e.esize + k ≤ fuel → e.names_lt z = true →
    (subst_iterate fuel ctx e name (.ident z) k).1 = true ∧
    (subst_iterate fuel ctx e name (.ident z) k).2.2 = ctx ∧
    ExprKeeps e (subst_iterate fuel ctx e name (.ident z) k).2.1
  | 0, fuel, ctx, e, name, z, _, _ => by
      simp only [subst_iterate]
      exact ⟨trivial, trivial, ExprKeeps.refl_e e⟩
  | k + 1, 0, ctx, e, name, z, hfuel, _ =>
      absurd hfuel (by have := expr_one_le_esize e; omega)
  | k + 1, fuel + 1, ctx, e, name, z, hfuel, hnl => by
      have H1 := rename_subst_ok fuel ctx e name z (by omega) hnl
      rcases h1 : expr_subst fuel ctx e name (.ident z) with ⟨b1, e', c1⟩
      rw [h1] at H1
      obtain ⟨hb1, hc1, hk1⟩ := H1
      simp only at hb1 hc1
      subst hb1
      have hsz : e'.esize = e.esize := hk1.1
      have hnl' : e'.names_lt z = true := hk1.2.2 z hnl
      have H2 := rename_iterate_ok k fuel c1 e' name z (by omega) hnl'
      rcases h2 : subst_iterate fuel c1 e' name (.ident z) k with ⟨b2, e'', c2⟩
      rw [h2] at H2
      obtain ⟨hb2, hc2, hk2⟩ := H2
      simp only at hb2 hc2
      subst hb2
      simp only [subst_iterate, h1, if_true, h2]
      exact ⟨trivial, hc2.trans hc1, ExprKeeps.trans hk1 hk2⟩

/-- `a*K ≤ b*K` from `a ≤ b`. -/
theorem mul_le_mul_right_nat (K : Nat) {a b : Nat} (h : a ≤ b) : a * K ≤ b * K :=
  Nat.mul_le_mul h (Nat.le_refl K)

/-- `1 ≤ a*K` when both factors are positive. -/
theorem one_le_mul_nat {a K : Nat} (ha : 1 ≤ a) (hK : 1 ≤ K) : 1 ≤ a * K := by
  have := Nat.mul_le_mul ha hK
  simpa using this

/-- Success postcondition of a clean substitution at the expression level:
success, the gensym counter only grows, the result is clean, its names are
below the new counter, and its size is bounded by `e.esize * (R + 1)`
(`R` the replacement's size). -/
def CleanOut (ctx : Context) (e : Expr) (R : Nat) (t : Bool × Expr × Context) : Prop :=
  t.1 = true ∧ ctx ≤ t.2.2 ∧ (t.2.1).no_struct_pack = true ∧
  (t.2.1).names_lt t.2.2 = true ∧ (t.2.1).esize ≤ e.esize * (R + 1)

/-- `CleanOut` for the `FuncType` parameter loop (tracks the parameter
list and the threaded return type). -/
def CleanOutFt (ctx : Context) (ps : ParamList) (ret : Expr) (R : Nat)
    (t : Bool × ParamList × Expr × Context) : Prop :=
  t.1 = true ∧ ctx ≤ t.2.2.2 ∧
  (t.2.1).no_struct_pack = true ∧ (t.2.2.1).no_struct_pack = true ∧
  (t.2.1).names_lt t.2.2.2 = true ∧ (t.2.2.1).names_lt t.2.2.2 = true ∧
  (t.2.1).esize ≤ ps.esize * (R + 1) ∧ (t.2.2.1).esize ≤ ret.esize * (R + 1)

/-- `CleanOut` for the `Lambda` parameter loop. -/
def CleanOutLam (ctx : Context) (ps : NParamList) (body : Expr) (R : Nat)
    (t : Bool × NParamList × Expr × Context) : Prop :=
  t.1 = true ∧ ctx ≤ t.2.2.2 ∧
  (t.2.1).no_struct_pack = true ∧ (t.2.2.1).no_struct_pack = true ∧
  (t.2.1).names_lt t.2.2.2 = true ∧ (t.2.2.1).names_lt t.2.2.2 = true ∧
  (t.2.1).esize ≤ ps.esize * (R + 1) ∧ (t.2.2.1).esize ≤ body.esize * (R + 1)

/-- `CleanOut` for the `Union` field loop. -/
def CleanOutNP (ctx : Context) (fs : NParamList) (R : Nat)
    (t : Bool × NParamList × Context) : Prop :=
  t.1 = true ∧ ctx ≤ t.2.2 ∧ (t.2.1).no_struct_pack = true ∧
  (t.2.1).names_lt t.2.2 = true ∧ (t.2.1).esize ≤ fs.esize * (R + 1)

/-- `CleanOut` for the `Call` argument loop. -/
def CleanOutArgs (ctx : Context) (args : ExprList) (R : Nat)
    (t : Bool × ExprList × Context) : Prop :=
  t.1 = true ∧ ctx ≤ t.2.2 ∧ (t.2.1).no_struct_pack = true ∧
  (t.2.1).names_lt t.2.2 = true ∧ (t.2.1).esize ≤ args.esize * (R + 1)

/-- `CleanOut` for statements. -/
def CleanOutSt (ctx : Context) (st : Statement) (R : Nat)
    (t : Bool × Statement × Context) : Prop :=
  t.1 = true ∧ ctx ≤ t.2.2 ∧ (t.2.1).no_struct_pack = true ∧
  (t.2.1).names_lt t.2.2 = true ∧ (t.2.1).esize ≤ st.esize * (R + 1)

/-- `CleanOut` for the statement-level `if` loop. -/
def CleanOutIfs (ctx : Context) (ifs : IfList) (R : Nat)
    (t : Bool × IfList × Context) : Prop :=
  t.1 = true ∧ ctx ≤ t.2.2 ∧ (t.2.1).no_struct_pack = true ∧
  (t.2.1).names_lt t.2.2 = true ∧ (t.2.1).esize ≤ ifs.esize * (R + 1)

/-- `CleanOut` for blocks. -/
def CleanOutBlock (ctx : Context) (bl : Block) (R : Nat)
    (t : Bool × Block × Context) : Prop :=
  t.1 = true ∧ ctx ≤ t.2.2 ∧ (t.2.1).no_struct_pack = true ∧
  (t.2.1).names_lt t.2.2 = true ∧ (t.2.1).esize ≤ bl.esize * (R + 1)

/-- `CleanOut` for statement lists. -/
def CleanOutStmts (ctx : Context) (sl : StmtList) (R : Nat)
    (t : Bool × StmtList × Context) : Prop :=
  t.1 = true ∧ ctx ≤ t.2.2 ∧ (t.2.1).no_struct_pack = true ∧
  (t.2.1).names_lt t.2.2 = true ∧ (t.2.1).esize ≤ sl.esize * (R + 1)


/-- `a ≤ a * K` for positive `K`. -/
theorem le_mul_self_nat (a : Nat) {K : Nat} (hK : 1 ≤ K) : a ≤ a * K := by
  have := Nat.mul_le_mul (Nat.le_refl a) hK
  simpa using this

mutual

/-- Substitution into a clean term (no `Struct`/`Pack` node) with a clean
replacement always succeeds, provided the gensym counter bounds every name
in sight and the fuel covers the recursion depth: the only failure sites
of `expr_subst` are the field-capture checks of `Struct`/`Pack`. -/
theorem clean_subst_ok : (fuel : Nat) → (ctx : Context) → (e : Expr) →
    (name : Sym) → (r : Expr) →
    e.no_struct_pack = true → r.no_struct_pack = true →
    e.names_lt ctx = true → r.names_lt ctx = true →
    e.esize * (r.esize + 2) ≤ fuel →
    CleanOut ctx e r.esize (expr_subst fuel ctx e name r)
  | 0, ctx, e, name, r, _, _, _, _, hfuel =>
      absurd hfuel (by
        have h1 := expr_one_le_esize e
        have h2 : 1 * (r.esize + 2) ≤ e.esize * (r.esize + 2) :=
          mul_le_mul_right_nat _ h1
        omega)
  | fuel + 1, ctx, .literal l, name, r, hce, _, hne, _, _ => by
      simp only [expr_subst]
      exact ⟨rfl, Nat.le_refl ctx, hce, hne,
        le_mul_self_nat _ (by omega)⟩
  | fuel + 1, ctx, .ident s, name, r, _, hcr, _, hnr, _ => by
      simp only [expr_subst, expr_copy_eq r]
      refine ⟨rfl, Nat.le_refl ctx, hcr, hnr, ?_⟩
      simp only [Expr.esize]
      omega
  | fuel + 1, ctx, .binOp op e1 e2, name, r, hce, hcr, hne, hnr, hfuel => by
      simp only [Expr.esize] at hfuel
      simp only [Expr.no_struct_pack, Bool.and_eq_true] at hce
      simp only [Expr.names_lt, Bool.and_eq_true] at hne
      have hexp : (e1.esize + e2.esize + 1) * (r.esize + 2) =
          e1.esize * (r.esize + 2) + e2.esize * (r.esize + 2) + (r.esize + 2) := by
        ring
      have H1 := clean_subst_ok fuel ctx e1 name r hce.1 hcr hne.1 hnr (by omega)
      rcases h1 : expr_subst fuel ctx e1 name r with ⟨b1, e1', c1⟩
      rw [h1] at H1
      have hb1 : b1 = true := H1.1
      subst hb1
      have hc1 : ctx ≤ c1 := H1.2.1
      have hp1 : e1'.no_struct_pack = true := H1.2.2.1
      have hn1 : e1'.names_lt c1 = true := H1.2.2.2.1
      have hs1 : e1'.esize ≤ e1.esize * (r.esize + 1) := H1.2.2.2.2
      have H2 := clean_subst_ok fuel c1 e2 name r hce.2 hcr
        (expr_names_lt_mono e2 hc1 hne.2) (expr_names_lt_mono r hc1 hnr) (by omega)
      rcases h2 : expr_subst fuel c1 e2 name r with ⟨b2, e2', c2⟩
      rw [h2] at H2
      have hb2 : b2 = true := H2.1
      subst hb2
      have hc2 : c1 ≤ c2 := H2.2.1
      have hp2 : e2'.no_struct_pack = true := H2.2.2.1
      have hn2 : e2'.names_lt c2 = true := H2.2.2.2.1
      have hs2 : e2'.esize ≤ e2.esize * (r.esize + 1) := H2.2.2.2.2
      simp only [expr_subst, h1, if_true, h2]
      refine ⟨rfl, Nat.le_trans hc1 hc2, ?_, ?_, ?_⟩
      · simp only [Expr.no_struct_pack, Bool.and_eq_true]
        exact ⟨hp1, hp2⟩
      · simp only [Expr.names_lt, Bool.and_eq_true]
        exact ⟨expr_names_lt_mono e1' hc2 hn1, hn2⟩
      · simp only [Expr.esize]
        have hexp1 : (e1.esize + e2.esize + 1) * (r.esize + 1) =
            e1.esize * (r.esize + 1) + e2.esize * (r.esize + 1) + (r.esize + 1) := by
          ring
        omega
  | fuel + 1, ctx, .ifThenElse p t el, name, r, hce, hcr, hne, hnr, hfuel => by
      simp only [Expr.esize] at hfuel
      simp only [Expr.no_struct_pack, Bool.and_eq_true] at hce
      simp only [Expr.names_lt, Bool.and_eq_true] at hne
      have hexp : (p.esize + t.esize + el.esize + 1) * (r.esize + 2) =
          p.esize * (r.esize + 2) + t.esize * (r.esize + 2) +
            el.esize * (r.esize + 2) + (r.esize + 2) := by
        ring
      have H1 := clean_subst_ok fuel ctx p name r hce.1.1 hcr hne.1.1 hnr (by omega)
      rcases h1 : expr_subst fuel ctx p name r with ⟨b1, p', c1⟩
      rw [h1] at H1
      have hb1 : b1 = true := H1.1
      subst hb1
      have hc1 : ctx ≤ c1 := H1.2.1
      have hp1 : p'.no_struct_pack = true := H1.2.2.1
      have hn1 : p'.names_lt c1 = true := H1.2.2.2.1
      have hs1 : p'.esize ≤ p.esize * (r.esize + 1) := H1.2.2.2.2
      have H2 := clean_subst_ok fuel c1 t name r hce.1.2 hcr
        (expr_names_lt_mono t hc1 hne.1.2) (expr_names_lt_mono r hc1 hnr) (by omega)
      rcases h2 : expr_subst fuel c1 t name r with ⟨b2, t', c2⟩
      rw [h2] at H2
      have hb2 : b2 = true := H2.1
      subst hb2
      have hc2 : c1 ≤ c2 := H2.2.1
      have hp2 : t'.no_struct_pack = true := H2.2.2.1
      have hn2 : t'.names_lt c2 = true := H2.2.2.2.1
      have hs2 : t'.esize ≤ t.esize * (r.esize + 1) := H2.2.2.2.2
      have H3 := clean_subst_ok fuel c2 el name r hce.2 hcr
        (expr_names_lt_mono el (Nat.le_trans hc1 hc2) hne.2)
        (expr_names_lt_mono r (Nat.le_trans hc1 hc2) hnr) (by omega)
      rcases h3 : expr_subst fuel c2 el name r with ⟨b3, el', c3⟩
      rw [h3] at H3
      have hb3 : b3 = true := H3.1
      subst hb3
      have hc3 : c2 ≤ c3 := H3.2.1
      have hp3 : el'.no_struct_pack = true := H3.2.2.1
      have hn3 : el'.names_lt c3 = true := H3.2.2.2.1
      have hs3 : el'.esize ≤ el.esize * (r.esize + 1) := H3.2.2.2.2
      simp only [expr_subst, h1, if_true, h2, h3]
      refine ⟨rfl, Nat.le_trans hc1 (Nat.le_trans hc2 hc3), ?_, ?_, ?_⟩
      · simp only [Expr.no_struct_pack, Bool.and_eq_true]
        exact ⟨⟨hp1, hp2⟩, hp3⟩
      · simp only [Expr.names_lt, Bool.and_eq_true]
        exact ⟨⟨expr_names_lt_mono p' (Nat.le_trans hc2 hc3) hn1,
          expr_names_lt_mono t' hc3 hn2⟩, hn3⟩
      · simp only [Expr.esize]
        have hexp1 : (p.esize + t.esize + el.esize + 1) * (r.esize + 1) =
            p.esize * (r.esize + 1) + t.esize * (r.esize + 1) +
              el.esize * (r.esize + 1) + (r.esize + 1) := by
          ring
        omega
  | fuel + 1, ctx, .funcType ret ps, name, r, hce, hcr, hne, hnr, hfuel => by
      simp only [Expr.esize] at hfuel
      simp only [Expr.no_struct_pack, Bool.and_eq_true] at hce
      simp only [Expr.names_lt, Bool.and_eq_true] at hne
      have hexp : (ret.esize + ps.esize + 1) * (r.esize + 2) =
          (ps.esize + ret.esize) * (r.esize + 2) + (r.esize + 2) := by ring
      have H := clean_subst_ok_ftparams fuel ctx ps ret name r hce.2 hce.1 hcr
        hne.2 hne.1 hnr (by omega)
      rcases h : func_type_subst_params fuel ctx ps ret name r (expr_free_vars r)
        with ⟨b, ps', ret', c⟩
      rw [h] at H
      have hb : b = true := H.1
      subst hb
      have hc : ctx ≤ c := H.2.1
      have hq1 : ps'.no_struct_pack = true := H.2.2.1
      have hq2 : ret'.no_struct_pack = true := H.2.2.2.1
      have hm1 : ps'.names_lt c = true := H.2.2.2.2.1
      have hm2 : ret'.names_lt c = true := H.2.2.2.2.2.1
      have ht1 : ps'.esize ≤ ps.esize * (r.esize + 1) := H.2.2.2.2.2.2.1
      have ht2 : ret'.esize ≤ ret.esize * (r.esize + 1) := H.2.2.2.2.2.2.2
      simp only [expr_subst, h]
      refine ⟨rfl, hc, ?_, ?_, ?_⟩
      · simp only [Expr.no_struct_pack, Bool.and_eq_true]
        exact ⟨hq2, hq1⟩
      · simp only [Expr.names_lt, Bool.and_eq_true]
        exact ⟨hm2, hm1⟩
      · simp only [Expr.esize]
        have hexp1 : (ret.esize + ps.esize + 1) * (r.esize + 1) =
            ret.esize * (r.esize + 1) + ps.esize * (r.esize + 1) + (r.esize + 1) := by
          ring
        omega
  | fuel + 1, ctx, .lambda ps body, name, r, hce, hcr, hne, hnr, hfuel => by
      simp only [Expr.esize] at hfuel
      simp only [Expr.no_struct_pack, Bool.and_eq_true] at hce
      simp only [Expr.names_lt, Bool.and_eq_true] at hne
      have hexp : (ps.esize + body.esize + 1) * (r.esize + 2) =
          (ps.esize + body.esize) * (r.esize + 2) + (r.esize + 2) := by ring
      have H := clean_subst_ok_lamparams fuel ctx ps body name r hce.1 hce.2 hcr
        hne.1 hne.2 hnr (by omega)
      rcases h : lambda_subst_params fuel ctx ps body name r (expr_free_vars r)
        with ⟨b, ps', body', c⟩
      rw [h] at H
      have hb : b = true := H.1
      subst hb
      have hc : ctx ≤ c := H.2.1
      have hq1 : ps'.no_struct_pack = true := H.2.2.1
      have hq2 : body'.no_struct_pack = true := H.2.2.2.1
      have hm1 : ps'.names_lt c = true := H.2.2.2.2.1
      have hm2 : body'.names_lt c = true := H.2.2.2.2.2.1
      have ht1 : ps'.esize ≤ ps.esize * (r.esize + 1) := H.2.2.2.2.2.2.1
      have ht2 : body'.esize ≤ body.esize * (r.esize + 1) := H.2.2.2.2.2.2.2
      simp only [expr_subst, h]
      refine ⟨rfl, hc, ?_, ?_, ?_⟩
      · simp only [Expr.no_struct_pack, Bool.and_eq_true]
        exact ⟨hq1, hq2⟩
      · simp only [Expr.names_lt, Bool.and_eq_true]
        exact ⟨hm1, hm2⟩
      · simp only [Expr.esize]
        have hexp1 : (ps.esize + body.esize + 1) * (r.esize + 1) =
            ps.esize * (r.esize + 1) + body.esize * (r.esize + 1) + (r.esize + 1) := by
          ring
        omega
  | fuel + 1, ctx, .call f args, name, r, hce, hcr, hne, hnr, hfuel => by
      simp only [Expr.esize] at hfuel
      simp only [Expr.no_struct_pack, Bool.and_eq_true] at hce
      simp only [Expr.names_lt, Bool.and_eq_true] at hne
      have hexp : (f.esize + args.esize + 1) * (r.esize + 2) =
          f.esize * (r.esize + 2) + args.esize * (r.esize + 2) + (r.esize + 2) := by
        ring
      have H1 := clean_subst_ok fuel ctx f name r hce.1 hcr hne.1 hnr (by omega)
      rcases h1 : expr_subst fuel ctx f name r with ⟨b1, f', c1⟩
      rw [h1] at H1
      have hb1 : b1 = true := H1.1
      subst hb1
      have hc1 : ctx ≤ c1 := H1.2.1
      have hp1 : f'.no_struct_pack = true := H1.2.2.1
      have hn1 : f'.names_lt c1 = true := H1.2.2.2.1
      have hs1 : f'.esize ≤ f.esize * (r.esize + 1) := H1.2.2.2.2
      have H2 := clean_subst_ok_args fuel c1 args name r hce.2 hcr
        (exprlist_names_lt_mono args hc1 hne.2) (expr_names_lt_mono r hc1 hnr)
        (by omega)
      rcases h2 : call_subst_args fuel c1 args name r with ⟨b2, args', c2⟩
      rw [h2] at H2
      have hb2 : b2 = true := H2.1
      subst hb2
      have hc2 : c1 ≤ c2 := H2.2.1
      have hp2 : args'.no_struct_pack = true := H2.2.2.1
      have hn2 : args'.names_lt c2 = true := H2.2.2.2.1
      have hs2 : args'.esize ≤ args.esize * (r.esize + 1) := H2.2.2.2.2
      simp only [expr_subst, h1, if_true, h2]
      refine ⟨rfl, Nat.le_trans hc1 hc2, ?_, ?_, ?_⟩
      · simp only [Expr.no_struct_pack, Bool.and_eq_true]
        exact ⟨hp1, hp2⟩
      · simp only [Expr.names_lt, Bool.and_eq_true]
        exact ⟨expr_names_lt_mono f' hc2 hn1, hn2⟩
      · simp only [Expr.esize]
        have hexp1 : (f.esize + args.esize + 1) * (r.esize + 1) =
            f.esize * (r.esize + 1) + args.esize * (r.esize + 1) + (r.esize + 1) := by
          ring
        omega
  | fuel + 1, ctx, .struct fs, name, r, hce, _, _, _, _ => by
      simp [Expr.no_struct_pack] at hce
  | fuel + 1, ctx, .union fs, name, r, hce, hcr, hne, hnr, hfuel => by
      simp only [Expr.esize] at hfuel
      simp only [Expr.no_struct_pack] at hce
      simp only [Expr.names_lt] at hne
      have hexp : (fs.esize + 1) * (r.esize + 2) =
          fs.esize * (r.esize + 2) + (r.esize + 2) := by ring
      have H := clean_subst_ok_union fuel ctx fs name r hce hcr hne hnr (by omega)
      rcases h : union_subst_fields fuel ctx fs name r with ⟨b, fs', c⟩
      rw [h] at H
      have hb : b = true := H.1
      subst hb
      have hc : ctx ≤ c := H.2.1
      have hp : fs'.no_struct_pack = true := H.2.2.1
      have hn : fs'.names_lt c = true := H.2.2.2.1
      have hs : fs'.esize ≤ fs.esize * (r.esize + 1) := H.2.2.2.2
      simp only [expr_subst, h]
      refine ⟨rfl, hc, ?_, ?_, ?_⟩
      · simp only [Expr.no_struct_pack]
        exact hp
      · simp only [Expr.names_lt]
        exact hn
      · simp only [Expr.esize]
        have hexp1 : (fs.esize + 1) * (r.esize + 1) =
            fs.esize * (r.esize + 1) + (r.esize + 1) := by ring
        omega
  | fuel + 1, ctx, .pack ty asg, name, r, hce, _, _, _, _ => by
      simp [Expr.no_struct_pack] at hce
  | fuel + 1, ctx, .member rc fld, name, r, hce, hcr, hne, hnr, hfuel => by
      simp only [Expr.esize] at hfuel
      simp only [Expr.no_struct_pack] at hce
      simp only [Expr.names_lt, Bool.and_eq_true, decide_eq_true_eq] at hne
      have hexp : (rc.esize + 1) * (r.esize + 2) =
          rc.esize * (r.esize + 2) + (r.esize + 2) := by ring
      have H := clean_subst_ok fuel ctx rc name r hce hcr hne.1 hnr (by omega)
      rcases h : expr_subst fuel ctx rc name r with ⟨b, rc', c⟩
      rw [h] at H
      have hb : b = true := H.1
      subst hb
      have hc : ctx ≤ c := H.2.1
      have hp : rc'.no_struct_pack = true := H.2.2.1
      have hn : rc'.names_lt c = true := H.2.2.2.1
      have hs : rc'.esize ≤ rc.esize * (r.esize + 1) := H.2.2.2.2
      simp only [expr_subst, h]
      refine ⟨rfl, hc, ?_, ?_, ?_⟩
      · simp only [Expr.no_struct_pack]
        exact hp
      · simp only [Expr.names_lt, Bool.and_eq_true, decide_eq_true_eq]
        exact ⟨hn, Nat.lt_of_lt_of_le hne.2 hc⟩
      · simp only [Expr.esize]
        have hexp1 : (rc.esize + 1) * (r.esize + 1) =
            rc.esize * (r.esize + 1) + (r.esize + 1) := by ring
        omega
  | fuel + 1, ctx, .pointer e1, name, r, hce, hcr, hne, hnr, hfuel => by
      simp only [Expr.esize] at hfuel
      simp only [Expr.no_struct_pack] at hce
      simp only [Expr.names_lt] at hne
      have hexp : (e1.esize + 1) * (r.esize + 2) =
          e1.esize * (r.esize + 2) + (r.esize + 2) := by ring
      have H := clean_subst_ok fuel ctx e1 name r hce hcr hne hnr (by omega)
      rcases h : expr_subst fuel ctx e1 name r with ⟨b, e1', c⟩
      rw [h] at H
      have hb : b = true := H.1
      subst hb
      have hc : ctx ≤ c := H.2.1
      have hp : e1'.no_struct_pack = true := H.2.2.1
      have hn : e1'.names_lt c = true := H.2.2.2.1
      have hs : e1'.esize ≤ e1.esize * (r.esize + 1) := H.2.2.2.2
      simp only [expr_subst, h]
      refine ⟨rfl, hc, ?_, ?_, ?_⟩
      · simp only [Expr.no_struct_pack]
        exact hp
      · simp only [Expr.names_lt]
        exact hn
      · simp only [Expr.esize]
        have hexp1 : (e1.esize + 1) * (r.esize + 1) =
            e1.esize * (r.esize + 1) + (r.esize + 1) := by ring
        omega
  | fuel + 1, ctx, .reference e1, name, r, hce, hcr, hne, hnr, hfuel => by
      simp only [Expr.esize] at hfuel
      simp only [Expr.no_struct_pack] at hce
      simp only [Expr.names_lt] at hne
      have hexp : (e1.esize + 1) * (r.esize + 2) =
          e1.esize * (r.esize + 2) + (r.esize + 2) := by ring
      have H := clean_subst_ok fuel ctx e1 name r hce hcr hne hnr (by omega)
      rcases h : expr_subst fuel ctx e1 name r with ⟨b, e1', c⟩
      rw [h] at H
      have hb : b = true := H.1
      subst hb
      have hc : ctx ≤ c := H.2.1
      have hp : e1'.no_struct_pack = true := H.2.2.1
      have hn : e1'.names_lt c = true := H.2.2.2.1
      have hs : e1'.esize ≤ e1.esize * (r.esize + 1) := H.2.2.2.2
      simp only [expr_subst, h]
      refine ⟨rfl, hc, ?_, ?_, ?_⟩
      · simp only [Expr.no_struct_pack]
        exact hp
      · simp only [Expr.names_lt]
        exact hn
      · simp only [Expr.esize]
        have hexp1 : (e1.esize + 1) * (r.esize + 1) =
            e1.esize * (r.esize + 1) + (r.esize + 1) := by ring
        omega
  | fuel + 1, ctx, .dereference e1, name, r, hce, hcr, hne, hnr, hfuel => by
      simp only [Expr.esize] at hfuel
      simp only [Expr.no_struct_pack] at hce
      simp only [Expr.names_lt] at hne
      have hexp : (e1.esize + 1) * (r.esize + 2) =
          e1.esize * (r.esize + 2) + (r.esize + 2) := by ring
      have H := clean_subst_ok fuel ctx e1 name r hce hcr hne hnr (by omega)
      rcases h : expr_subst fuel ctx e1 name r with ⟨b, e1', c⟩
      rw [h] at H
      have hb : b = true := H.1
      subst hb
      have hc : ctx ≤ c := H.2.1
      have hp : e1'.no_struct_pack = true := H.2.2.1
      have hn : e1'.names_lt c = true := H.2.2.2.1
      have hs : e1'.esize ≤ e1.esize * (r.esize + 1) := H.2.2.2.2
      simp only [expr_subst, h]
      refine ⟨rfl, hc, ?_, ?_, ?_⟩
      · simp only [Expr.no_struct_pack]
        exact hp
      · simp only [Expr.names_lt]
        exact hn
      · simp only [Expr.esize]
        have hexp1 : (e1.esize + 1) * (r.esize + 1) =
            e1.esize * (r.esize + 1) + (r.esize + 1) := by ring
        omega
  | fuel + 1, ctx, .statement st, name, r, hce, hcr, hne, hnr, hfuel => by
      simp only [Expr.esize] at hfuel
      simp only [Expr.no_struct_pack] at hce
      simp only [Expr.names_lt] at hne
      have hexp : (st.esize + 1) * (r.esize + 2) =
          st.esize * (r.esize + 2) + (r.esize + 2) := by ring
      have H := clean_subst_ok_statement fuel ctx st name r hce hcr hne hnr (by omega)
      rcases h : statement_subst fuel ctx st name r with ⟨b, st', c⟩
      rw [h] at H
      have hb : b = true := H.1
      subst hb
      have hc : ctx ≤ c := H.2.1
      have hp : st'.no_struct_pack = true := H.2.2.1
      have hn : st'.names_lt c = true := H.2.2.2.1
      have hs : st'.esize ≤ st.esize * (r.esize + 1) := H.2.2.2.2
      simp only [expr_subst, h]
      refine ⟨rfl, hc, ?_, ?_, ?_⟩
      · simp only [Expr.no_struct_pack]
        exact hp
      · simp only [Expr.names_lt]
        exact hn
      · simp only [Expr.esize]
        have hexp1 : (st.esize + 1) * (r.esize + 1) =
            st.esize * (r.esize + 1) + (r.esize + 1) := by ring
        omega
termination_by structural f _ _ _ _ _ _ _ _ _ => f

/-- `clean_subst_ok` for the `FuncType` parameter loop: a capture is
resolved by gensym plus the (re-entrant) rename substitutions, which
succeed by `rename_subst_ok`. -/
theorem clean_subst_ok_ftparams : (fuel : Nat) → (ctx : Context) →
    (ps : ParamList) → (ret : Expr) → (name : Sym) → (r : Expr) →
    ps.no_struct_pack = true → ret.no_struct_pack = true → r.no_struct_pack = true →
    ps.names_lt ctx = true → ret.names_lt ctx = true → r.names_lt ctx = true →
    (ps.esize + ret.esize) * (r.esize + 2) ≤ fuel →
    CleanOutFt ctx ps ret r.esize
      (func_type_subst_params fuel ctx ps ret name r (expr_free_vars r))
  | 0, ctx, ps, ret, name, r, _, _, _, _, _, _, hfuel =>
      absurd hfuel (by
        have h1 := params_one_le_esize ps
        have h2 := expr_one_le_esize ret
        have h3 : 1 * (r.esize + 2) ≤ (ps.esize + ret.esize) * (r.esize + 2) :=
          mul_le_mul_right_nat _ (by omega)
        omega)
  | fuel + 1, ctx, .nil, ret, name, r, _, hcret, hcr, _, hnret, hnr, hfuel => by
      simp only [ParamList.esize] at hfuel
      have hexp : (1 + ret.esize) * (r.esize + 2) =
          ret.esize * (r.esize + 2) + (r.esize + 2) := by ring
      have H := clean_subst_ok fuel ctx ret name r hcret hcr hnret hnr (by omega)
      rcases h : expr_subst fuel ctx ret name r with ⟨b, ret', c⟩
      rw [h] at H
      have hb : b = true := H.1
      subst hb
      have hc : ctx ≤ c := H.2.1
      have hp : ret'.no_struct_pack = true := H.2.2.1
      have hn : ret'.names_lt c = true := H.2.2.2.1
      have hs : ret'.esize ≤ ret.esize * (r.esize + 1) := H.2.2.2.2
      simp only [func_type_subst_params, h]
      exact ⟨rfl, hc, rfl, hp, rfl, hn, by
        simp only [ParamList.esize]; omega, hs⟩
  | fuel + 1, ctx, .cons ty pname rest, ret, name, r,
      hcp, hcret, hcr, hnp, hnret, hnr, hfuel => by
      simp only [ParamList.esize] at hfuel
      simp only [ParamList.no_struct_pack, Bool.and_eq_true] at hcp
      have hexp : (ty.esize + rest.esize + 1 + ret.esize) * (r.esize + 2) =
          ty.esize * (r.esize + 2) + rest.esize * (r.esize + 2) + (r.esize + 2) +
            ret.esize * (r.esize + 2) := by ring
      have hexp2 : (rest.esize + ret.esize) * (r.esize + 2) =
          rest.esize * (r.esize + 2) + ret.esize * (r.esize + 2) := by ring
      cases pname with
      | none =>
          simp only [ParamList.names_lt, Bool.and_eq_true] at hnp
          have H1 := clean_subst_ok fuel ctx ty name r hcp.1 hcr hnp.1 hnr (by omega)
          rcases h1 : expr_subst fuel ctx ty name r with ⟨b1, ty1, c1⟩
          rw [h1] at H1
          have hb1 : b1 = true := H1.1
          subst hb1
          have hc1 : ctx ≤ c1 := H1.2.1
          have hp1 : ty1.no_struct_pack = true := H1.2.2.1
          have hn1 : ty1.names_lt c1 = true := H1.2.2.2.1
          have hs1 : ty1.esize ≤ ty.esize * (r.esize + 1) := H1.2.2.2.2
          have H2 := clean_subst_ok_ftparams fuel c1 rest ret name r hcp.2 hcret hcr
            (params_names_lt_mono rest hc1 hnp.2)
            (expr_names_lt_mono ret hc1 hnret)
            (expr_names_lt_mono r hc1 hnr) (by omega)
          rcases h2 : func_type_subst_params fuel c1 rest ret name r (expr_free_vars r)
            with ⟨b2, rest', ret', c2⟩
          rw [h2] at H2
          have hb2 : b2 = true := H2.1
          subst hb2
          have hc2 : c1 ≤ c2 := H2.2.1
          have hq1 : rest'.no_struct_pack = true := H2.2.2.1
          have hq2 : ret'.no_struct_pack = true := H2.2.2.2.1
          have hm1 : rest'.names_lt c2 = true := H2.2.2.2.2.1
          have hm2 : ret'.names_lt c2 = true := H2.2.2.2.2.2.1
          have ht1 : rest'.esize ≤ rest.esize * (r.esize + 1) := H2.2.2.2.2.2.2.1
          have ht2 : ret'.esize ≤ ret.esize * (r.esize + 1) := H2.2.2.2.2.2.2.2
          simp only [func_type_subst_params, h1, if_true, h2]
          refine ⟨rfl, Nat.le_trans hc1 hc2, ?_, hq2, ?_, hm2, ?_, ht2⟩
          · simp only [ParamList.no_struct_pack, Bool.and_eq_true]
            exact ⟨hp1, hq1⟩
          · simp only [ParamList.names_lt, Bool.and_eq_true]
            exact ⟨expr_names_lt_mono ty1 hc2 hn1, hm1⟩
          · simp only [ParamList.esize]
            have hexp1 : (ty.esize + rest.esize + 1) * (r.esize + 1) =
                ty.esize * (r.esize + 1) + rest.esize * (r.esize + 1) +
                  (r.esize + 1) := by ring
            omega
      | some p =>
          simp only [ParamList.names_lt, Bool.and_eq_true, decide_eq_true_eq] at hnp
          have H1 := clean_subst_ok fuel ctx ty name r hcp.1 hcr hnp.1.1 hnr (by omega)
          rcases h1 : expr_subst fuel ctx ty name r with ⟨b1, ty1, c1⟩
          rw [h1] at H1
          have hb1 : b1 = true := H1.1
          subst hb1
          have hc1 : ctx ≤ c1 := H1.2.1
          have hp1 : ty1.no_struct_pack = true := H1.2.2.1
          have hn1 : ty1.names_lt c1 = true := H1.2.2.2.1
          have hs1 : ty1.esize ≤ ty.esize * (r.esize + 1) := H1.2.2.2.2
          by_cases hpn : p = name
          · simp only [func_type_subst_params, h1, if_true, if_pos hpn]
            refine ⟨rfl, hc1, ?_, hcret, ?_, expr_names_lt_mono ret hc1 hnret, ?_, ?_⟩
            · simp only [ParamList.no_struct_pack, Bool.and_eq_true]
              exact ⟨hp1, hcp.2⟩
            · simp only [ParamList.names_lt, Bool.and_eq_true, decide_eq_true_eq]
              exact ⟨⟨hn1, Nat.lt_of_lt_of_le hnp.1.2 hc1⟩,
                params_names_lt_mono rest hc1 hnp.2⟩
            · simp only [ParamList.esize]
              have hr1 : rest.esize ≤ rest.esize * (r.esize + 1) :=
                le_mul_self_nat _ (by omega)
              have hexp1 : (ty.esize + rest.esize + 1) * (r.esize + 1) =
                  ty.esize * (r.esize + 1) + rest.esize * (r.esize + 1) +
                    (r.esize + 1) := by ring
              omega
            · exact le_mul_self_nat _ (by omega)
          · by_cases hmem : p ∈ expr_free_vars r
            · have hty2 : ty.esize * (r.esize + 2) =
                  ty.esize * (r.esize + 1) + ty.esize := by ring
              have hrl := params_length_le_esize rest
              have hrge : rest.esize ≤ rest.esize * (r.esize + 2) :=
                le_mul_self_nat _ (by omega)
              have hretge : ret.esize ≤ ret.esize * (r.esize + 2) :=
                le_mul_self_nat _ (by omega)
              have HI := rename_iterate_ok rest.length fuel (c1 + 1) ty1 p c1
                (by omega) hn1
              rcases hI : subst_iterate fuel (c1 + 1) ty1 p (.ident c1) rest.length
                with ⟨b2, ty2, c3⟩
              rw [hI] at HI
              have hb2 : b2 = true := HI.1
              subst hb2
              have hc3 : c3 = c1 + 1 := HI.2.1
              subst hc3
              have hkty : ExprKeeps ty1 ty2 := HI.2.2
              have HR := rename_subst_ok fuel (c1 + 1) ret p c1
                (by omega) (expr_names_lt_mono ret hc1 hnret)
              rcases hR : expr_subst fuel (c1 + 1) ret p (.ident c1)
                with ⟨b3, ret1, c4⟩
              rw [hR] at HR
              have hb3 : b3 = true := HR.1
              subst hb3
              have hc4 : c4 = c1 + 1 := HR.2.1
              subst hc4
              have hkret : ExprKeeps ret ret1 := HR.2.2
              have hrs : ret1.esize = ret.esize := hkret.1
              have hretm : ret1.esize * (r.esize + 2) = ret.esize * (r.esize + 2) := by
                rw [hrs]
              have hc1' : ctx ≤ c1 + 1 := Nat.le_trans hc1 (Nat.le_succ c1)
              have H2 := clean_subst_ok_ftparams fuel (c1 + 1) rest ret1 name r
                hcp.2 (hkret.2.1 hcret) hcr
                (params_names_lt_mono rest hc1' hnp.2)
                (hkret.2.2 (c1 + 1) (expr_names_lt_mono ret hc1' hnret))
                (expr_names_lt_mono r hc1' hnr)
                (by
                  have hx : (rest.esize + ret1.esize) * (r.esize + 2) =
                      rest.esize * (r.esize + 2) + ret1.esize * (r.esize + 2) := by
                    ring
                  omega)
              rcases h2 : func_type_subst_params fuel (c1 + 1) rest ret1 name r
                (expr_free_vars r) with ⟨b4, rest', ret', c5⟩
              rw [h2] at H2
              have hb4 : b4 = true := H2.1
              subst hb4
              have hc5 : c1 + 1 ≤ c5 := H2.2.1
              have hq1 : rest'.no_struct_pack = true := H2.2.2.1
              have hq2 : ret'.no_struct_pack = true := H2.2.2.2.1
              have hm1 : rest'.names_lt c5 = true := H2.2.2.2.2.1
              have hm2 : ret'.names_lt c5 = true := H2.2.2.2.2.2.1
              have ht1 : rest'.esize ≤ rest.esize * (r.esize + 1) := H2.2.2.2.2.2.2.1
              have ht2' : ret'.esize ≤ ret1.esize * (r.esize + 1) := H2.2.2.2.2.2.2.2
              have ht2 : ret'.esize ≤ ret.esize * (r.esize + 1) := by
                rw [hrs] at ht2'
                exact ht2'
              simp only [func_type_subst_params, h1, if_true, if_neg hpn,
                if_pos hmem, symbol_gensym, hI, hR, h2]
              have hc1c5 : c1 ≤ c5 := Nat.le_trans (Nat.le_succ c1) hc5
              refine ⟨rfl, Nat.le_trans hc1 hc1c5, ?_, hq2, ?_, hm2, ?_, ht2⟩
              · simp only [ParamList.no_struct_pack, Bool.and_eq_true]
                exact ⟨hkty.2.1 hp1, hq1⟩
              · simp only [ParamList.names_lt, Bool.and_eq_true, decide_eq_true_eq]
                refine ⟨⟨hkty.2.2 c5 (expr_names_lt_mono ty1 hc1c5 hn1), ?_⟩, hm1⟩
                exact Nat.lt_of_lt_of_le (Nat.lt_succ_self c1) hc5
              · simp only [ParamList.esize]
                have hts : ty2.esize = ty1.esize := hkty.1
                have hexp1 : (ty.esize + rest.esize + 1) * (r.esize + 1) =
                    ty.esize * (r.esize + 1) + rest.esize * (r.esize + 1) +
                      (r.esize + 1) := by ring
                omega
            · have H2 := clean_subst_ok_ftparams fuel c1 rest ret name r
                hcp.2 hcret hcr
                (params_names_lt_mono rest hc1 hnp.2)
                (expr_names_lt_mono ret hc1 hnret)
                (expr_names_lt_mono r hc1 hnr) (by omega)
              rcases h2 : func_type_subst_params fuel c1 rest ret name r
                (expr_free_vars r) with ⟨b2, rest', ret', c2⟩
              rw [h2] at H2
              have hb2 : b2 = true := H2.1
              subst hb2
              have hc2 : c1 ≤ c2 := H2.2.1
              have hq1 : rest'.no_struct_pack = true := H2.2.2.1
              have hq2 : ret'.no_struct_pack = true := H2.2.2.2.1
              have hm1 : rest'.names_lt c2 = true := H2.2.2.2.2.1
              have hm2 : ret'.names_lt c2 = true := H2.2.2.2.2.2.1
              have ht1 : rest'.esize ≤ rest.esize * (r.esize + 1) := H2.2.2.2.2.2.2.1
              have ht2 : ret'.esize ≤ ret.esize * (r.esize + 1) := H2.2.2.2.2.2.2.2
              simp only [func_type_subst_params, h1, if_true, if_neg hpn,
                if_neg hmem, h2]
              refine ⟨rfl, Nat.le_trans hc1 hc2, ?_, hq2, ?_, hm2, ?_, ht2⟩
              · simp only [ParamList.no_struct_pack, Bool.and_eq_true]
                exact ⟨hp1, hq1⟩
              · simp only [ParamList.names_lt, Bool.and_eq_true, decide_eq_true_eq]
                exact ⟨⟨expr_names_lt_mono ty1 hc2 hn1,
                  Nat.lt_of_lt_of_le hnp.1.2 (Nat.le_trans hc1 hc2)⟩, hm1⟩
              · simp only [ParamList.esize]
                have hexp1 : (ty.esize + rest.esize + 1) * (r.esize + 1) =
                    ty.esize * (r.esize + 1) + rest.esize * (r.esize + 1) +
                      (r.esize + 1) := by ring
                omega
termination_by structural f _ _ _ _ _ _ _ _ _ _ _ _ => f

/-- `clean_subst_ok` for the `Lambda` parameter loop. -/
theorem clean_subst_ok_lamparams : (fuel : Nat) → (ctx : Context) →
    (ps : NParamList) → (body : Expr) → (name : Sym) → (r : Expr) →
    ps.no_struct_pack = true → body.no_struct_pack = true → r.no_struct_pack = true →
    ps.names_lt ctx = true → body.names_lt ctx = true → r.names_lt ctx = true →
    (ps.esize + body.esize) * (r.esize + 2) ≤ fuel →
    CleanOutLam ctx ps body r.esize
      (lambda_subst_params fuel ctx ps body name r (expr_free_vars r))
  | 0, ctx, ps, body, name, r, _, _, _, _, _, _, hfuel =>
      absurd hfuel (by
        have h1 := nparams_one_le_esize ps
        have h2 := expr_one_le_esize body
        have h3 : 1 * (r.esize + 2) ≤ (ps.esize + body.esize) * (r.esize + 2) :=
          mul_le_mul_right_nat _ (by omega)
        omega)
  | fuel + 1, ctx, .nil, body, name, r, _, hcb, hcr, _, hnb, hnr, hfuel => by
      simp only [NParamList.esize] at hfuel
      have hexp : (1 + body.esize) * (r.esize + 2) =
          body.esize * (r.esize + 2) + (r.esize + 2) := by ring
      have H := clean_subst_ok fuel ctx body name r hcb hcr hnb hnr (by omega)
      rcases h : expr_subst fuel ctx body name r with ⟨b, body', c⟩
      rw [h] at H
      have hb : b = true := H.1
      subst hb
      have hc : ctx ≤ c := H.2.1
      have hp : body'.no_struct_pack = true := H.2.2.1
      have hn : body'.names_lt c = true := H.2.2.2.1
      have hs : body'.esize ≤ body.esize * (r.esize + 1) := H.2.2.2.2
      simp only [lambda_subst_params, h]
      exact ⟨rfl, hc, rfl, hp, rfl, hn, by
        simp only [NParamList.esize]; omega, hs⟩
  | fuel + 1, ctx, .cons ty p rest, body, name, r,
      hcp, hcb, hcr, hnp, hnb, hnr, hfuel => by
      simp only [NParamList.esize] at hfuel
      simp only [NParamList.no_struct_pack, Bool.and_eq_true] at hcp
      simp only [NParamList.names_lt, Bool.and_eq_true, decide_eq_true_eq] at hnp
      have hexp : (ty.esize + rest.esize + 1 + body.esize) * (r.esize + 2) =
          ty.esize * (r.esize + 2) + rest.esize * (r.esize + 2) + (r.esize + 2) +
            body.esize * (r.esize + 2) := by ring
      have hexp2 : (rest.esize + body.esize) * (r.esize + 2) =
          rest.esize * (r.esize + 2) + body.esize * (r.esize + 2) := by ring
      have H1 := clean_subst_ok fuel ctx ty name r hcp.1 hcr hnp.1.1 hnr (by omega)
      rcases h1 : expr_subst fuel ctx ty name r with ⟨b1, ty1, c1⟩
      rw [h1] at H1
      have hb1 : b1 = true := H1.1
      subst hb1
      have hc1 : ctx ≤ c1 := H1.2.1
      have hp1 : ty1.no_struct_pack = true := H1.2.2.1
      have hn1 : ty1.names_lt c1 = true := H1.2.2.2.1
      have hs1 : ty1.esize ≤ ty.esize * (r.esize + 1) := H1.2.2.2.2
      by_cases hpn : p = name
      · simp only [lambda_subst_params, h1, if_true, if_pos hpn]
        refine ⟨rfl, hc1, ?_, hcb, ?_, expr_names_lt_mono body hc1 hnb, ?_, ?_⟩
        · simp only [NParamList.no_struct_pack, Bool.and_eq_true]
          exact ⟨hp1, hcp.2⟩
        · simp only [NParamList.names_lt, Bool.and_eq_true, decide_eq_true_eq]
          exact ⟨⟨hn1, Nat.lt_of_lt_of_le hnp.1.2 hc1⟩,
            nparams_names_lt_mono rest hc1 hnp.2⟩
        · simp only [NParamList.esize]
          have hr1 : rest.esize ≤ rest.esize * (r.esize + 1) :=
            le_mul_self_nat _ (by omega)
          have hexp1 : (ty.esize + rest.esize + 1) * (r.esize + 1) =
              ty.esize * (r.esize + 1) + rest.esize * (r.esize + 1) +
                (r.esize + 1) := by ring
          omega
        · exact le_mul_self_nat _ (by omega)
      · by_cases hmem : p ∈ expr_free_vars r
        · have hty2 : ty.esize * (r.esize + 2) =
              ty.esize * (r.esize + 1) + ty.esize := by ring
          have hrl := nparams_length_le_esize rest
          have hrge : rest.esize ≤ rest.esize * (r.esize + 2) :=
            le_mul_self_nat _ (by omega)
          have hbge : body.esize ≤ body.esize * (r.esize + 2) :=
            le_mul_self_nat _ (by omega)
          have HI := rename_iterate_ok rest.length fuel (c1 + 1) ty1 p c1
            (by omega) hn1
          rcases hI : subst_iterate fuel (c1 + 1) ty1 p (.ident c1) rest.length
            with ⟨b2, ty2, c3⟩
          rw [hI] at HI
          have hb2 : b2 = true := HI.1
          subst hb2
          have hc3 : c3 = c1 + 1 := HI.2.1
          subst hc3
          have hkty : ExprKeeps ty1 ty2 := HI.2.2
          have HR := rename_subst_ok fuel (c1 + 1) body p c1
            (by omega) (expr_names_lt_mono body hc1 hnb)
          rcases hR : expr_subst fuel (c1 + 1) body p (.ident c1)
            with ⟨b3, body1, c4⟩
          rw [hR] at HR
          have hb3 : b3 = true := HR.1
          subst hb3
          have hc4 : c4 = c1 + 1 := HR.2.1
          subst hc4
          have hkb : ExprKeeps body body1 := HR.2.2
          have hbs : body1.esize = body.esize := hkb.1
          have hbm : body1.esize * (r.esize + 2) = body.esize * (r.esize + 2) := by
            rw [hbs]
          have hc1' : ctx ≤ c1 + 1 := Nat.le_trans hc1 (Nat.le_succ c1)
          have H2 := clean_subst_ok_lamparams fuel (c1 + 1) rest body1 name r
            hcp.2 (hkb.2.1 hcb) hcr
            (nparams_names_lt_mono rest hc1' hnp.2)
            (hkb.2.2 (c1 + 1) (expr_names_lt_mono body hc1' hnb))
            (expr_names_lt_mono r hc1' hnr)
            (by
              have hx : (rest.esize + body1.esize) * (r.esize + 2) =
                  rest.esize * (r.esize + 2) + body1.esize * (r.esize + 2) := by
                ring
              omega)
          rcases h2 : lambda_subst_params fuel (c1 + 1) rest body1 name r
            (expr_free_vars r) with ⟨b4, rest', body', c5⟩
          rw [h2] at H2
          have hb4 : b4 = true := H2.1
          subst hb4
          have hc5 : c1 + 1 ≤ c5 := H2.2.1
          have hq1 : rest'.no_struct_pack = true := H2.2.2.1
          have hq2 : body'.no_struct_pack = true := H2.2.2.2.1
          have hm1 : rest'.names_lt c5 = true := H2.2.2.2.2.1
          have hm2 : body'.names_lt c5 = true := H2.2.2.2.2.2.1
          have ht1 : rest'.esize ≤ rest.esize * (r.esize + 1) := H2.2.2.2.2.2.2.1
          have ht2' : body'.esize ≤ body1.esize * (r.esize + 1) := H2.2.2.2.2.2.2.2
          have ht2 : body'.esize ≤ body.esize * (r.esize + 1) := by
            rw [hbs] at ht2'
            exact ht2'
          simp only [lambda_subst_params, h1, if_true, if_neg hpn,
            if_pos hmem, symbol_gensym, hI, hR, h2]
          have hc1c5 : c1 ≤ c5 := Nat.le_trans (Nat.le_succ c1) hc5
          refine ⟨rfl, Nat.le_trans hc1 hc1c5, ?_, hq2, ?_, hm2, ?_, ht2⟩
          · simp only [NParamList.no_struct_pack, Bool.and_eq_true]
            exact ⟨hkty.2.1 hp1, hq1⟩
          · simp only [NParamList.names_lt, Bool.and_eq_true, decide_eq_true_eq]
            refine ⟨⟨hkty.2.2 c5 (expr_names_lt_mono ty1 hc1c5 hn1), ?_⟩, hm1⟩
            exact Nat.lt_of_lt_of_le (Nat.lt_succ_self c1) hc5
          · simp only [NParamList.esize]
            have hts : ty2.esize = ty1.esize := hkty.1
            have hexp1 : (ty.esize + rest.esize + 1) * (r.esize + 1) =
                ty.esize * (r.esize + 1) + rest.esize * (r.esize + 1) +
                  (r.esize + 1) := by ring
            omega
        · have H2 := clean_subst_ok_lamparams fuel c1 rest body name r
            hcp.2 hcb hcr
            (nparams_names_lt_mono rest hc1 hnp.2)
            (expr_names_lt_mono body hc1 hnb)
            (expr_names_lt_mono r hc1 hnr) (by omega)
          rcases h2 : lambda_subst_params fuel c1 rest body name r
            (expr_free_vars r) with ⟨b2, rest', body', c2⟩
          rw [h2] at H2
          have hb2 : b2 = true := H2.1
          subst hb2
          have hc2 : c1 ≤ c2 := H2.2.1
          have hq1 : rest'.no_struct_pack = true := H2.2.2.1
          have hq2 : body'.no_struct_pack = true := H2.2.2.2.1
          have hm1 : rest'.names_lt c2 = true := H2.2.2.2.2.1
          have hm2 : body'.names_lt c2 = true := H2.2.2.2.2.2.1
          have ht1 : rest'.esize ≤ rest.esize * (r.esize + 1) := H2.2.2.2.2.2.2.1
          have ht2 : body'.esize ≤ body.esize * (r.esize + 1) := H2.2.2.2.2.2.2.2
          simp only [lambda_subst_params, h1, if_true, if_neg hpn, if_neg hmem, h2]
          refine ⟨rfl, Nat.le_trans hc1 hc2, ?_, hq2, ?_, hm2, ?_, ht2⟩
          · simp only [NParamList.no_struct_pack, Bool.and_eq_true]
            exact ⟨hp1, hq1⟩
          · simp only [NParamList.names_lt, Bool.and_eq_true, decide_eq_true_eq]
            exact ⟨⟨expr_names_lt_mono ty1 hc2 hn1,
              Nat.lt_of_lt_of_le hnp.1.2 (Nat.le_trans hc1 hc2)⟩, hm1⟩
          · simp only [NParamList.esize]
            have hexp1 : (ty.esize + rest.esize + 1) * (r.esize + 1) =
                ty.esize * (r.esize + 1) + rest.esize * (r.esize + 1) +
                  (r.esize + 1) := by ring
            omega
termination_by structural f _ _ _ _ _ _ _ _ _ _ _ _ => f

/-- `clean_subst_ok` for the `Union` field loop. -/
theorem clean_subst_ok_union : (fuel : Nat) → (ctx : Context) →
    (fs : NParamList) → (name : Sym) → (r : Expr) →
    fs.no_struct_pack = true → r.no_struct_pack = true →
    fs.names_lt ctx = true → r.names_lt ctx = true →
    fs.esize * (r.esize + 2) ≤ fuel →
    CleanOutNP ctx fs r.esize (union_subst_fields fuel ctx fs name r)
  | 0, ctx, fs, name, r, _, _, _, _, hfuel =>
      absurd hfuel (by
        have h1 := nparams_one_le_esize fs
        have h2 : 1 * (r.esize + 2) ≤ fs.esize * (r.esize + 2) :=
          mul_le_mul_right_nat _ h1
        omega)
  | fuel + 1, ctx, .nil, name, r, _, _, _, _, _ => by
      simp only [union_subst_fields]
      exact ⟨rfl, Nat.le_refl ctx, rfl, rfl, by simp [NParamList.esize]⟩
  | fuel + 1, ctx, .cons ty fn rest, name, r, hcf, hcr, hnf, hnr, hfuel => by
      simp only [NParamList.esize] at hfuel
      simp only [NParamList.no_struct_pack, Bool.and_eq_true] at hcf
      simp only [NParamList.names_lt, Bool.and_eq_true, decide_eq_true_eq] at hnf
      have hexp : (ty.esize + rest.esize + 1) * (r.esize + 2) =
          ty.esize * (r.esize + 2) + rest.esize * (r.esize + 2) + (r.esize + 2) := by
        ring
      have H1 := clean_subst_ok fuel ctx ty name r hcf.1 hcr hnf.1.1 hnr (by omega)
      rcases h1 : expr_subst fuel ctx ty name r with ⟨b1, ty1, c1⟩
      rw [h1] at H1
      have hb1 : b1 = true := H1.1
      subst hb1
      have hc1 : ctx ≤ c1 := H1.2.1
      have hp1 : ty1.no_struct_pack = true := H1.2.2.1
      have hn1 : ty1.names_lt c1 = true := H1.2.2.2.1
      have hs1 : ty1.esize ≤ ty.esize * (r.esize + 1) := H1.2.2.2.2
      have H2 := clean_subst_ok_union fuel c1 rest name r hcf.2 hcr
        (nparams_names_lt_mono rest hc1 hnf.2)
        (expr_names_lt_mono r hc1 hnr) (by omega)
      rcases h2 : union_subst_fields fuel c1 rest name r with ⟨b2, rest', c2⟩
      rw [h2] at H2
      have hb2 : b2 = true := H2.1
      subst hb2
      have hc2 : c1 ≤ c2 := H2.2.1
      have hp2 : rest'.no_struct_pack = true := H2.2.2.1
      have hn2 : rest'.names_lt c2 = true := H2.2.2.2.1
      have hs2 : rest'.esize ≤ rest.esize * (r.esize + 1) := H2.2.2.2.2
      simp only [union_subst_fields, h1, if_true, h2]
      refine ⟨rfl, Nat.le_trans hc1 hc2, ?_, ?_, ?_⟩
      · simp only [NParamList.no_struct_pack, Bool.and_eq_true]
        exact ⟨hp1, hp2⟩
      · simp only [NParamList.names_lt, Bool.and_eq_true, decide_eq_true_eq]
        exact ⟨⟨expr_names_lt_mono ty1 hc2 hn1,
          Nat.lt_of_lt_of_le hnf.1.2 (Nat.le_trans hc1 hc2)⟩, hn2⟩
      · simp only [NParamList.esize]
        have hexp1 : (ty.esize + rest.esize + 1) * (r.esize + 1) =
            ty.esize * (r.esize + 1) + rest.esize * (r.esize + 1) + (r.esize + 1) := by
          ring
        omega
termination_by structural f _ _ _ _ _ _ _ _ _ => f

/-- `clean_subst_ok` for the `Call` argument loop. -/
theorem clean_subst_ok_args : (fuel : Nat) → (ctx : Context) →
    (args : ExprList) → (name : Sym) → (r : Expr) →
    args.no_struct_pack = true → r.no_struct_pack = true →
    args.names_lt ctx = true → r.names_lt ctx = true →
    args.esize * (r.esize + 2) ≤ fuel →
    CleanOutArgs ctx args r.esize (call_subst_args fuel ctx args name r)
  | 0, ctx, args, name, r, _, _, _, _, hfuel =>
      absurd hfuel (by
        have h1 : 1 ≤ args.esize := by
          cases args <;> simp_arith [ExprList.esize]
        have h2 : 1 * (r.esize + 2) ≤ args.esize * (r.esize + 2) :=
          mul_le_mul_right_nat _ h1
        omega)
  | fuel + 1, ctx, .nil, name, r, _, _, _, _, _ => by
      simp only [call_subst_args]
      exact ⟨rfl, Nat.le_refl ctx, rfl, rfl, by simp [ExprList.esize]⟩
  | fuel + 1, ctx, .cons e rest, name, r, hcf, hcr, hnf, hnr, hfuel => by
      simp only [ExprList.esize] at hfuel
      simp only [ExprList.no_struct_pack, Bool.and_eq_true] at hcf
      simp only [ExprList.names_lt, Bool.and_eq_true] at hnf
      have hexp : (e.esize + rest.esize + 1) * (r.esize + 2) =
          e.esize * (r.esize + 2) + rest.esize * (r.esize + 2) + (r.esize + 2) := by
        ring
      have H1 := clean_subst_ok fuel ctx e name r hcf.1 hcr hnf.1 hnr (by omega)
      rcases h1 : expr_subst fuel ctx e name r with ⟨b1, e1, c1⟩
      rw [h1] at H1
      have hb1 : b1 = true := H1.1
      subst hb1
      have hc1 : ctx ≤ c1 := H1.2.1
      have hp1 : e1.no_struct_pack = true := H1.2.2.1
      have hn1 : e1.names_lt c1 = true := H1.2.2.2.1
      have hs1 : e1.esize ≤ e.esize * (r.esize + 1) := H1.2.2.2.2
      have H2 := clean_subst_ok_args fuel c1 rest name r hcf.2 hcr
        (exprlist_names_lt_mono rest hc1 hnf.2)
        (expr_names_lt_mono r hc1 hnr) (by omega)
      rcases h2 : call_subst_args fuel c1 rest name r with ⟨b2, rest', c2⟩
      rw [h2] at H2
      have hb2 : b2 = true := H2.1
      subst hb2
      have hc2 : c1 ≤ c2 := H2.2.1
      have hp2 : rest'.no_struct_pack = true := H2.2.2.1
      have hn2 : rest'.names_lt c2 = true := H2.2.2.2.1
      have hs2 : rest'.esize ≤ rest.esize * (r.esize + 1) := H2.2.2.2.2
      simp only [call_subst_args, h1, if_true, h2]
      refine ⟨rfl, Nat.le_trans hc1 hc2, ?_, ?_, ?_⟩
      · simp only [ExprList.no_struct_pack, Bool.and_eq_true]
        exact ⟨hp1, hp2⟩
      · simp only [ExprList.names_lt, Bool.and_eq_true]
        exact ⟨expr_names_lt_mono e1 hc2 hn1, hn2⟩
      · simp only [ExprList.esize]
        have hexp1 : (e.esize + rest.esize + 1) * (r.esize + 1) =
            e.esize * (r.esize + 1) + rest.esize * (r.esize + 1) + (r.esize + 1) := by
          ring
        omega
termination_by structural f _ _ _ _ _ _ _ _ _ => f

/-- `clean_subst_ok` for statements. -/
theorem clean_subst_ok_statement : (fuel : Nat) → (ctx : Context) →
    (st : Statement) → (name : Sym) → (r : Expr) →
    st.no_struct_pack = true → r.no_struct_pack = true →
    st.names_lt ctx = true → r.names_lt ctx = true →
    st.esize * (r.esize + 2) ≤ fuel →
    CleanOutSt ctx st r.esize (statement_subst fuel ctx st name r)
  | 0, ctx, st, name, r, _, _, _, _, hfuel =>
      absurd hfuel (by
        have h1 := statement_one_le_esize st
        have h2 : 1 * (r.esize + 2) ≤ st.esize * (r.esize + 2) :=
          mul_le_mul_right_nat _ h1
        omega)
  | fuel + 1, ctx, .empty, name, r, _, _, _, _, _ => by
      simp only [statement_subst]
      exact ⟨rfl, Nat.le_refl ctx, rfl, rfl,
        le_mul_self_nat _ (by omega)⟩
  | fuel + 1, ctx, .expr e, name, r, hce, hcr, hne, hnr, hfuel => by
      simp only [Statement.esize] at hfuel
      simp only [Statement.no_struct_pack] at hce
      simp only [Statement.names_lt] at hne
      have hexp : (e.esize + 1) * (r.esize + 2) =
          e.esize * (r.esize + 2) + (r.esize + 2) := by ring
      have H := clean_subst_ok fuel ctx e name r hce hcr hne hnr (by omega)
      rcases h : expr_subst fuel ctx e name r with ⟨b, e', c⟩
      rw [h] at H
      have hb : b = true := H.1
      subst hb
      have hc : ctx ≤ c := H.2.1
      have hp : e'.no_struct_pack = true := H.2.2.1
      have hn : e'.names_lt c = true := H.2.2.2.1
      have hs : e'.esize ≤ e.esize * (r.esize + 1) := H.2.2.2.2
      simp only [statement_subst, h]
      refine ⟨rfl, hc, ?_, ?_, ?_⟩
      · simp only [Statement.no_struct_pack]
        exact hp
      · simp only [Statement.names_lt]
        exact hn
      · simp only [Statement.esize]
        have hexp1 : (e.esize + 1) * (r.esize + 1) =
            e.esize * (r.esize + 1) + (r.esize + 1) := by ring
        omega
  | fuel + 1, ctx, .ret e, name, r, hce, hcr, hne, hnr, hfuel => by
      simp only [Statement.esize] at hfuel
      simp only [Statement.no_struct_pack] at hce
      simp only [Statement.names_lt] at hne
      have hexp : (e.esize + 1) * (r.esize + 2) =
          e.esize * (r.esize + 2) + (r.esize + 2) := by ring
      have H := clean_subst_ok fuel ctx e name r hce hcr hne hnr (by omega)
      rcases h : expr_subst fuel ctx e name r with ⟨b, e', c⟩
      rw [h] at H
      have hb : b = true := H.1
      subst hb
      have hc : ctx ≤ c := H.2.1
      have hp : e'.no_struct_pack = true := H.2.2.1
      have hn : e'.names_lt c = true := H.2.2.2.1
      have hs : e'.esize ≤ e.esize * (r.esize + 1) := H.2.2.2.2
      simp only [statement_subst, h]
      refine ⟨rfl, hc, ?_, ?_, ?_⟩
      · simp only [Statement.no_struct_pack]
        exact hp
      · simp only [Statement.names_lt]
        exact hn
      · simp only [Statement.esize]
        have hexp1 : (e.esize + 1) * (r.esize + 1) =
            e.esize * (r.esize + 1) + (r.esize + 1) := by ring
        omega
  | fuel + 1, ctx, .block bl, name, r, hce, hcr, hne, hnr, hfuel => by
      simp only [Statement.esize] at hfuel
      simp only [Statement.no_struct_pack] at hce
      simp only [Statement.names_lt] at hne
      have hexp : (bl.esize + 1) * (r.esize + 2) =
          bl.esize * (r.esize + 2) + (r.esize + 2) := by ring
      have H := clean_subst_ok_block fuel ctx bl name r hce hcr hne hnr (by omega)
      rcases h : block_subst fuel ctx bl name r with ⟨b, bl', c⟩
      rw [h] at H
      have hb : b = true := H.1
      subst hb
      have hc : ctx ≤ c := H.2.1
      have hp : bl'.no_struct_pack = true := H.2.2.1
      have hn : bl'.names_lt c = true := H.2.2.2.1
      have hs : bl'.esize ≤ bl.esize * (r.esize + 1) := H.2.2.2.2
      simp only [statement_subst, h]
      refine ⟨rfl, hc, ?_, ?_, ?_⟩
      · simp only [Statement.no_struct_pack]
        exact hp
      · simp only [Statement.names_lt]
        exact hn
      · simp only [Statement.esize]
        have hexp1 : (bl.esize + 1) * (r.esize + 1) =
            bl.esize * (r.esize + 1) + (r.esize + 1) := by ring
        omega
  | fuel + 1, ctx, .decl ty n none, name, r, hce, hcr, hne, hnr, hfuel => by
      simp only [Statement.esize] at hfuel
      simp only [Statement.no_struct_pack] at hce
      simp only [Statement.names_lt, Bool.and_eq_true, decide_eq_true_eq] at hne
      have hexp : (ty.esize + 1) * (r.esize + 2) =
          ty.esize * (r.esize + 2) + (r.esize + 2) := by ring
      have H := clean_subst_ok fuel ctx ty name r hce hcr hne.1 hnr (by omega)
      rcases h : expr_subst fuel ctx ty name r with ⟨b, ty', c⟩
      rw [h] at H
      have hb : b = true := H.1
      subst hb
      have hc : ctx ≤ c := H.2.1
      have hp : ty'.no_struct_pack = true := H.2.2.1
      have hn : ty'.names_lt c = true := H.2.2.2.1
      have hs : ty'.esize ≤ ty.esize * (r.esize + 1) := H.2.2.2.2
      simp only [statement_subst, h, if_true]
      refine ⟨rfl, hc, ?_, ?_, ?_⟩
      · simp only [Statement.no_struct_pack]
        exact hp
      · simp only [Statement.names_lt, Bool.and_eq_true, decide_eq_true_eq]
        exact ⟨hn, Nat.lt_of_lt_of_le hne.2 hc⟩
      · simp only [Statement.esize]
        have hexp1 : (ty.esize + 1) * (r.esize + 1) =
            ty.esize * (r.esize + 1) + (r.esize + 1) := by ring
        omega
  | fuel + 1, ctx, .decl ty n (some v), name, r, hce, hcr, hne, hnr, hfuel => by
      simp only [Statement.esize] at hfuel
      simp only [Statement.no_struct_pack, Bool.and_eq_true] at hce
      simp only [Statement.names_lt, Bool.and_eq_true, decide_eq_true_eq] at hne
      have hexp : (ty.esize + v.esize + 1) * (r.esize + 2) =
          ty.esize * (r.esize + 2) + v.esize * (r.esize + 2) + (r.esize + 2) := by
        ring
      have H1 := clean_subst_ok fuel ctx ty name r hce.1 hcr hne.1.1 hnr (by omega)
      rcases h1 : expr_subst fuel ctx ty name r with ⟨b1, ty', c1⟩
      rw [h1] at H1
      have hb1 : b1 = true := H1.1
      subst hb1
      have hc1 : ctx ≤ c1 := H1.2.1
      have hp1 : ty'.no_struct_pack = true := H1.2.2.1
      have hn1 : ty'.names_lt c1 = true := H1.2.2.2.1
      have hs1 : ty'.esize ≤ ty.esize * (r.esize + 1) := H1.2.2.2.2
      have H2 := clean_subst_ok fuel c1 v name r hce.2 hcr
        (expr_names_lt_mono v hc1 hne.2) (expr_names_lt_mono r hc1 hnr) (by omega)
      rcases h2 : expr_subst fuel c1 v name r with ⟨b2, v', c2⟩
      rw [h2] at H2
      have hb2 : b2 = true := H2.1
      subst hb2
      have hc2 : c1 ≤ c2 := H2.2.1
      have hp2 : v'.no_struct_pack = true := H2.2.2.1
      have hn2 : v'.names_lt c2 = true := H2.2.2.2.1
      have hs2 : v'.esize ≤ v.esize * (r.esize + 1) := H2.2.2.2.2
      simp only [statement_subst, h1, if_true, h2]
      refine ⟨rfl, Nat.le_trans hc1 hc2, ?_, ?_, ?_⟩
      · simp only [Statement.no_struct_pack, Bool.and_eq_true]
        exact ⟨hp1, hp2⟩
      · simp only [Statement.names_lt, Bool.and_eq_true, decide_eq_true_eq]
        exact ⟨⟨expr_names_lt_mono ty' hc2 hn1,
          Nat.lt_of_lt_of_le hne.1.2 (Nat.le_trans hc1 hc2)⟩, hn2⟩
      · simp only [Statement.esize]
        have hexp1 : (ty.esize + v.esize + 1) * (r.esize + 1) =
            ty.esize * (r.esize + 1) + v.esize * (r.esize + 1) + (r.esize + 1) := by
          ring
        omega
  | fuel + 1, ctx, .ifThenElse ifs els, name, r, hce, hcr, hne, hnr, hfuel => by
      simp only [Statement.esize] at hfuel
      simp only [Statement.no_struct_pack, Bool.and_eq_true] at hce
      simp only [Statement.names_lt, Bool.and_eq_true] at hne
      have hexp : (ifs.esize + els.esize + 1) * (r.esize + 2) =
          ifs.esize * (r.esize + 2) + els.esize * (r.esize + 2) + (r.esize + 2) := by
        ring
      have H1 := clean_subst_ok_ifs fuel ctx ifs name r hce.1 hcr hne.1 hnr (by omega)
      rcases h1 : stmt_ifs_subst fuel ctx ifs name r with ⟨b1, ifs', c1⟩
      rw [h1] at H1
      have hb1 : b1 = true := H1.1
      subst hb1
      have hc1 : ctx ≤ c1 := H1.2.1
      have hp1 : ifs'.no_struct_pack = true := H1.2.2.1
      have hn1 : ifs'.names_lt c1 = true := H1.2.2.2.1
      have hs1 : ifs'.esize ≤ ifs.esize * (r.esize + 1) := H1.2.2.2.2
      have H2 := clean_subst_ok_block fuel c1 els name r hce.2 hcr
        (block_names_lt_mono els hc1 hne.2) (expr_names_lt_mono r hc1 hnr) (by omega)
      rcases h2 : block_subst fuel c1 els name r with ⟨b2, els', c2⟩
      rw [h2] at H2
      have hb2 : b2 = true := H2.1
      subst hb2
      have hc2 : c1 ≤ c2 := H2.2.1
      have hp2 : els'.no_struct_pack = true := H2.2.2.1
      have hn2 : els'.names_lt c2 = true := H2.2.2.2.1
      have hs2 : els'.esize ≤ els.esize * (r.esize + 1) := H2.2.2.2.2
      simp only [statement_subst, h1, if_true, h2]
      refine ⟨rfl, Nat.le_trans hc1 hc2, ?_, ?_, ?_⟩
      · simp only [Statement.no_struct_pack, Bool.and_eq_true]
        exact ⟨hp1, hp2⟩
      · simp only [Statement.names_lt, Bool.and_eq_true]
        exact ⟨iflist_names_lt_mono ifs' hc2 hn1, hn2⟩
      · simp only [Statement.esize]
        have hexp1 : (ifs.esize + els.esize + 1) * (r.esize + 1) =
            ifs.esize * (r.esize + 1) + els.esize * (r.esize + 1) + (r.esize + 1) := by
          ring
        omega
termination_by structural f _ _ _ _ _ _ _ _ _ => f

/-- `clean_subst_ok` for the statement-level `if` loop. -/
theorem clean_subst_ok_ifs : (fuel : Nat) → (ctx : Context) →
    (ifs : IfList) → (name : Sym) → (r : Expr) →
    ifs.no_struct_pack = true → r.no_struct_pack = true →
    ifs.names_lt ctx = true → r.names_lt ctx = true →
    ifs.esize * (r.esize + 2) ≤ fuel →
    CleanOutIfs ctx ifs r.esize (stmt_ifs_subst fuel ctx ifs name r)
  | 0, ctx, ifs, name, r, _, _, _, _, hfuel =>
      absurd hfuel (by
        have h1 : 1 ≤ ifs.esize := by
          cases ifs <;> simp_arith [IfList.esize]
        have h2 : 1 * (r.esize + 2) ≤ ifs.esize * (r.esize + 2) :=
          mul_le_mul_right_nat _ h1
        omega)
  | fuel + 1, ctx, .nil, name, r, _, _, _, _, _ => by
      simp only [stmt_ifs_subst]
      exact ⟨rfl, Nat.le_refl ctx, rfl, rfl, by simp [IfList.esize]⟩
  | fuel + 1, ctx, .cons co t rest, name, r, hcf, hcr, hnf, hnr, hfuel => by
      simp only [IfList.esize] at hfuel
      simp only [IfList.no_struct_pack, Bool.and_eq_true] at hcf
      simp only [IfList.names_lt, Bool.and_eq_true] at hnf
      have hexp : (co.esize + t.esize + rest.esize + 1) * (r.esize + 2) =
          co.esize * (r.esize + 2) + t.esize * (r.esize + 2) +
            rest.esize * (r.esize + 2) + (r.esize + 2) := by
        ring
      have H1 := clean_subst_ok fuel ctx co name r hcf.1.1 hcr hnf.1.1 hnr (by omega)
      rcases h1 : expr_subst fuel ctx co name r with ⟨b1, co', c1⟩
      rw [h1] at H1
      have hb1 : b1 = true := H1.1
      subst hb1
      have hc1 : ctx ≤ c1 := H1.2.1
      have hp1 : co'.no_struct_pack = true := H1.2.2.1
      have hn1 : co'.names_lt c1 = true := H1.2.2.2.1
      have hs1 : co'.esize ≤ co.esize * (r.esize + 1) := H1.2.2.2.2
      have H2 := clean_subst_ok_block fuel c1 t name r hcf.1.2 hcr
        (block_names_lt_mono t hc1 hnf.1.2) (expr_names_lt_mono r hc1 hnr) (by omega)
      rcases h2 : block_subst fuel c1 t name r with ⟨b2, t', c2⟩
      rw [h2] at H2
      have hb2 : b2 = true := H2.1
      subst hb2
      have hc2 : c1 ≤ c2 := H2.2.1
      have hp2 : t'.no_struct_pack = true := H2.2.2.1
      have hn2 : t'.names_lt c2 = true := H2.2.2.2.1
      have hs2 : t'.esize ≤ t.esize * (r.esize + 1) := H2.2.2.2.2
      have H3 := clean_subst_ok_ifs fuel c2 rest name r hcf.2 hcr
        (iflist_names_lt_mono rest (Nat.le_trans hc1 hc2) hnf.2)
        (expr_names_lt_mono r (Nat.le_trans hc1 hc2) hnr) (by omega)
      rcases h3 : stmt_ifs_subst fuel c2 rest name r with ⟨b3, rest', c3⟩
      rw [h3] at H3
      have hb3 : b3 = true := H3.1
      subst hb3
      have hc3 : c2 ≤ c3 := H3.2.1
      have hp3 : rest'.no_struct_pack = true := H3.2.2.1
      have hn3 : rest'.names_lt c3 = true := H3.2.2.2.1
      have hs3 : rest'.esize ≤ rest.esize * (r.esize + 1) := H3.2.2.2.2
      simp only [stmt_ifs_subst, h1, if_true, h2, h3]
      refine ⟨rfl, Nat.le_trans hc1 (Nat.le_trans hc2 hc3), ?_, ?_, ?_⟩
      · simp only [IfList.no_struct_pack, Bool.and_eq_true]
        exact ⟨⟨hp1, hp2⟩, hp3⟩
      · simp only [IfList.names_lt, Bool.and_eq_true]
        exact ⟨⟨expr_names_lt_mono co' (Nat.le_trans hc2 hc3) hn1,
          block_names_lt_mono t' hc3 hn2⟩, hn3⟩
      · simp only [IfList.esize]
        have hexp1 : (co.esize + t.esize + rest.esize + 1) * (r.esize + 1) =
            co.esize * (r.esize + 1) + t.esize * (r.esize + 1) +
              rest.esize * (r.esize + 1) + (r.esize + 1) := by
          ring
        omega
termination_by structural f _ _ _ _ _ _ _ _ _ => f

/-- `clean_subst_ok` for blocks. -/
theorem clean_subst_ok_block : (fuel : Nat) → (ctx : Context) →
    (bl : Block) → (name : Sym) → (r : Expr) →
    bl.no_struct_pack = true → r.no_struct_pack = true →
    bl.names_lt ctx = true → r.names_lt ctx = true →
    bl.esize * (r.esize + 2) ≤ fuel →
    CleanOutBlock ctx bl r.esize (block_subst fuel ctx bl name r)
  | 0, ctx, bl, name, r, _, _, _, _, hfuel =>
      absurd hfuel (by
        have h1 : 1 ≤ bl.esize := by
          cases bl <;> simp_arith [Block.esize]
        have h2 : 1 * (r.esize + 2) ≤ bl.esize * (r.esize + 2) :=
          mul_le_mul_right_nat _ h1
        omega)
  | fuel + 1, ctx, .mk stmts, name, r, hce, hcr, hne, hnr, hfuel => by
      simp only [Block.esize] at hfuel
      simp only [Block.no_struct_pack] at hce
      simp only [Block.names_lt] at hne
      have hexp : (stmts.esize + 1) * (r.esize + 2) =
          stmts.esize * (r.esize + 2) + (r.esize + 2) := by ring
      have H := clean_subst_ok_stmts fuel ctx stmts name r hce hcr hne hnr (by omega)
      rcases h : block_stmts_subst fuel ctx stmts name r with ⟨b, stmts', c⟩
      rw [h] at H
      have hb : b = true := H.1
      subst hb
      have hc : ctx ≤ c := H.2.1
      have hp : stmts'.no_struct_pack = true := H.2.2.1
      have hn : stmts'.names_lt c = true := H.2.2.2.1
      have hs : stmts'.esize ≤ stmts.esize * (r.esize + 1) := H.2.2.2.2
      simp only [block_subst, h]
      refine ⟨rfl, hc, ?_, ?_, ?_⟩
      · simp only [Block.no_struct_pack]
        exact hp
      · simp only [Block.names_lt]
        exact hn
      · simp only [Block.esize]
        have hexp1 : (stmts.esize + 1) * (r.esize + 1) =
            stmts.esize * (r.esize + 1) + (r.esize + 1) := by ring
        omega
termination_by structural f _ _ _ _ _ _ _ _ _ => f

/-- `clean_subst_ok` for statement lists. -/
theorem clean_subst_ok_stmts : (fuel : Nat) → (ctx : Context) →
    (sl : StmtList) → (name : Sym) → (r : Expr) →
    sl.no_struct_pack = true → r.no_struct_pack = true →
    sl.names_lt ctx = true → r.names_lt ctx = true →
    sl.esize * (r.esize + 2) ≤ fuel →
    CleanOutStmts ctx sl r.esize (block_stmts_subst fuel ctx sl name r)
  | 0, ctx, sl, name, r, _, _, _, _, hfuel =>
      absurd hfuel (by
        have h1 : 1 ≤ sl.esize := by
          cases sl <;> simp_arith [StmtList.esize]
        have h2 : 1 * (r.esize + 2) ≤ sl.esize * (r.esize + 2) :=
          mul_le_mul_right_nat _ h1
        omega)
  | fuel + 1, ctx, .nil, name, r, _, _, _, _, _ => by
      simp only [block_stmts_subst]
      exact ⟨rfl, Nat.le_refl ctx, rfl, rfl, by simp [StmtList.esize]⟩
  | fuel + 1, ctx, .cons s rest, name, r, hcf, hcr, hnf, hnr, hfuel => by
      simp only [StmtList.esize] at hfuel
      simp only [StmtList.no_struct_pack, Bool.and_eq_true] at hcf
      simp only [StmtList.names_lt, Bool.and_eq_true] at hnf
      have hexp : (s.esize + rest.esize + 1) * (r.esize + 2) =
          s.esize * (r.esize + 2) + rest.esize * (r.esize + 2) + (r.esize + 2) := by
        ring
      have H1 := clean_subst_ok_statement fuel ctx s name r hcf.1 hcr hnf.1 hnr
        (by omega)
      rcases h1 : statement_subst fuel ctx s name r with ⟨b1, s', c1⟩
      rw [h1] at H1
      have hb1 : b1 = true := H1.1
      subst hb1
      have hc1 : ctx ≤ c1 := H1.2.1
      have hp1 : s'.no_struct_pack = true := H1.2.2.1
      have hn1 : s'.names_lt c1 = true := H1.2.2.2.1
      have hs1 : s'.esize ≤ s.esize * (r.esize + 1) := H1.2.2.2.2
      have H2 := clean_subst_ok_stmts fuel c1 rest name r hcf.2 hcr
        (stmts_names_lt_mono rest hc1 hnf.2)
        (expr_names_lt_mono r hc1 hnr) (by omega)
      rcases h2 : block_stmts_subst fuel c1 rest name r with ⟨b2, rest', c2⟩
      rw [h2] at H2
      have hb2 : b2 = true := H2.1
      subst hb2
      have hc2 : c1 ≤ c2 := H2.2.1
      have hp2 : rest'.no_struct_pack = true := H2.2.2.1
      have hn2 : rest'.names_lt c2 = true := H2.2.2.2.1
      have hs2 : rest'.esize ≤ rest.esize * (r.esize + 1) := H2.2.2.2.2
      simp only [block_stmts_subst, h1, if_true, h2]
      refine ⟨rfl, Nat.le_trans hc1 hc2, ?_, ?_, ?_⟩
      · simp only [StmtList.no_struct_pack, Bool.and_eq_true]
        exact ⟨hp1, hp2⟩
      · simp only [StmtList.names_lt, Bool.and_eq_true]
        exact ⟨statement_names_lt_mono s' hc2 hn1, hn2⟩
      · simp only [StmtList.esize]
        have hexp1 : (s.esize + rest.esize + 1) * (r.esize + 1) =
            s.esize * (r.esize + 1) + rest.esize * (r.esize + 1) + (r.esize + 1) := by
          ring
        omega
termination_by structural f _ _ _ _ _ _ _ _ _ => f

end


/-- C10: implicit totality of success. `expr_subst` can only return fail
through the field-name capture check of a `Struct` or `Pack`: whenever the
subject term and the replacement contain no `Struct` and no `Pack`
sub-term, substitution returns ok. Side conditions of the embedding: every
symbol in sight is below the gensym counter `ctx` (the program-wide
interning invariant that makes gensym outputs fresh), and the fuel covers
the recursion depth, `e.esize * (r.esize + 2)` sufficing. -/
theorem exprSubstCleanTotal (fuel : Nat) (ctx : Context) (e : Expr)
    (name : Sym) (r : Expr)
    (hce : e.no_struct_pack = true) (hcr : r.no_struct_pack = true)
    (hne : e.names_lt ctx = true) (hnr : r.names_lt ctx = true)
    (hfuel : e.esize * (r.esize + 2) ≤ fuel) :
    (expr_subst fuel ctx e name r).1 = true :=
  (clean_subst_ok fuel ctx e name r hce hcr hne hnr hfuel).1

/-- Witness for `exprSubstCleanTotal`: substituting `Ident 1` for symbol 0
in `fn(u8 x1) => x0` (a lambda whose parameter 1 is free in the
replacement, so the capture-resolving gensym path runs) succeeds. -/
theorem exprSubstCleanTotalWitness :
    (Expr.lambda (.cons (.literal .u8) 1 .nil) (.ident 0)).no_struct_pack = true ∧
    (Expr.ident 1).no_struct_pack = true ∧
    (Expr.lambda (.cons (.literal .u8) 1 .nil) (.ident 0)).names_lt 2 = true ∧
    (Expr.ident 1).names_lt 2 = true ∧
    (Expr.lambda (.cons (.literal .u8) 1 .nil) (.ident 0)).esize *
      ((Expr.ident 1).esize + 2) ≤ 15 ∧
    (expr_subst 15 2 (Expr.lambda (.cons (.literal .u8) 1 .nil) (.ident 0))
      0 (Expr.ident 1)).1 = true :=
  ⟨by decide, by decide, by decide, by decide, by decide,
   exprSubstCleanTotal 15 2 (Expr.lambda (.cons (.literal .u8) 1 .nil) (.ident 0))
     0 (Expr.ident 1) (by decide) (by decide) (by decide) (by decide) (by decide)⟩

end DepC
